import Mathlib

/-!
# Progress tracker (`process.go`): shallow embedding

The Go type `Process` and its methods are embedded as pure functions over an
explicit state record.

Modelling conventions:

* `float64` is `F64`: the values of IEEE 754 binary64 (not-a-number, the
  infinities, negative zero, the finite numbers by their value), with `+`, `*`,
  `/` rounded to nearest, ties to even, and the comparisons of the standard.
* `int` is `Int`; `float64(n)` rounds, and `int(x)` discards the fraction of a
  value that fits 64 bits and otherwise gives the least `int`, `-2^63`, as
  amd64 does (the language leaves that result to the implementation). The
  results about rendering are stated for effective widths below `2^53`, where
  `float64(n)` is exact; the greatest `int`, `2^63 - 1`, is the width at which
  they are shown to fail.
* `time.Now()` is an input: every rendering call receives the two clock
  readings it takes (`Clock`), in nanoseconds.
* The sink and the callback are external: a call of `fmt.Fprintf` and a call
  of `Cancel` are recorded as events, in order.
* `strings.Repeat` panics on a negative count; a panic ends the call and is
  recorded in the outcome as a fault. Strings have no length limit.
* The mutex is not modelled: calls are executed one after another.
* The `Fprintf` call is recorded with its format string and operands. The text
  it writes is given by a model of `fmt.Sprintf` on the directives `%%`, `%s`
  and `%f` (flag `0`, width, precision) and of `time.Duration.String`; formats
  outside this fragment have no text in the model.
* Namespace `Exact` repeats the rendering functions over exact rational
  arithmetic, the domain of the one property stated over exact arithmetic.
-/

namespace Progress

/-- An `io.Writer` value, known by its identity. -/
abbrev Writer := Nat

/-- The writer `os.Stdout`. -/
def osStdout : Writer := 0

/-- The two readings of `time.Now()` taken by one call of `render`: the one
inside `once.Do` (used only when the function runs) and the one among the
arguments of `Fprintf`. -/
structure Clock where
  onceNow : Int
  writeNow : Int
  deriving DecidableEq, Repr

/-- A run-time panic. -/
inductive Fault where
  | negativeRepeatCount
  deriving DecidableEq, Repr

/-- The integer obtained from a rational by discarding the fraction. -/
def truncate (x : ℚ) : Int :=
  Int.tdiv x.num x.den

/-- Concatenation of `k` copies of a character sequence. -/
def repeatChars (cs : List Char) : Nat → List Char
  | 0 => []
  | k + 1 => cs ++ repeatChars cs k

/-- Library function `strings.Repeat`: panics when the count is negative. -/
def stringsRepeat (s : String) (count : Int) : Except Fault String :=
  if count < 0 then .error Fault.negativeRepeatCount
  else .ok ⟨repeatChars s.data count.toNat⟩

/-- The format string built by `render` around the two halves of the bar. -/
def lineFormat (filled rest format : String) : String :=
  "\r%s%5.1f%% [" ++ filled ++ rest ++ "] [" ++ format ++ "/" ++ format ++ " in %s]"

/-- Rounding of a non-negative rational to the nearest natural number, ties to
the even one. -/
def roundHalfEven (y : ℚ) : Nat :=
  if y - ⌊y⌋₊ < 1 / 2 then ⌊y⌋₊
  else if 1 / 2 < y - ⌊y⌋₊ then ⌊y⌋₊ + 1
  else if ⌊y⌋₊ % 2 = 0 then ⌊y⌋₊ else ⌊y⌋₊ + 1

/-- The exponent of the binade of a magnitude: that of its leading bit, and at
least the exponent of the subnormal numbers. -/
def binade (a : ℚ) : Int :=
  max (Int.log 2 a) (-1022)

/-- Rounding of a magnitude to the binary64 grid: 53 significant bits in its
binade, ties to even. The result may reach `2^1024`, which stands for
overflow. -/
def roundMag (a : ℚ) : ℚ :=
  (roundHalfEven (a / 2 ^ (binade a - 52)) : ℚ) * 2 ^ (binade a - 52)

/-- A `float64`: not-a-number, the infinities, negative zero, and the finite
numbers by their value (`fin 0` is positive zero). Every `float64` is a value
of this type; the operations below round their results to `float64`, and a
statement about every `fin q` holds of every finite `float64` in particular. -/
inductive F64 where
  | nan
  | posInf
  | negInf
  | negZero
  | fin (q : ℚ)
  deriving DecidableEq, Repr

namespace F64

def isNaN : F64 → Bool
  | nan => true
  | _ => false

def isInf : F64 → Bool
  | posInf => true
  | negInf => true
  | _ => false

/-- The sign bit. -/
def isNeg : F64 → Bool
  | negInf => true
  | negZero => true
  | fin q => decide (q < 0)
  | _ => false

/-- The value of a finite number (0 for the others). -/
def toRat : F64 → ℚ
  | fin q => q
  | _ => 0

def isZero (a : F64) : Bool :=
  !a.isNaN && !a.isInf && decide (a.toRat = 0)

def infOf (neg : Bool) : F64 :=
  if neg then negInf else posInf

def zeroOf (neg : Bool) : F64 :=
  if neg then negZero else fin 0

/-- The `float64` of sign `neg` nearest to the magnitude `a ≥ 0`. -/
def ofSignMag (neg : Bool) (a : ℚ) : F64 :=
  if 2 ^ 1024 ≤ roundMag a then infOf neg
  else if roundMag a = 0 then zeroOf neg
  else fin (if neg then -roundMag a else roundMag a)

/-- The operator `*` of `float64`. -/
def mul (a b : F64) : F64 :=
  if a.isNaN || b.isNaN then nan
  else if a.isInf then (if b.isZero then nan else infOf (xor a.isNeg b.isNeg))
  else if b.isInf then (if a.isZero then nan else infOf (xor a.isNeg b.isNeg))
  else ofSignMag (xor a.isNeg b.isNeg) (|a.toRat| * |b.toRat|)

/-- The operator `/` of `float64`. -/
def div (a b : F64) : F64 :=
  if a.isNaN || b.isNaN then nan
  else if a.isInf then (if b.isInf then nan else infOf (xor a.isNeg b.isNeg))
  else if b.isInf then zeroOf (xor a.isNeg b.isNeg)
  else if b.isZero then (if a.isZero then nan else infOf (xor a.isNeg b.isNeg))
  else ofSignMag (xor a.isNeg b.isNeg) (|a.toRat| / |b.toRat|)

/-- The operator `+` of `float64`. -/
def add (a b : F64) : F64 :=
  if a.isNaN || b.isNaN then nan
  else if a.isInf then (if b.isInf && (a.isNeg != b.isNeg) then nan else a)
  else if b.isInf then b
  else if a.toRat + b.toRat = 0 then zeroOf (a.isNeg && b.isNeg)
  else ofSignMag (decide (a.toRat + b.toRat < 0)) |a.toRat + b.toRat|

/-- The comparison `a <= b` of `float64`. -/
def le (a b : F64) : Bool :=
  if a.isNaN || b.isNaN then false
  else if a = negInf || b = posInf then true
  else if a = posInf || b = negInf then false
  else decide (a.toRat ≤ b.toRat)

/-- The comparison `a < b` of `float64`. -/
def lt (a b : F64) : Bool :=
  if a.isNaN || b.isNaN then false
  else if a = posInf || b = negInf then false
  else if a = negInf || b = posInf then true
  else decide (a.toRat < b.toRat)

/-- The conversion `float64(n)` of an `int`. -/
def ofInt (n : Int) : F64 :=
  ofSignMag (decide (n < 0)) |(n : ℚ)|

/-- The conversion `int(x)` to the 64-bit `int`: the fraction is discarded.
The result for a value that does not fit (or is not a number) is left to the
implementation by the language; the model takes that of amd64, the least
`int`. -/
def toInt (a : F64) : Int :=
  if a.isNaN || a.isInf then -2 ^ 63
  else if -2 ^ 63 ≤ truncate a.toRat ∧ truncate a.toRat < 2 ^ 63 then truncate a.toRat
  else -2 ^ 63

/-- The number is finite and its value is `q` (either zero has the value 0). -/
def hasValue (a : F64) (q : ℚ) : Prop :=
  a.isNaN = false ∧ a.isInf = false ∧ a.toRat = q

end F64

/-- The struct `Process`. `W` and `Cancel` are `none` when nil; `once` is the
done flag of the `sync.Once`. -/
structure Process where
  Total : F64
  value : F64
  Len : Int
  Format : String
  W : Option Writer
  Prefix : String
  Cancel : Option Nat
  startTime : Int
  once : Bool
  deriving DecidableEq, Repr

/-- The zero value of `Process`. -/
def Process.zero : Process :=
  ⟨F64.fin 0, F64.fin 0, 0, "", none, "", none, 0, false⟩

/-- An operand handed to `fmt.Fprintf`. -/
inductive Arg where
  | str (s : String)
  | float (x : F64)
  | duration (d : Int)
  deriving DecidableEq, Repr

/-- An observable effect of a call. -/
inductive Event where
  | fprintf (w : Writer) (format : String) (args : List Arg)
  | call (f : Nat)
  deriving DecidableEq, Repr

/-- What a method call leaves behind: the tracker, the events in order, and the
panic that ended the call, if any. -/
structure Outcome where
  proc : Process
  events : List Event
  fault : Option Fault
  deriving DecidableEq, Repr

def getTotal (p : Process) : F64 :=
  if F64.lt (F64.fin 0) p.Total then p.Total else F64.fin 100

def getFormat (p : Process) : String :=
  if p.Format ≠ "" then p.Format else "%1.0f"

def getWriter (p : Process) : Writer :=
  match p.W with
  | some w => w
  | none => osStdout

def getLen (p : Process) : Int :=
  if p.Len > 0 then p.Len else 24

def getRate (p : Process) : F64 :=
  let total := getTotal p
  if F64.le total p.value then F64.fin 1 else F64.div p.value total

/-- The statement `p.once.Do(func() { p.startTime = time.Now() })`. -/
def onceDo (clk : Clock) (p : Process) : Process :=
  if p.once then p else { p with startTime := clk.onceNow, once := true }

def render (clk : Clock) (p0 : Process) : Outcome :=
  let p : Process := onceDo clk p0
  let total := getTotal p
  let format := getFormat p
  let w := getWriter p
  let n := getLen p
  let rate := getRate p
  let done := F64.toInt (F64.mul (F64.ofInt n) rate)
  match stringsRepeat "#" done with
  | .error e => ⟨p, [], some e⟩
  | .ok filled =>
    match stringsRepeat "." (n - done) with
    | .error e => ⟨p, [], some e⟩
    | .ok rest =>
      let written := Event.fprintf w (lineFormat filled rest format)
        [Arg.str p.Prefix, Arg.float (F64.mul rate (F64.fin 100)), Arg.float p.value,
          Arg.float total, Arg.duration (clk.writeNow - p.startTime)]
      let called : List Event :=
        if F64.le total p.value then
          match p.Cancel with
          | some f => [Event.call f]
          | none => []
        else []
      ⟨p, written :: called, none⟩

def setValue (v : F64) (clk : Clock) (p : Process) : Outcome :=
  render clk { p with value := v }

def SetLen (n : Int) (p : Process) : Outcome :=
  ⟨{ p with Len := n }, [], none⟩

def SetPrefix (s : String) (p : Process) : Outcome :=
  ⟨{ p with Prefix := s }, [], none⟩

def SetTotal (v : F64) (clk : Clock) (p : Process) : Outcome :=
  render clk { p with Total := v }

def SetValue (v : F64) (clk : Clock) (p : Process) : Outcome :=
  setValue v clk p

def Increment (clk : Clock) (p : Process) : Outcome :=
  setValue (F64.add p.value (F64.fin 1)) clk p

def Done (clk : Clock) (p : Process) : Outcome :=
  setValue (getTotal p) clk p

def SetFormat (format : String) (p : Process) : Outcome :=
  ⟨{ p with Format := format }, [], none⟩

def SetWriter (w : Option Writer) (p : Process) : Outcome :=
  ⟨{ p with W := w }, [], none⟩

/-- Modelled from the spec: the method `IncrementTotal` (`IncTotal` in
`process_test.go`) is called by the tests but not defined in `process.go`.
Spec 4.1: it reads the current total, adds 1, stores, then renders. -/
def IncrementTotal (clk : Clock) (p : Process) : Outcome :=
  render clk { p with Total := F64.add p.Total (F64.fin 1) }

/-- A call of one public method. -/
inductive Call where
  | setLen (n : Int)
  | setPrefix (s : String)
  | setTotal (v : F64)
  | setValue (v : F64)
  | increment
  | done
  | setFormat (format : String)
  | setWriter (w : Option Writer)
  deriving DecidableEq, Repr

/-- Whether the method ends in `render`. -/
def Call.renders : Call → Bool
  | .setTotal _ | .setValue _ | .increment | .done => true
  | _ => false

/-- Execution of one call, with the clock readings it may take. -/
def Call.exec : Call → Clock → Process → Outcome
  | .setLen n, _, p => SetLen n p
  | .setPrefix s, _, p => SetPrefix s p
  | .setTotal v, clk, p => SetTotal v clk p
  | .setValue v, clk, p => SetValue v clk p
  | .increment, clk, p => Increment clk p
  | .done, clk, p => Done clk p
  | .setFormat f, _, p => SetFormat f p
  | .setWriter w, _, p => SetWriter w p

/-- Execution of a sequence of calls by one caller; a panic ends the sequence. -/
def runCalls : List (Call × Clock) → Process → Outcome
  | [], p => ⟨p, [], none⟩
  | (c, clk) :: rest, p =>
    let o := c.exec clk p
    match o.fault with
    | some e => ⟨o.proc, o.events, some e⟩
    | none =>
      let o2 := runCalls rest o.proc
      ⟨o2.proc, o.events ++ o2.events, o2.fault⟩

/-- Successive calls of `IncrementTotal` by one caller, one per pair of clock
readings; a panic ends the sequence. -/
def runIncrementTotal : List Clock → Process → Outcome
  | [], p => ⟨p, [], none⟩
  | clk :: rest, p =>
    let o := IncrementTotal clk p
    match o.fault with
    | some e => ⟨o.proc, o.events, some e⟩
    | none =>
      let o2 := runIncrementTotal rest o.proc
      ⟨o2.proc, o.events ++ o2.events, o2.fault⟩

/-- The `Fprintf` calls among the events. -/
def writes : List Event → List (Writer × String × List Arg)
  | [] => []
  | Event.fprintf w f args :: es => (w, f, args) :: writes es
  | Event.call _ :: es => writes es

/-- The number of callback invocations among the events. -/
def callCount : List Event → Nat
  | [] => 0
  | Event.fprintf _ _ _ :: es => callCount es
  | Event.call _ :: es => callCount es + 1

/-- The value of the local `done` of `render`: `int(float64(n) * rate)`. -/
def fillCount (p : Process) : Int :=
  F64.toInt (F64.mul (F64.ofInt (getLen p)) (getRate p))

/-- The callback part of `render`: the events of its closing `if`. -/
def completion (p : Process) : List Event :=
  if F64.le (getTotal p) p.value then
    match p.Cancel with
    | some f => [Event.call f]
    | none => []
  else []

/-- The `Fprintf` call of `render` for a tracker whose start time is `start`. -/
def written (clk : Clock) (start : Int) (p : Process) : Event :=
  Event.fprintf (getWriter p)
    (lineFormat ⟨List.replicate (fillCount p).toNat '#'⟩
      ⟨List.replicate (getLen p - fillCount p).toNat '.'⟩ (getFormat p))
    [Arg.str p.Prefix, Arg.float (F64.mul (getRate p) (F64.fin 100)), Arg.float p.value,
      Arg.float (getTotal p), Arg.duration (clk.writeNow - start)]

/-- The percentage operand (the second operand) of an `Fprintf` call. -/
def percentOf : Event → Option Arg
  | Event.fprintf _ _ (_ :: x :: _) => some x
  | _ => none

/-- The value and total operands (the third and fourth) of an `Fprintf` call. -/
def fractionOf : Event → Option (Arg × Arg)
  | Event.fprintf _ _ (_ :: _ :: v :: t :: _) => some (v, t)
  | _ => none

/-- The percentages handed to the formatter, one per write, in order. -/
def percentages (es : List Event) : List Arg :=
  es.filterMap percentOf

/-- The value/total pairs handed to the formatter, one per write, in order. -/
def fractions (es : List Event) : List (Arg × Arg) :=
  es.filterMap fractionOf

/-- The first event of the outcome is a write whose total operand is `total`,
whose format string carries `format` and a bar of `width` characters. -/
def rendersWith (o : Outcome) (total : F64) (width : Int) (format : String) : Prop :=
  ∃ w filled rest a b c d tail,
    o.events = Event.fprintf w (lineFormat filled rest format) [a, b, c, Arg.float total, d] :: tail ∧
    ((filled ++ rest).length : Int) = width

/-- A tracker with `Total = 101`, `Len = 40` and `value = 3`. -/
def sample : Process :=
  ⟨F64.fin 101, F64.fin 3, 40, "", none, "", none, 0, false⟩

/-- A tracker whose `Len` is the greatest `int`, `2^63 - 1`. -/
def widest : Process :=
  ⟨F64.fin 0, F64.fin 0, 2 ^ 63 - 1, "", none, "", none, 0, false⟩

/-- The first event of the outcome is a write whose bar is `filled` characters
`#` followed by `width - filled` characters `.`. -/
def showsBar (o : Outcome) (filled width : Int) : Prop :=
  ∃ w format args tail,
    o.events = Event.fprintf w
      (lineFormat ⟨List.replicate filled.toNat '#'⟩ ⟨List.replicate (width - filled).toNat '.'⟩
        format) args :: tail

/-- Every call of the sequence leaves the tracker with value at least its
effective total. -/
def completeAfterEach : List (Call × Clock) → Process → Prop
  | [], _ => True
  | (c, clk) :: rest, p =>
    F64.le (getTotal (c.exec clk p).proc) (c.exec clk p).proc.value = true ∧
      completeAfterEach rest (c.exec clk p).proc

/-- The first event of the outcome is a write to `w` whose first operand is the
prefix `pre`, whose format string carries `format` and a bar of `width`
characters. -/
def writesWith (o : Outcome) (w : Writer) (pre : String) (width : Int) (format : String) : Prop :=
  ∃ filled rest b c d e tail,
    o.events = Event.fprintf w (lineFormat filled rest format) [Arg.str pre, b, c, d, e] :: tail ∧
    ((filled ++ rest).length : Int) = width

/-- The clock of the first call of the sequence that ends in `render`. -/
def firstRender : List (Call × Clock) → Option Clock
  | [] => none
  | (c, clk) :: rest => if c.renders then some clk else firstRender rest

/-- Padding on the left with spaces up to `width` characters, as `fmt` pads
without the `-` flag. -/
def padLeft (width : Nat) (cs : List Char) : List Char :=
  List.replicate (width - cs.length) ' ' ++ cs

/-- The decimal text of a rational with `prec` fraction digits, rounded to
nearest with ties to even: sign, integer digits, point and fraction digits. -/
def formatRat (prec : Nat) (x : ℚ) : List Char :=
  let scaled := x.num.natAbs * 10 ^ prec
  let q := scaled / x.den
  let r := scaled % x.den
  let m := if 2 * r > x.den ∨ (2 * r = x.den ∧ q % 2 = 1) then q + 1 else q
  let digits := Nat.toDigits 10 (m % 10 ^ prec)
  (if x < 0 then ['-'] else []) ++ Nat.toDigits 10 (m / 10 ^ prec) ++
    (if prec = 0 then [] else '.' :: (List.replicate (prec - digits.length) '0' ++ digits))

/-- Library formatting of a `float64` by the verb `%f` with precision `prec`:
the exact value of the number, correctly rounded. -/
def formatFloat (prec : Nat) (x : F64) : List Char :=
  match x with
  | F64.nan => ['N', 'a', 'N']
  | F64.posInf => ['+', 'I', 'n', 'f']
  | F64.negInf => ['-', 'I', 'n', 'f']
  | F64.negZero => '-' :: formatRat prec 0
  | F64.fin q => formatRat prec q

/-- Library function `fmtFrac` of package `time`: the fraction digits of
`v / 10^prec` without trailing zeros, with the leading point unless empty, and
the integer part. -/
def fmtFrac : Nat → Nat → Bool → List Char → List Char × Nat
  | 0, v, print, acc => (if print then '.' :: acc else acc, v)
  | k + 1, v, print, acc =>
    let print2 := print || v % 10 != 0
    fmtFrac k (v / 10) print2 (if print2 then Nat.digitChar (v % 10) :: acc else acc)

/-- Library method `time.Duration.String` on a count of nanoseconds. -/
def durationString (d : Int) : String :=
  let u := d.natAbs
  let body : List Char :=
    if u < 1000000000 then
      if u = 0 then ['0', 's']
      else if u < 1000 then
        Nat.toDigits 10 (fmtFrac 0 u false []).2 ++ (fmtFrac 0 u false []).1 ++ ['n', 's']
      else if u < 1000000 then
        Nat.toDigits 10 (fmtFrac 3 u false []).2 ++ (fmtFrac 3 u false []).1 ++ ['µ', 's']
      else
        Nat.toDigits 10 (fmtFrac 6 u false []).2 ++ (fmtFrac 6 u false []).1 ++ ['m', 's']
    else
      let secs := (fmtFrac 9 u false []).2
      let s := Nat.toDigits 10 (secs % 60) ++ (fmtFrac 9 u false []).1 ++ ['s']
      let mins := secs / 60
      if mins > 0 then
        let m := Nat.toDigits 10 (mins % 60) ++ 'm' :: s
        let hours := mins / 60
        if hours > 0 then Nat.toDigits 10 hours ++ 'h' :: m else m
      else s
  ⟨(if d < 0 then ['-'] else []) ++ body⟩

/-- Library padding of the text of a float to `width` characters: spaces on
the left, or under the flag `0` zeros after the sign; an infinity or a
not-a-number is padded with spaces under either. -/
def padFloat (zero : Bool) (width : Nat) (x : F64) (cs : List Char) : List Char :=
  if zero && !(x.isNaN || x.isInf) then
    match cs with
    | '-' :: rest => '-' :: (List.replicate (width - cs.length) '0' ++ rest)
    | _ => List.replicate (width - cs.length) '0' ++ cs
  else padLeft width cs

/-- Where the scan of a format string stands: in plain text, after `%` reading
flags, reading the width, or reading the precision after the point; `zero`
tells whether the flag `0` was read. -/
inductive Mode where
  | text
  | flags (zero : Bool)
  | width (zero : Bool) (w : Nat)
  | prec (zero : Bool) (w : Nat) (p : Nat)
  deriving DecidableEq, Repr

/-- The text of one directive with verb `verb`, flag `zero`, width `w` and
precision `prec` applied to the next operand, and the operands left: `%s` on a
string or a duration (not zero-padded), `%f` on a float. `none` stands for every
other combination. -/
def applyVerb (verb : Char) (zero : Bool) (w : Nat) (prec : Option Nat) (args : List Arg) :
    Option (List Char × List Arg) :=
  match args with
  | Arg.str s :: rest =>
    if verb = 's' ∧ prec = none ∧ (zero = false ∨ w = 0) then some (padLeft w s.data, rest)
    else none
  | Arg.duration d :: rest =>
    if verb = 's' ∧ prec = none ∧ (zero = false ∨ w = 0) then
      some (padLeft w (durationString d).data, rest)
    else none
  | Arg.float x :: rest =>
    if verb = 'f' then some (padFloat zero w x (formatFloat (prec.getD 6) x), rest) else none
  | [] => none

/-- Library function `fmt.Sprintf` on the directives `%%`, `%s` and `%f` with an
optional flag `0`, an optional width and an optional precision. `none` stands
for a format outside this fragment or one that does not use up exactly the
operands given (where `fmt` prints an error marker). -/
def fmtRun : Mode → List Char → List Arg → Option (List Char)
  | .text, [], [] => some []
  | .text, [], _ :: _ => none
  | .text, c :: cs, args =>
    if c = '%' then fmtRun (.flags false) cs args
    else (fmtRun .text cs args).map (fun out => c :: out)
  | .flags _, [], _ => none
  | .flags zero, c :: cs, args =>
    if c = '%' then
      if zero then none else (fmtRun .text cs args).map (fun out => '%' :: out)
    else if c = '0' then fmtRun (.flags true) cs args
    else if c.isDigit then fmtRun (.width zero (c.toNat - 48)) cs args
    else if c = '.' then fmtRun (.prec zero 0 0) cs args
    else
      match applyVerb c zero 0 none args with
      | some (text, rest) => (fmtRun .text cs rest).map (fun out => text ++ out)
      | none => none
  | .width _ _, [], _ => none
  | .width zero w, c :: cs, args =>
    if c.isDigit then fmtRun (.width zero (10 * w + (c.toNat - 48))) cs args
    else if c = '.' then fmtRun (.prec zero w 0) cs args
    else
      match applyVerb c zero w none args with
      | some (text, rest) => (fmtRun .text cs rest).map (fun out => text ++ out)
      | none => none
  | .prec _ _ _, [], _ => none
  | .prec zero w p, c :: cs, args =>
    if c.isDigit then fmtRun (.prec zero w (10 * p + (c.toNat - 48))) cs args
    else
      match applyVerb c zero w (some p) args with
      | some (text, rest) => (fmtRun .text cs rest).map (fun out => text ++ out)
      | none => none

/-- The text `fmt.Sprintf(format, args...)`. -/
def goSprintf (format : String) (args : List Arg) : Option String :=
  (fmtRun Mode.text format.data args).map String.mk

/-- The texts written by the `Fprintf` calls among the events, in order. -/
def linesOf : List Event → List (Option String)
  | [] => []
  | Event.fprintf _ format args :: es => goSprintf format args :: linesOf es
  | Event.call _ :: es => linesOf es

/-- The line as the claim words it: carriage return, prefix, then with no
padding the percentage to one decimal place, `% [`, the bar, `] [`, the value
and the effective total in the effective format around `/`, ` in `, the
elapsed duration and `]`. -/
def claimedLine (p : Process) (elapsed : Int) : Option String :=
  match goSprintf (getFormat p) [Arg.float p.value],
    goSprintf (getFormat p) [Arg.float (getTotal p)] with
  | some showV, some showT =>
    some ("\r" ++ p.Prefix ++ ⟨formatFloat 1 (F64.mul (getRate p) (F64.fin 100))⟩ ++ "% [" ++
      ⟨List.replicate (fillCount p).toNat '#'⟩ ++
      ⟨List.replicate (getLen p - fillCount p).toNat '.'⟩ ++ "] [" ++
      showV ++ "/" ++ showT ++ " in " ++ durationString elapsed ++ "]")
  | _, _ => none

/-! ## The rendering functions over exact arithmetic

The same `Process`, `render` and observers with `float64` as the rational
numbers and `int` as the integers, without rounding or overflow. -/

namespace Exact

/-- The struct `Process`. `W` and `Cancel` are `none` when nil; `once` is the
done flag of the `sync.Once`. -/
structure Process where
  Total : ℚ
  value : ℚ
  Len : Int
  Format : String
  W : Option Writer
  Prefix : String
  Cancel : Option Nat
  startTime : Int
  once : Bool
  deriving DecidableEq, Repr

/-- The zero value of `Process`. -/
def Process.zero : Process :=
  ⟨0, 0, 0, "", none, "", none, 0, false⟩

/-- An operand handed to `fmt.Fprintf`. -/
inductive Arg where
  | str (s : String)
  | float (x : ℚ)
  | duration (d : Int)
  deriving DecidableEq, Repr

/-- An observable effect of a call. -/
inductive Event where
  | fprintf (w : Writer) (format : String) (args : List Arg)
  | call (f : Nat)
  deriving DecidableEq, Repr

/-- What a method call leaves behind: the tracker, the events in order, and the
panic that ended the call, if any. -/
structure Outcome where
  proc : Process
  events : List Event
  fault : Option Fault
  deriving DecidableEq, Repr

/-- Conversion `int(x)`: the fraction is discarded. -/
def goInt (x : ℚ) : Int :=
  Int.tdiv x.num x.den

def getTotal (p : Process) : ℚ :=
  if p.Total > 0 then p.Total else 100

def getFormat (p : Process) : String :=
  if p.Format ≠ "" then p.Format else "%1.0f"

def getWriter (p : Process) : Writer :=
  match p.W with
  | some w => w
  | none => osStdout

def getLen (p : Process) : Int :=
  if p.Len > 0 then p.Len else 24

def getRate (p : Process) : ℚ :=
  let total := getTotal p
  if p.value ≥ total then 1 else p.value / total

/-- The statement `p.once.Do(func() { p.startTime = time.Now() })`. -/
def onceDo (clk : Clock) (p : Process) : Process :=
  if p.once then p else { p with startTime := clk.onceNow, once := true }

def render (clk : Clock) (p0 : Process) : Outcome :=
  let p : Process := onceDo clk p0
  let total := getTotal p
  let format := getFormat p
  let w := getWriter p
  let n := getLen p
  let rate := getRate p
  let done := goInt ((n : ℚ) * rate)
  match stringsRepeat "#" done with
  | .error e => ⟨p, [], some e⟩
  | .ok filled =>
    match stringsRepeat "." (n - done) with
    | .error e => ⟨p, [], some e⟩
    | .ok rest =>
      let written := Event.fprintf w (lineFormat filled rest format)
        [Arg.str p.Prefix, Arg.float (rate * 100), Arg.float p.value, Arg.float total,
          Arg.duration (clk.writeNow - p.startTime)]
      let called : List Event :=
        if p.value ≥ total then
          match p.Cancel with
          | some f => [Event.call f]
          | none => []
        else []
      ⟨p, written :: called, none⟩

/-- The number of callback invocations among the events. -/
def callCount : List Event → Nat
  | [] => 0
  | Event.fprintf _ _ _ :: es => callCount es
  | Event.call _ :: es => callCount es + 1

/-- The value of the local `done` of `render`: `int(float64(n) * rate)`. -/
def fillCount (p : Process) : Int :=
  goInt ((getLen p : ℚ) * getRate p)

/-- The callback part of `render`: the events of its closing `if`. -/
def completion (p : Process) : List Event :=
  if p.value ≥ getTotal p then
    match p.Cancel with
    | some f => [Event.call f]
    | none => []
  else []

/-- The `Fprintf` call of `render` for a tracker whose start time is `start`. -/
def written (clk : Clock) (start : Int) (p : Process) : Event :=
  Event.fprintf (getWriter p)
    (lineFormat ⟨List.replicate (fillCount p).toNat '#'⟩
      ⟨List.replicate (getLen p - fillCount p).toNat '.'⟩ (getFormat p))
    [Arg.str p.Prefix, Arg.float (getRate p * 100), Arg.float p.value, Arg.float (getTotal p),
      Arg.duration (clk.writeNow - start)]

/-- A tracker with `Total = 101`, `Len = 40` and `value = 3`. -/
def sample : Process :=
  ⟨101, 3, 40, "", none, "", none, 0, false⟩

/-- The first event of the outcome is a write whose bar is `filled` characters
`#` followed by `width - filled` characters `.`. -/
def showsBar (o : Outcome) (filled width : Int) : Prop :=
  ∃ w format args tail,
    o.events = Event.fprintf w
      (lineFormat ⟨List.replicate filled.toNat '#'⟩ ⟨List.replicate (width - filled).toNat '.'⟩
        format) args :: tail

end Exact

end Progress

/-! ## Auxiliary facts -/

namespace Progress
open F64

/-! ## Rounding -/

theorem roundHalfEven_natCast (k : Nat) : roundHalfEven (k : ℚ) = k := by
  unfold roundHalfEven
  simp

theorem roundHalfEven_mono (x y : ℚ) (hx : 0 ≤ x) (h : x ≤ y) :
    roundHalfEven x ≤ roundHalfEven y := by
  have hy : 0 ≤ y := le_trans hx h
  have hfx : (⌊x⌋₊ : ℚ) ≤ x := Nat.floor_le hx
  have hfy : (⌊y⌋₊ : ℚ) ≤ y := Nat.floor_le hy
  have hxl : x < ⌊x⌋₊ + 1 := Nat.lt_floor_add_one x
  have hyl : y < ⌊y⌋₊ + 1 := Nat.lt_floor_add_one y
  have hfl : ⌊x⌋₊ ≤ ⌊y⌋₊ := Nat.floor_mono h
  rcases Nat.lt_or_ge ⌊x⌋₊ ⌊y⌋₊ with hlt | hge
  · have h1 : roundHalfEven x ≤ ⌊x⌋₊ + 1 := by
      unfold roundHalfEven; split_ifs <;> omega
    have h2 : ⌊y⌋₊ ≤ roundHalfEven y := by
      unfold roundHalfEven; split_ifs <;> omega
    omega
  · have heq : ⌊x⌋₊ = ⌊y⌋₊ := le_antisymm hfl hge
    unfold roundHalfEven
    rw [heq]
    have hsub : x - (⌊y⌋₊ : ℚ) ≤ y - (⌊y⌋₊ : ℚ) := by linarith
    split_ifs <;> first | omega | (exfalso; linarith)

theorem roundHalfEven_le_of_le (x : ℚ) (k : Nat) (h : x ≤ k) : roundHalfEven x ≤ k := by
  rcases le_total 0 x with hx | hx
  · have := roundHalfEven_mono x k hx h
    rwa [roundHalfEven_natCast] at this
  · have hf : ⌊x⌋₊ = 0 := Nat.floor_eq_zero.mpr (by linarith)
    unfold roundHalfEven
    rw [hf]
    have : x - ((0 : Nat) : ℚ) < 1 / 2 := by push_cast; linarith
    rw [if_pos this]
    exact Nat.zero_le _

theorem le_roundHalfEven_of_le (x : ℚ) (k : Nat) (h : (k : ℚ) ≤ x) : k ≤ roundHalfEven x := by
  have := roundHalfEven_mono k x (Nat.cast_nonneg k) h
  rwa [roundHalfEven_natCast] at this

theorem roundHalfEven_eq_of_abs_lt (x : ℚ) (k : Nat) (h : |x - k| < 1 / 2) :
    roundHalfEven x = k := by
  have h1 := (abs_lt.mp h).1
  have h2 := (abs_lt.mp h).2
  rcases le_or_lt (k : ℚ) x with hk | hk
  · have hx : 0 ≤ x := le_trans (Nat.cast_nonneg k) hk
    have hf : ⌊x⌋₊ = k := by
      rw [Nat.floor_eq_iff hx]
      constructor <;> linarith
    unfold roundHalfEven
    rw [hf, if_pos (by linarith)]
  · rcases Nat.eq_zero_or_pos k with h0 | hkpos
    · subst h0
      have hf : ⌊x⌋₊ = 0 := Nat.floor_eq_zero.mpr (by push_cast at hk; linarith)
      unfold roundHalfEven
      rw [hf, if_pos (by push_cast at h2 ⊢; linarith)]
    · have hx : 0 ≤ x := by
        have : (1 : ℚ) ≤ k := by exact_mod_cast hkpos
        linarith
      have hc : ((k - 1 : Nat) : ℚ) = (k : ℚ) - 1 := by
        rw [Nat.cast_sub hkpos]; simp
      have hf : ⌊x⌋₊ = k - 1 := by
        rw [Nat.floor_eq_iff hx, hc]
        constructor <;> linarith
      unfold roundHalfEven
      rw [hf, hc, if_neg (by linarith), if_pos (by linarith)]
      omega

theorem roundHalfEven_tie_even (k : Nat) (h : k % 2 = 0) :
    roundHalfEven ((k : ℚ) + 1 / 2) = k := by
  have hf : ⌊(k : ℚ) + 1 / 2⌋₊ = k := by
    rw [Nat.floor_eq_iff (by positivity)]
    constructor <;> linarith
  unfold roundHalfEven
  rw [hf, if_neg (by linarith), if_neg (by linarith), if_pos h]

theorem roundHalfEven_tie_odd (k : Nat) (h : k % 2 = 1) :
    roundHalfEven ((k : ℚ) + 1 / 2) = k + 1 := by
  have hf : ⌊(k : ℚ) + 1 / 2⌋₊ = k := by
    rw [Nat.floor_eq_iff (by positivity)]
    constructor <;> linarith
  unfold roundHalfEven
  rw [hf, if_neg (by linarith), if_neg (by linarith), if_neg (by omega)]

/-- The rounding of `y` is `m` when `m` is the nearest natural number, or the
even one of the two nearest. -/
theorem roundHalfEven_eq (y : ℚ) (m : Nat)
    (h : |y - m| < 1 / 2 ∨ (y = m + 1 / 2 ∧ m % 2 = 0) ∨ (y + 1 / 2 = m ∧ m % 2 = 0)) :
    roundHalfEven y = m := by
  rcases h with h | ⟨h, he⟩ | ⟨h, he⟩
  · exact roundHalfEven_eq_of_abs_lt y m h
  · rw [h]; exact roundHalfEven_tie_even m he
  · rcases Nat.eq_zero_or_pos m with h0 | hpos
    · subst h0
      have hy : y = -(1 / 2) := by push_cast at h; linarith
      rw [hy]
      unfold roundHalfEven
      have hf : ⌊(-(1 / 2) : ℚ)⌋₊ = 0 := Nat.floor_eq_zero.mpr (by norm_num)
      rw [hf, if_pos (by norm_num)]
    · have hc : ((m - 1 : Nat) : ℚ) = (m : ℚ) - 1 := by
        rw [Nat.cast_sub hpos]; simp
      have hy : y = ((m - 1 : Nat) : ℚ) + 1 / 2 := by rw [hc]; linarith
      rw [hy, roundHalfEven_tie_odd (m - 1) (by omega)]
      omega

theorem ulp_pos (z : Int) : (0 : ℚ) < 2 ^ z := zpow_pos (by norm_num) z

theorem roundMag_nonneg (a : ℚ) : 0 ≤ roundMag a := by
  unfold roundMag
  exact mul_nonneg (Nat.cast_nonneg _) (le_of_lt (ulp_pos _))

theorem roundMag_zero : roundMag 0 = 0 := by
  unfold roundMag
  simp [roundHalfEven]

theorem binade_mono (a b : ℚ) (ha : 0 < a) (h : a ≤ b) : binade a ≤ binade b := by
  unfold binade
  exact max_le_max (Int.log_mono_right ha h) (le_refl _)

theorem lt_pow_binade (a : ℚ) : a < 2 ^ (binade a + 1) := by
  have h1 : a < ((2 : Nat) : ℚ) ^ (Int.log 2 a + 1) := Int.lt_zpow_succ_log_self (by norm_num) a
  have h2 : ((2 : Nat) : ℚ) ^ (Int.log 2 a + 1) ≤ ((2 : Nat) : ℚ) ^ (binade a + 1) := by
    apply zpow_le_zpow_right₀ (by norm_num)
    unfold binade
    have := le_max_left (Int.log 2 a) (-1022)
    omega
  have h3 := lt_of_lt_of_le h1 h2
  simpa using h3

theorem pow_binade_le (a : ℚ) (ha : 0 < a) (h : -1022 < binade a) : 2 ^ binade a ≤ a := by
  have hb : binade a = Int.log 2 a := by
    unfold binade at h ⊢
    rcases max_cases (Int.log 2 a) (-1022) with ⟨h1, _⟩ | ⟨h1, _⟩
    · exact h1
    · rw [h1] at h; omega
  rw [hb]
  have := Int.zpow_log_le_self (b := 2) (by norm_num) ha
  simpa using this

theorem roundMag_le_pow (a : ℚ) : roundMag a ≤ 2 ^ (binade a + 1) := by
  have hu := ulp_pos (binade a - 52)
  have h3 : ((2 ^ 53 : Nat) : ℚ) * 2 ^ (binade a - 52) = 2 ^ (binade a + 1) := by
    have : (binade a + 1) = 53 + (binade a - 52) := by ring
    rw [this, zpow_add₀ (by norm_num)]
    norm_num
  have h1 : a / 2 ^ (binade a - 52) ≤ ((2 ^ 53 : Nat) : ℚ) := by
    rw [div_le_iff₀ hu, h3]
    exact le_of_lt (lt_pow_binade a)
  have h4 := roundHalfEven_le_of_le _ _ h1
  have h5 : (roundHalfEven (a / 2 ^ (binade a - 52)) : ℚ) ≤ ((2 ^ 53 : Nat) : ℚ) := by
    exact_mod_cast h4
  unfold roundMag
  calc (roundHalfEven (a / 2 ^ (binade a - 52)) : ℚ) * 2 ^ (binade a - 52)
      ≤ ((2 ^ 53 : Nat) : ℚ) * 2 ^ (binade a - 52) := mul_le_mul_of_nonneg_right h5 (le_of_lt hu)
    _ = 2 ^ (binade a + 1) := h3

theorem pow_le_roundMag (a : ℚ) (h : 2 ^ binade a ≤ a) : 2 ^ binade a ≤ roundMag a := by
  have hu := ulp_pos (binade a - 52)
  have h3 : ((2 ^ 52 : Nat) : ℚ) * 2 ^ (binade a - 52) = 2 ^ binade a := by
    have : binade a = 52 + (binade a - 52) := by ring
    nth_rewrite 2 [this]
    rw [zpow_add₀ (by norm_num)]
    norm_num
  have h1 : ((2 ^ 52 : Nat) : ℚ) ≤ a / 2 ^ (binade a - 52) := by
    rw [le_div_iff₀ hu, h3]
    exact h
  have h4 := le_roundHalfEven_of_le _ _ h1
  have h5 : ((2 ^ 52 : Nat) : ℚ) ≤ (roundHalfEven (a / 2 ^ (binade a - 52)) : ℚ) := by
    exact_mod_cast h4
  unfold roundMag
  calc (2 : ℚ) ^ binade a = ((2 ^ 52 : Nat) : ℚ) * 2 ^ (binade a - 52) := h3.symm
    _ ≤ _ := mul_le_mul_of_nonneg_right h5 (le_of_lt hu)

/-- Rounding of magnitudes is monotone. -/
theorem roundMag_mono (a b : ℚ) (ha : 0 ≤ a) (h : a ≤ b) : roundMag a ≤ roundMag b := by
  rcases eq_or_lt_of_le ha with h0 | hpos
  · rw [← h0, roundMag_zero]
    exact roundMag_nonneg b
  · have hle := binade_mono a b hpos h
    rcases eq_or_lt_of_le hle with heq | hlt
    · unfold roundMag
      rw [heq]
      have hu := ulp_pos (binade b - 52)
      apply mul_le_mul_of_nonneg_right _ (le_of_lt hu)
      have : roundHalfEven (a / 2 ^ (binade b - 52)) ≤ roundHalfEven (b / 2 ^ (binade b - 52)) :=
        roundHalfEven_mono _ _ (div_nonneg ha (le_of_lt hu))
          (div_le_div_of_nonneg_right h (le_of_lt hu))
      exact_mod_cast this
    · have hb : -1022 < binade b := by
        have : -1022 ≤ binade a := by unfold binade; exact le_max_right _ _
        omega
      have h1 := roundMag_le_pow a
      have h2 := pow_le_roundMag b (pow_binade_le b (lt_of_lt_of_le hpos h) hb)
      have h3 : (2 : ℚ) ^ (binade a + 1) ≤ 2 ^ binade b :=
        zpow_le_zpow_right₀ (by norm_num) (by omega)
      linarith

/-- A magnitude on the grid of its binade is not changed by rounding. -/
theorem roundMag_of_grid (a : ℚ) (j : Nat) (h : a = (j : ℚ) * 2 ^ (binade a - 52)) :
    roundMag a = a := by
  have hu := ulp_pos (binade a - 52)
  have hq : a / 2 ^ (binade a - 52) = (j : ℚ) := by
    rw [div_eq_iff (ne_of_gt hu)]
    exact h
  unfold roundMag
  rw [hq, roundHalfEven_natCast]
  exact h.symm

theorem binade_eq (a : ℚ) (e : Int) (he : -1022 ≤ e) (h1 : 2 ^ e ≤ a) (h2 : a < 2 ^ (e + 1)) :
    binade a = e := by
  have hpos : 0 < a := lt_of_lt_of_le (ulp_pos e) h1
  have hl : Int.log 2 a = e := by
    apply le_antisymm
    · have : Int.log 2 a < e + 1 := by
        rw [← Int.lt_zpow_iff_log_lt (by norm_num) hpos]
        simpa using h2
      omega
    · rw [← Int.zpow_le_iff_le_log (by norm_num) hpos]
      simpa using h1
  unfold binade
  rw [hl]
  exact max_eq_left he

/-- The rounding of a magnitude, from its binade and the nearest multiple of
the unit in the last place. -/
theorem roundMag_eq (a : ℚ) (e : Int) (m : Nat) (he : -1022 ≤ e) (h1 : 2 ^ e ≤ a)
    (h2 : a < 2 ^ (e + 1))
    (hm : |a / 2 ^ (e - 52) - m| < 1 / 2 ∨ (a / 2 ^ (e - 52) = m + 1 / 2 ∧ m % 2 = 0) ∨
      (a / 2 ^ (e - 52) + 1 / 2 = m ∧ m % 2 = 0)) :
    roundMag a = (m : ℚ) * 2 ^ (e - 52) := by
  unfold roundMag
  rw [binade_eq a e he h1 h2, roundHalfEven_eq _ m hm]

theorem roundMag_natCast (k : Nat) (h : k ≤ 2 ^ 53) : roundMag (k : ℚ) = k := by
  rcases Nat.eq_zero_or_pos k with h0 | hpos
  · subst h0; simpa using roundMag_zero
  · have hk : (0 : ℚ) < k := by exact_mod_cast hpos
    have hlog : Int.log 2 (k : ℚ) = Nat.log 2 k := Int.log_natCast 2 k
    have hb : binade (k : ℚ) = Nat.log 2 k := by
      unfold binade
      rw [hlog]
      exact max_eq_left (by omega)
    have hL : Nat.log 2 k ≤ 53 := by
      have := Nat.pow_log_le_self 2 (Nat.pos_iff_ne_zero.mp hpos)
      by_contra hc
      have h54 : 2 ^ 54 ≤ 2 ^ Nat.log 2 k := Nat.pow_le_pow_right (by norm_num) (by omega)
      have : (2 : Nat) ^ 53 < 2 ^ 54 := by norm_num
      omega
    rcases Nat.lt_or_ge (Nat.log 2 k) 53 with hlt | hge
    · apply roundMag_of_grid _ (k * 2 ^ (52 - Nat.log 2 k))
      rw [hb]
      have : ((Nat.log 2 k : Int) - 52) = -((52 - Nat.log 2 k : Nat) : Int) := by omega
      rw [this, zpow_neg, zpow_natCast]
      push_cast
      field_simp
    · have hL53 : Nat.log 2 k = 53 := by omega
      have hk53 : k = 2 ^ 53 := by
        have := Nat.pow_log_le_self 2 (Nat.pos_iff_ne_zero.mp hpos)
        rw [hL53] at this
        omega
      apply roundMag_of_grid _ (2 ^ 52)
      rw [hb, hL53, hk53]
      norm_num

/-! ## Truncation -/

theorem truncate_eq_floor (x : ℚ) (h : 0 ≤ x) : truncate x = ⌊x⌋ := by
  unfold truncate
  rw [Int.tdiv_eq_ediv (Rat.num_nonneg.mpr h) (Int.ofNat_nonneg _), ← Rat.floor_def']
  rfl

theorem truncate_intCast (n : Int) : truncate (n : ℚ) = n := by
  unfold truncate
  simp

theorem truncate_neg (x : ℚ) : truncate (-x) = -truncate x := by
  unfold truncate
  simp [Int.neg_tdiv]

theorem truncate_nonneg (x : ℚ) (h : 0 ≤ x) : 0 ≤ truncate x := by
  rw [truncate_eq_floor x h]
  exact Int.floor_nonneg.mpr h

theorem truncate_nonpos (x : ℚ) (h : x ≤ 0) : truncate x ≤ 0 := by
  have h1 : truncate (-(-x)) = -truncate (-x) := truncate_neg (-x)
  rw [neg_neg] at h1
  have := truncate_nonneg (-x) (by linarith)
  omega

theorem truncate_mono (x y : ℚ) (h : x ≤ y) : truncate x ≤ truncate y := by
  rcases le_total 0 x with hx | hx
  · rw [truncate_eq_floor x hx, truncate_eq_floor y (le_trans hx h)]
    exact Int.floor_mono h
  · rcases le_total 0 y with hy | hy
    · exact le_trans (truncate_nonpos x hx) (truncate_nonneg y hy)
    · have h1 : truncate (-(-x)) = -truncate (-x) := truncate_neg (-x)
      have h2 : truncate (-(-y)) = -truncate (-y) := truncate_neg (-y)
      rw [neg_neg] at h1 h2
      rw [h1, h2, truncate_eq_floor (-x) (by linarith), truncate_eq_floor (-y) (by linarith)]
      have : ⌊-y⌋ ≤ ⌊-x⌋ := Int.floor_mono (by linarith)
      omega

/-! ## The `float64` operations -/

namespace F64

/-- The signed value of a sign and a magnitude. -/
theorem toRat_eq_signed (x : F64) :
    x.toRat = if x.isNeg then -|x.toRat| else |x.toRat| := by
  cases x with
  | fin q =>
    simp only [toRat, isNeg]
    by_cases h : q < 0
    · simp [h, abs_of_neg h]
    · simp [h, abs_of_nonneg (not_lt.mp h)]
  | _ => simp [toRat, isNeg]

theorem ofSignMag_natCast (k : Nat) (h : k ≤ 2 ^ 53) : ofSignMag false (k : ℚ) = fin k := by
  unfold ofSignMag
  rw [roundMag_natCast k h]
  have h1 : ¬ (2 : ℚ) ^ 1024 ≤ (k : ℚ) := by
    have : (k : ℚ) ≤ 2 ^ 53 := by exact_mod_cast h
    have : (2 : ℚ) ^ 53 < 2 ^ 1024 := by norm_num
    linarith
  rw [if_neg h1]
  by_cases h0 : (k : ℚ) = 0
  · simp [h0, zeroOf]
  · simp [h0]

theorem ofSignMag_neg_natCast (k : Nat) (h0 : 0 < k) (h : k ≤ 2 ^ 53) :
    ofSignMag true (k : ℚ) = fin (-(k : ℚ)) := by
  unfold ofSignMag
  rw [roundMag_natCast k h]
  have h1 : ¬ (2 : ℚ) ^ 1024 ≤ (k : ℚ) := by
    have : (k : ℚ) ≤ 2 ^ 53 := by exact_mod_cast h
    have : (2 : ℚ) ^ 53 < 2 ^ 1024 := by norm_num
    linarith
  have h2 : (k : ℚ) ≠ 0 := by
    have : (0 : ℚ) < k := by exact_mod_cast h0
    exact ne_of_gt this
  simp [h1, h2]

theorem ofInt_of_nonneg (n : Int) (h0 : 0 ≤ n) (h : n ≤ 2 ^ 53) : ofInt n = fin (n : ℚ) := by
  obtain ⟨k, rfl⟩ := Int.eq_ofNat_of_zero_le h0
  unfold ofInt
  have hk : k ≤ 2 ^ 53 := by exact_mod_cast h
  have h1 : ¬ ((k : Int) < 0) := by omega
  simp only [h1, decide_False, Int.cast_natCast, Nat.abs_cast]
  exact ofSignMag_natCast k hk

theorem le_of_finite (x y : F64) (hx : x.isNaN = false) (hx2 : x.isInf = false)
    (hy : y.isNaN = false) (hy2 : y.isInf = false) :
    le x y = decide (x.toRat ≤ y.toRat) := by
  cases x <;> cases y <;> simp_all [le, isNaN, isInf]

theorem lt_of_finite (x y : F64) (hx : x.isNaN = false) (hx2 : x.isInf = false)
    (hy : y.isNaN = false) (hy2 : y.isInf = false) :
    lt x y = decide (x.toRat < y.toRat) := by
  cases x <;> cases y <;> simp_all [lt, isNaN, isInf]

theorem le_posInf (x : F64) (hx : x.isNaN = false) : le x posInf = true := by
  cases x <;> simp_all [le, isNaN]

theorem negInf_le (y : F64) (hy : y.isNaN = false) : le negInf y = true := by
  cases y <;> simp_all [le, isNaN]

theorem ofSignMag_overflow (s : Bool) (a : ℚ) (h : (2 : ℚ) ^ 1024 ≤ roundMag a) :
    ofSignMag s a = infOf s := by
  unfold ofSignMag
  rw [if_pos h]

theorem ofSignMag_finite (s : Bool) (a : ℚ) (h : ¬ (2 : ℚ) ^ 1024 ≤ roundMag a) :
    (ofSignMag s a).isNaN = false ∧ (ofSignMag s a).isInf = false ∧
      (ofSignMag s a).toRat = (if s then -roundMag a else roundMag a) := by
  unfold ofSignMag
  rw [if_neg h]
  by_cases z : roundMag a = 0
  · rw [if_pos z, z]
    cases s <;> simp [zeroOf, isNaN, isInf, toRat]
  · rw [if_neg z]
    simp [isNaN, isInf, toRat]

theorem ofSignMag_isNaN (s : Bool) (a : ℚ) : (ofSignMag s a).isNaN = false := by
  by_cases h : (2 : ℚ) ^ 1024 ≤ roundMag a
  · rw [ofSignMag_overflow s a h]
    cases s <;> rfl
  · exact (ofSignMag_finite s a h).1

/-- Rounding keeps the order of the signed values. -/
theorem ofSignMag_le (s1 s2 : Bool) (a1 a2 : ℚ) (h1 : 0 ≤ a1) (h2 : 0 ≤ a2)
    (h : (if s1 then -a1 else a1) ≤ (if s2 then -a2 else a2)) :
    le (ofSignMag s1 a1) (ofSignMag s2 a2) = true := by
  have r1 := roundMag_nonneg a1
  have r2 := roundMag_nonneg a2
  have hpow : (0 : ℚ) < 2 ^ 1024 := by positivity
  by_cases o1 : (2 : ℚ) ^ 1024 ≤ roundMag a1
  · rw [ofSignMag_overflow s1 a1 o1]
    cases s1
    · cases s2
      · simp only [if_false, Bool.false_eq_true] at h
        have hm := roundMag_mono a1 a2 h1 h
        rw [ofSignMag_overflow false a2 (le_trans o1 hm)]
        rfl
      · simp only [if_true, if_false, Bool.false_eq_true] at h
        have e1 : a1 = 0 := by linarith
        rw [e1, roundMag_zero] at o1
        linarith
    · exact negInf_le _ (ofSignMag_isNaN s2 a2)
  · obtain ⟨n1, i1, t1⟩ := ofSignMag_finite s1 a1 o1
    by_cases o2 : (2 : ℚ) ^ 1024 ≤ roundMag a2
    · rw [ofSignMag_overflow s2 a2 o2]
      cases s2
      · exact le_posInf _ n1
      · exfalso
        cases s1
        · simp only [if_true, if_false, Bool.false_eq_true] at h
          have e2 : a2 = 0 := by linarith
          rw [e2, roundMag_zero] at o2
          linarith
        · simp only [if_true] at h
          have hm := roundMag_mono a2 a1 h2 (by linarith)
          exact o1 (le_trans o2 hm)
    · obtain ⟨n2, i2, t2⟩ := ofSignMag_finite s2 a2 o2
      rw [le_of_finite _ _ n1 i1 n2 i2, t1, t2, decide_eq_true_eq]
      cases s1 <;> cases s2 <;> simp only [if_true, if_false, Bool.false_eq_true] at h ⊢
      · exact roundMag_mono a1 a2 h1 h
      · have e1 : a1 = 0 := by linarith
        have e2 : a2 = 0 := by linarith
        rw [e1, e2, roundMag_zero]
        norm_num
      · linarith
      · have hm := roundMag_mono a2 a1 h2 (by linarith)
        linarith

end F64

namespace F64

theorem isNaN_fin (q : ℚ) : (fin q).isNaN = false := rfl

theorem isInf_fin (q : ℚ) : (fin q).isInf = false := rfl

theorem toRat_fin (q : ℚ) : (fin q).toRat = q := rfl

theorem isNeg_fin_of_pos (q : ℚ) (h : 0 < q) : (fin q).isNeg = false := by
  simp [isNeg, not_lt.mpr (le_of_lt h)]

theorem isZero_fin_of_pos (q : ℚ) (h : 0 < q) : (fin q).isZero = false := by
  simp [isZero, isNaN, isInf, toRat, ne_of_gt h]

theorem le_isNaN_left (x y : F64) (h : le x y = true) : x.isNaN = false := by
  cases x <;> simp_all [le, isNaN]

theorem le_isNaN_right (x y : F64) (h : le x y = true) : y.isNaN = false := by
  cases x <;> cases y <;> simp_all [le, isNaN]

theorem le_self (x : F64) (h : x.isNaN = false) : le x x = true := by
  cases x <;> simp_all [le, isNaN]

theorem lt_eq_false_of_le (x y : F64) (h : le x y = true) : lt y x = false := by
  cases x <;> cases y <;> simp_all [le, lt, isNaN]

theorem le_trans (x y z : F64) (h1 : le x y = true) (h2 : le y z = true) : le x z = true := by
  cases x <;> cases y <;> cases z <;> simp_all [le, isNaN, toRat]
  all_goals linarith

/-- The numbers above zero are positive infinity and the positive finite ones. -/
theorem pos_cases (x : F64) (h : lt (fin 0) x = true) :
    x = posInf ∨ ∃ t : ℚ, 0 < t ∧ x = fin t := by
  cases x with
  | fin q =>
    right
    refine ⟨q, ?_, rfl⟩
    simpa [lt, isNaN, toRat] using h
  | posInf => left; rfl
  | _ => simp [lt, isNaN, toRat] at h

theorem mul_fin_of_finite (c : ℚ) (hc : 0 < c) (x : F64) (hx : x.isNaN = false)
    (hx2 : x.isInf = false) : mul (fin c) x = ofSignMag x.isNeg (c * |x.toRat|) := by
  unfold mul
  simp [isNaN_fin, isInf_fin, toRat_fin, isNeg_fin_of_pos c hc, hx, hx2, abs_of_pos hc]

theorem mul_finite_fin (c : ℚ) (hc : 0 < c) (x : F64) (hx : x.isNaN = false)
    (hx2 : x.isInf = false) : mul x (fin c) = ofSignMag x.isNeg (|x.toRat| * c) := by
  unfold mul
  simp [isNaN_fin, isInf_fin, toRat_fin, isNeg_fin_of_pos c hc, hx, hx2, abs_of_pos hc]

theorem mul_fin_isNaN (c : ℚ) (hc : 0 < c) (x : F64) (hx : x.isNaN = false) :
    (mul (fin c) x).isNaN = false := by
  by_cases hi : x.isInf = true
  · have hz : ¬ c = 0 := ne_of_gt hc
    cases x <;> simp_all [mul, isNaN, isInf, isZero, toRat, infOf, isNeg] <;>
      split_ifs <;> rfl
  · rw [mul_fin_of_finite c hc x hx (by simpa using hi)]
    exact ofSignMag_isNaN _ _

theorem mul_isNaN_fin (c : ℚ) (hc : 0 < c) (x : F64) (hx : x.isNaN = false) :
    (mul x (fin c)).isNaN = false := by
  by_cases hi : x.isInf = true
  · have hz : ¬ c = 0 := ne_of_gt hc
    cases x <;> simp_all [mul, isNaN, isInf, isZero, toRat, infOf, isNeg] <;>
      split_ifs <;> rfl
  · rw [mul_finite_fin c hc x hx (by simpa using hi)]
    exact ofSignMag_isNaN _ _

theorem mul_fin_posInf (c : ℚ) (hc : 0 < c) : mul (fin c) posInf = posInf := by
  have hneg : ¬ c < 0 := not_lt.mpr (le_of_lt hc)
  have hz : ¬ c = 0 := ne_of_gt hc
  simp [mul, isNaN, isInf, isZero, isNeg, toRat, infOf, hneg, hz]

theorem mul_fin_negInf (c : ℚ) (hc : 0 < c) : mul (fin c) negInf = negInf := by
  have hneg : ¬ c < 0 := not_lt.mpr (le_of_lt hc)
  have hz : ¬ c = 0 := ne_of_gt hc
  simp [mul, isNaN, isInf, isZero, isNeg, toRat, infOf, hneg, hz]

theorem mul_posInf_fin (c : ℚ) (hc : 0 < c) : mul posInf (fin c) = posInf := by
  have hneg : ¬ c < 0 := not_lt.mpr (le_of_lt hc)
  have hz : ¬ c = 0 := ne_of_gt hc
  simp [mul, isNaN, isInf, isZero, isNeg, toRat, infOf, hneg, hz]

theorem mul_negInf_fin (c : ℚ) (hc : 0 < c) : mul negInf (fin c) = negInf := by
  have hneg : ¬ c < 0 := not_lt.mpr (le_of_lt hc)
  have hz : ¬ c = 0 := ne_of_gt hc
  simp [mul, isNaN, isInf, isZero, isNeg, toRat, infOf, hneg, hz]

theorem signed_mul (c : ℚ) (x : F64) :
    (if x.isNeg then -(c * |x.toRat|) else c * |x.toRat|) = c * x.toRat := by
  have h := toRat_eq_signed x
  by_cases hn : x.isNeg = true
  · rw [if_pos hn] at h ⊢
    rw [h, abs_neg, abs_abs]; ring
  · rw [if_neg hn] at h ⊢
    rw [h, abs_abs]

/-- Multiplication by a positive finite number on the left keeps the order. -/
theorem mul_fin_le_mul_fin (c : ℚ) (hc : 0 < c) (x y : F64) (h : le x y = true) :
    le (mul (fin c) x) (mul (fin c) y) = true := by
  have hx := le_isNaN_left x y h
  have hy := le_isNaN_right x y h
  by_cases ix : x.isInf = true
  · cases x <;> simp [isInf] at ix
    · have : y = posInf := by cases y <;> simp_all [le, isNaN]
      rw [this, mul_fin_posInf c hc]; rfl
    · rw [mul_fin_negInf c hc]
      exact negInf_le _ (mul_fin_isNaN c hc y hy)
  · by_cases iy : y.isInf = true
    · cases y <;> simp [isInf] at iy
      · rw [mul_fin_posInf c hc]
        exact le_posInf _ (mul_fin_isNaN c hc x hx)
      · have : x = negInf := by cases x <;> simp_all [le, isNaN]
        rw [this] at ix
        simp [isInf] at ix
    · have ix2 : x.isInf = false := by simpa using ix
      have iy2 : y.isInf = false := by simpa using iy
      rw [mul_fin_of_finite c hc x hx ix2, mul_fin_of_finite c hc y hy iy2]
      apply ofSignMag_le _ _ _ _ (mul_nonneg (le_of_lt hc) (abs_nonneg _))
        (mul_nonneg (le_of_lt hc) (abs_nonneg _))
      rw [signed_mul, signed_mul]
      rw [le_of_finite x y hx ix2 hy iy2, decide_eq_true_eq] at h
      exact mul_le_mul_of_nonneg_left h (le_of_lt hc)

theorem mul_comm_fin (c : ℚ) (x : F64) : mul x (fin c) = mul (fin c) x := by
  unfold mul
  cases x <;> simp [isNaN, isInf, isZero, isNeg, toRat, Bool.xor_comm, mul_comm]

/-- Multiplication by a positive finite number on the right keeps the order. -/
theorem mul_le_mul_fin (c : ℚ) (hc : 0 < c) (x y : F64) (h : le x y = true) :
    le (mul x (fin c)) (mul y (fin c)) = true := by
  rw [mul_comm_fin, mul_comm_fin]
  exact mul_fin_le_mul_fin c hc x y h

theorem mul_natCast_one (k : Nat) (h0 : 0 < k) (h : k ≤ 2 ^ 53) :
    mul (fin (k : ℚ)) (fin 1) = fin (k : ℚ) := by
  have hk : (0 : ℚ) < k := by exact_mod_cast h0
  rw [mul_fin_of_finite _ hk (fin 1) rfl rfl]
  simp only [isNeg, toRat, abs_one, mul_one]
  have : ¬ ((1 : ℚ) < 0) := by norm_num
  simp only [this, decide_False]
  exact ofSignMag_natCast k h

theorem mul_one_hundred : mul (fin 1) (fin 100) = fin 100 := by
  rw [mul_fin_of_finite 1 (by norm_num) (fin 100) rfl rfl]
  have h1 : ¬ ((100 : ℚ) < 0) := by norm_num
  simp only [isNeg, toRat, h1, decide_False, one_mul]
  have h2 : |(100 : ℚ)| = ((100 : Nat) : ℚ) := by norm_num
  rw [h2]
  have := ofSignMag_natCast 100 (by norm_num)
  simpa using this

theorem div_finite_fin (t : ℚ) (ht : 0 < t) (v : F64) (hv : v.isNaN = false)
    (hv2 : v.isInf = false) : div v (fin t) = ofSignMag v.isNeg (|v.toRat| / t) := by
  unfold div
  simp [isNaN_fin, isInf_fin, toRat_fin, isNeg_fin_of_pos t ht, isZero_fin_of_pos t ht, hv, hv2,
    abs_of_pos ht]

theorem div_finite_posInf (v : F64) (hv : v.isNaN = false) (hv2 : v.isInf = false) :
    div v posInf = zeroOf v.isNeg := by
  unfold div
  have h1 : posInf.isNaN = false := rfl
  have h2 : posInf.isInf = true := rfl
  have h3 : posInf.isNeg = false := rfl
  simp [h1, h2, h3, hv, hv2]

theorem signed_div (t : ℚ) (x : F64) :
    (if x.isNeg then -(|x.toRat| / t) else |x.toRat| / t) = x.toRat / t := by
  have h := toRat_eq_signed x
  by_cases hn : x.isNeg = true
  · rw [if_pos hn] at h ⊢
    rw [h, abs_neg, abs_abs]; ring
  · rw [if_neg hn] at h ⊢
    rw [h, abs_abs]

/-- Adding 1 to a whole number is exact up to `2^53`. -/
theorem add_intCast_one (z : Int) (h1 : -2 ^ 53 ≤ z + 1) (h2 : z + 1 ≤ 2 ^ 53) :
    add (fin (z : ℚ)) (fin 1) = fin ((z + 1 : Int) : ℚ) := by
  unfold add
  simp only [isNaN, isInf, toRat, Bool.or_self, Bool.false_eq_true, if_false]
  have hs : (z : ℚ) + 1 = ((z + 1 : Int) : ℚ) := by push_cast; ring
  simp only [hs]
  rcases lt_trichotomy (z + 1) 0 with hneg | hzero | hpos
  · have hq : ((z + 1 : Int) : ℚ) < 0 := by exact_mod_cast hneg
    rw [if_neg (ne_of_lt hq)]
    simp only [hq, decide_True]
    obtain ⟨k, hk⟩ : ∃ k : Nat, z + 1 = -(k : Int) := ⟨(-(z + 1)).toNat, by omega⟩
    have hk0 : 0 < k := by omega
    have hk53 : k ≤ 2 ^ 53 := by
      have : (k : Int) ≤ 2 ^ 53 := by omega
      exact_mod_cast this
    rw [hk]
    have : |((-(k : Int) : Int) : ℚ)| = (k : ℚ) := by
      push_cast; rw [abs_neg]; exact Nat.abs_cast k
    rw [this, ofSignMag_neg_natCast k hk0 hk53]
    push_cast; rfl
  · rw [hzero]
    simp [zeroOf, isNeg]
  · have hq : (0 : ℚ) < ((z + 1 : Int) : ℚ) := by exact_mod_cast hpos
    rw [if_neg (ne_of_gt hq)]
    have hnl : ¬ ((z + 1 : Int) : ℚ) < 0 := not_lt.mpr (le_of_lt hq)
    simp only [hnl, decide_False]
    obtain ⟨k, hk⟩ : ∃ k : Nat, z + 1 = (k : Int) := ⟨(z + 1).toNat, by omega⟩
    have hk53 : k ≤ 2 ^ 53 := by
      have : (k : Int) ≤ 2 ^ 53 := by omega
      exact_mod_cast this
    rw [hk]
    have : |(((k : Int) : Int) : ℚ)| = (k : ℚ) := by
      push_cast; exact Nat.abs_cast k
    rw [this, ofSignMag_natCast k hk53]
    push_cast; rfl

/-! ## Conversion to `int` -/

theorem toInt_ge (x : F64) : -2 ^ 63 ≤ toInt x := by
  unfold toInt
  split_ifs with h1 h2
  · exact le_refl _
  · exact h2.1
  · exact le_refl _

theorem toInt_intCast (z : Int) (h1 : -2 ^ 63 ≤ z) (h2 : z < 2 ^ 63) :
    toInt (fin (z : ℚ)) = z := by
  unfold toInt
  simp only [isNaN, isInf, toRat, Bool.or_self, Bool.false_eq_true, if_false, truncate_intCast]
  rw [if_pos ⟨h1, h2⟩]

/-- The conversion keeps the order below a bound that fits. -/
theorem toInt_mono (x y : F64) (m : Int) (hm : m < 2 ^ 63) (h : le x y = true)
    (hy : le y (fin (m : ℚ)) = true) : toInt x ≤ toInt y := by
  have nx := le_isNaN_left x y h
  have ny := le_isNaN_right x y h
  by_cases ix : x.isInf = true
  · have : toInt x = -2 ^ 63 := by
      unfold toInt; simp [ix]
    rw [this]
    exact toInt_ge y
  · have ix2 : x.isInf = false := by simpa using ix
    have iy2 : y.isInf = false := by
      cases y <;> simp_all [le, isNaN, isInf]
    rw [le_of_finite x y nx ix2 ny iy2, decide_eq_true_eq] at h
    rw [le_of_finite y (fin (m : ℚ)) ny iy2 rfl rfl, decide_eq_true_eq] at hy
    simp only [toRat] at hy
    have ht := truncate_mono _ _ h
    have hty : truncate y.toRat ≤ m := by
      have := truncate_mono _ _ hy
      rwa [truncate_intCast] at this
    by_cases rx : -2 ^ 63 ≤ truncate x.toRat
    · have hx : toInt x = truncate x.toRat := by
        unfold toInt
        simp only [nx, ix2, Bool.or_self, Bool.false_eq_true, if_false]
        rw [if_pos ⟨rx, by omega⟩]
      have hyv : toInt y = truncate y.toRat := by
        unfold toInt
        simp only [ny, iy2, Bool.or_self, Bool.false_eq_true, if_false]
        rw [if_pos ⟨by omega, by omega⟩]
      rw [hx, hyv]
      exact ht
    · have hx : toInt x = -2 ^ 63 := by
        unfold toInt
        simp only [nx, ix2, Bool.or_self, Bool.false_eq_true, if_false]
        rw [if_neg (fun hh => rx hh.1)]
      rw [hx]
      exact toInt_ge y

/-- The conversion of a non-negative finite number that fits is its floor. -/
theorem toInt_of_nonneg (x : F64) (m : Int) (hm : m < 2 ^ 63) (hn : x.isNaN = false)
    (hi : x.isInf = false) (h0 : 0 ≤ x.toRat) (h1 : x.toRat ≤ (m : ℚ)) :
    toInt x = ⌊x.toRat⌋ := by
  have ht := truncate_eq_floor x.toRat h0
  have hle : truncate x.toRat ≤ m := by
    have := truncate_mono _ _ h1
    rwa [truncate_intCast] at this
  have hge := truncate_nonneg x.toRat h0
  unfold toInt
  simp only [hn, hi, Bool.or_self, Bool.false_eq_true, if_false]
  rw [if_pos ⟨by omega, by omega⟩, ht]

end F64

/-! ## The getters and the rate -/

theorem getTotal_pos (p : Process) : lt (fin 0) (getTotal p) = true := by
  unfold getTotal
  split_ifs with h
  · exact h
  · simp [lt, isNaN, toRat]

theorem getTotal_isNaN (p : Process) : (getTotal p).isNaN = false := by
  rcases pos_cases _ (getTotal_pos p) with h1 | ⟨t, _, h1⟩ <;> rw [h1] <;> rfl

theorem getTotal_le_self (p : Process) : le (getTotal p) (getTotal p) = true :=
  le_self _ (getTotal_isNaN p)

theorem getLen_pos (p : Process) : 0 < getLen p := by
  unfold getLen; split_ifs with h
  · exact h
  · norm_num

theorem getRate_of_complete (p : Process) (h : le (getTotal p) p.value = true) :
    getRate p = fin 1 := by
  unfold getRate
  simp [h]

theorem getRate_of_incomplete (p : Process) (h : le (getTotal p) p.value = false) :
    getRate p = div p.value (getTotal p) := by
  unfold getRate
  simp [h]

/-- The rate is not a number or at most 1. -/
theorem getRate_le_one (p : Process) :
    (getRate p).isNaN = true ∨ le (getRate p) (fin 1) = true := by
  by_cases hc : le (getTotal p) p.value = true
  · right
    rw [getRate_of_complete p hc]
    rfl
  · have hc2 : le (getTotal p) p.value = false := by simpa using hc
    rw [getRate_of_incomplete p hc2]
    by_cases hn : p.value.isNaN = true
    · left
      have : div p.value (getTotal p) = nan := by
        unfold div; simp [hn]
      rw [this]; rfl
    · have hn2 : p.value.isNaN = false := by simpa using hn
      rcases pos_cases _ (getTotal_pos p) with ht | ⟨t, ht0, ht⟩
      · rw [ht] at hc2 ⊢
        by_cases hi : p.value.isInf = true
        · left
          have : div p.value posInf = nan := by
            unfold div
            have h1 : posInf.isNaN = false := rfl
            have h2 : posInf.isInf = true := rfl
            simp [hn2, hi, h1, h2]
          rw [this]; rfl
        · right
          rw [div_finite_posInf _ hn2 (by simpa using hi)]
          cases p.value.isNeg <;> simp [zeroOf, le, isNaN, toRat]
      · rw [ht] at hc2 ⊢
        by_cases hi : p.value.isInf = true
        · have hv : p.value = negInf := by
            cases hv : p.value <;> simp_all [isInf, le, isNaN]
          right
          rw [hv]
          have : div negInf (fin t) = negInf := by
            unfold div
            have h1 : negInf.isNaN = false := rfl
            have h2 : negInf.isInf = true := rfl
            have h3 : negInf.isNeg = true := rfl
            simp [h1, h2, h3, isNaN_fin, isInf_fin, isNeg_fin_of_pos t ht0, infOf]
          rw [this]
          rfl
        · have hi2 : p.value.isInf = false := by simpa using hi
          right
          rw [div_finite_fin t ht0 _ hn2 hi2]
          have h1 : ofSignMag false ((1 : Nat) : ℚ) = fin ((1 : Nat) : ℚ) :=
            ofSignMag_natCast 1 (by norm_num)
          have h2 : fin (1 : ℚ) = ofSignMag false ((1 : Nat) : ℚ) := by
            rw [h1]; norm_num
          rw [h2]
          apply ofSignMag_le _ _ _ _ (div_nonneg (abs_nonneg _) (le_of_lt ht0)) (by norm_num)
          rw [signed_div]
          rw [le_of_finite (fin t) p.value rfl rfl hn2 hi2] at hc2
          simp only [toRat_fin, decide_eq_false_iff_not, not_le] at hc2
          simp only [Bool.false_eq_true, if_false, Nat.cast_one]
          exact le_of_lt ((div_lt_one ht0).mpr hc2)

/-- The rate of a tracker with value at least zero is at least zero. -/
theorem getRate_nonneg (p : Process) (h : le (fin 0) p.value = true) :
    le (fin 0) (getRate p) = true := by
  by_cases hc : le (getTotal p) p.value = true
  · rw [getRate_of_complete p hc]
    simp [le, isNaN, toRat]
  · have hc2 : le (getTotal p) p.value = false := by simpa using hc
    rw [getRate_of_incomplete p hc2]
    have hn2 : p.value.isNaN = false := le_isNaN_right _ _ h
    have hi2 : p.value.isInf = false := by
      cases hv : p.value with
      | posInf =>
        rw [hv] at hc2
        rw [le_posInf _ (getTotal_isNaN p)] at hc2
        cases hc2
      | negInf => rw [hv] at h; simp [le, isNaN] at h
      | _ => rfl
    have hv0 : 0 ≤ p.value.toRat := by
      rw [le_of_finite (fin 0) p.value rfl rfl hn2 hi2] at h
      simpa [toRat_fin] using h
    rcases pos_cases _ (getTotal_pos p) with ht | ⟨t, ht0, ht⟩
    · rw [ht, div_finite_posInf _ hn2 hi2]
      cases p.value.isNeg <;> simp [zeroOf, le, isNaN, toRat]
    · rw [ht, div_finite_fin t ht0 _ hn2 hi2]
      have h1 : ofSignMag false ((0 : Nat) : ℚ) = fin ((0 : Nat) : ℚ) :=
        ofSignMag_natCast 0 (by norm_num)
      have h2 : fin (0 : ℚ) = ofSignMag false ((0 : Nat) : ℚ) := by
        rw [h1]; norm_num
      rw [h2]
      apply ofSignMag_le _ _ _ _ (by norm_num) (div_nonneg (abs_nonneg _) (le_of_lt ht0))
      rw [signed_div]
      simp only [Bool.false_eq_true, if_false, Nat.cast_zero]
      exact div_nonneg hv0 (le_of_lt ht0)

/-! ## The fill count for a width below `2^53` -/

theorem ofInt_getLen (p : Process) (hw : getLen p < 2 ^ 53) :
    ofInt (getLen p) = fin (getLen p : ℚ) :=
  ofInt_of_nonneg _ (le_of_lt (getLen_pos p)) (le_of_lt hw)

theorem getLen_cast_pos (p : Process) : (0 : ℚ) < (getLen p : ℚ) := by
  exact_mod_cast getLen_pos p

theorem mul_getLen_one (p : Process) (hw : getLen p < 2 ^ 53) :
    mul (fin (getLen p : ℚ)) (fin 1) = fin (getLen p : ℚ) := by
  obtain ⟨k, hk⟩ := Int.eq_ofNat_of_zero_le (le_of_lt (getLen_pos p))
  have hk0 : 0 < k := by have := getLen_pos p; omega
  have hk53 : k ≤ 2 ^ 53 := by
    have : (k : Int) ≤ 2 ^ 53 := by omega
    exact_mod_cast this
  rw [hk]
  have := mul_natCast_one k hk0 hk53
  simpa using this

theorem fillCount_of_complete (p : Process) (hw : getLen p < 2 ^ 53)
    (h : le (getTotal p) p.value = true) : fillCount p = getLen p := by
  unfold fillCount
  rw [getRate_of_complete p h, ofInt_getLen p hw, mul_getLen_one p hw]
  exact toInt_intCast _ (by have := getLen_pos p; omega) (by omega)

theorem fillCount_le (p : Process) (hw : getLen p < 2 ^ 53) : fillCount p ≤ getLen p := by
  unfold fillCount
  rw [ofInt_getLen p hw]
  rcases getRate_le_one p with hn | hle
  · have : mul (fin (getLen p : ℚ)) (getRate p) = nan := by
      unfold mul; simp [hn]
    rw [this]
    have : toInt nan = -2 ^ 63 := rfl
    rw [this]
    have := getLen_pos p
    omega
  · have h1 := mul_fin_le_mul_fin _ (getLen_cast_pos p) _ _ hle
    rw [mul_getLen_one p hw] at h1
    have h2 := toInt_mono _ _ (getLen p) (by omega) h1 (le_self _ rfl)
    rwa [toInt_intCast _ (by have := getLen_pos p; omega) (by omega)] at h2

theorem mul_getLen_zero (p : Process) : mul (fin (getLen p : ℚ)) (fin 0) = fin 0 := by
  rw [mul_fin_of_finite _ (getLen_cast_pos p) (fin 0) rfl rfl]
  simp only [toRat_fin, abs_zero, mul_zero]
  have := ofSignMag_natCast 0 (by norm_num)
  simpa [isNeg] using this

/-- The product `float64(n) * rate` of a tracker with value at least zero and a
width below `2^53` is a finite number between 0 and the width. -/
theorem product_bounds (p : Process) (hw : getLen p < 2 ^ 53) (h : le (fin 0) p.value = true) :
    (mul (fin (getLen p : ℚ)) (getRate p)).isNaN = false ∧
    (mul (fin (getLen p : ℚ)) (getRate p)).isInf = false ∧
    0 ≤ (mul (fin (getLen p : ℚ)) (getRate p)).toRat ∧
    (mul (fin (getLen p : ℚ)) (getRate p)).toRat ≤ (getLen p : ℚ) := by
  have h0 := getRate_nonneg p h
  have hn : (getRate p).isNaN = false := le_isNaN_right _ _ h0
  have hle : le (getRate p) (fin 1) = true := by
    rcases getRate_le_one p with h1 | h1
    · rw [hn] at h1; cases h1
    · exact h1
  have l1 := mul_fin_le_mul_fin _ (getLen_cast_pos p) _ _ h0
  have l2 := mul_fin_le_mul_fin _ (getLen_cast_pos p) _ _ hle
  rw [mul_getLen_zero] at l1
  rw [mul_getLen_one p hw] at l2
  have n1 := le_isNaN_right _ _ l1
  have i1 : (mul (fin (getLen p : ℚ)) (getRate p)).isInf = false := by
    cases hm : mul (fin (getLen p : ℚ)) (getRate p) <;> simp_all [le, isNaN, isInf]
  rw [le_of_finite (fin 0) _ rfl rfl n1 i1, decide_eq_true_eq] at l1
  rw [le_of_finite _ (fin (getLen p : ℚ)) n1 i1 rfl rfl, decide_eq_true_eq] at l2
  exact ⟨n1, i1, l1, l2⟩

theorem fillCount_eq_floor (p : Process) (hw : getLen p < 2 ^ 53)
    (h : le (fin 0) p.value = true) :
    fillCount p = ⌊(mul (ofInt (getLen p)) (getRate p)).toRat⌋ := by
  obtain ⟨n1, i1, l1, l2⟩ := product_bounds p hw h
  unfold fillCount
  rw [ofInt_getLen p hw]
  exact toInt_of_nonneg _ (getLen p) (by omega) n1 i1 l1 l2

theorem fillCount_nonneg (p : Process) (hw : getLen p < 2 ^ 53)
    (h : le (fin 0) p.value = true) : 0 ≤ fillCount p := by
  rw [fillCount_eq_floor p hw h]
  obtain ⟨_, _, l1, _⟩ := product_bounds p hw h
  rw [ofInt_getLen p hw]
  exact Int.floor_nonneg.mpr l1

theorem fillCount_nonneg_of_complete (p : Process) (hw : getLen p < 2 ^ 53)
    (h : le (getTotal p) p.value = true) : 0 ≤ fillCount p := by
  rw [fillCount_of_complete p hw h]
  exact le_of_lt (getLen_pos p)

/-! ## The render -/

theorem repeatChars_singleton (c : Char) (k : Nat) : repeatChars [c] k = List.replicate k c := by
  induction k with
  | zero => rfl
  | succ k ih => simp [repeatChars, ih, List.replicate_succ]

@[simp] theorem getTotal_onceDo (clk : Clock) (p : Process) :
    getTotal (onceDo clk p) = getTotal p := by
  unfold onceDo getTotal; split_ifs <;> rfl

@[simp] theorem getFormat_onceDo (clk : Clock) (p : Process) :
    getFormat (onceDo clk p) = getFormat p := by
  unfold onceDo getFormat; split_ifs <;> rfl

@[simp] theorem getWriter_onceDo (clk : Clock) (p : Process) :
    getWriter (onceDo clk p) = getWriter p := by
  unfold onceDo getWriter; split_ifs <;> rfl

@[simp] theorem getLen_onceDo (clk : Clock) (p : Process) :
    getLen (onceDo clk p) = getLen p := by
  unfold onceDo getLen; split_ifs <;> rfl

@[simp] theorem value_onceDo (clk : Clock) (p : Process) :
    (onceDo clk p).value = p.value := by
  unfold onceDo; split_ifs <;> rfl

@[simp] theorem getRate_onceDo (clk : Clock) (p : Process) :
    getRate (onceDo clk p) = getRate p := by
  unfold getRate
  rw [getTotal_onceDo, value_onceDo]

@[simp] theorem Prefix_onceDo (clk : Clock) (p : Process) :
    (onceDo clk p).Prefix = p.Prefix := by
  unfold onceDo; split_ifs <;> rfl

@[simp] theorem Cancel_onceDo (clk : Clock) (p : Process) :
    (onceDo clk p).Cancel = p.Cancel := by
  unfold onceDo; split_ifs <;> rfl

theorem onceDo_fields (clk : Clock) (p : Process) :
    (onceDo clk p).Total = p.Total ∧ (onceDo clk p).Len = p.Len ∧
      (onceDo clk p).Format = p.Format ∧ (onceDo clk p).W = p.W := by
  unfold onceDo; split_ifs <;> exact ⟨rfl, rfl, rfl, rfl⟩

theorem once_onceDo (clk : Clock) (p : Process) : (onceDo clk p).once = true := by
  unfold onceDo
  cases h : p.once <;> simp [h]

theorem onceDo_of_once (clk : Clock) (p : Process) (h : p.once = true) : onceDo clk p = p := by
  unfold onceDo; simp [h]

/-- The behaviour of `render`: it writes when both repeat counts are not
negative and panics otherwise. -/
theorem render_eq (clk : Clock) (p : Process) :
    render clk p =
      if 0 ≤ fillCount p ∧ fillCount p ≤ getLen p then
        ⟨onceDo clk p, written clk (onceDo clk p).startTime p :: completion p, none⟩
      else ⟨onceDo clk p, [], some Fault.negativeRepeatCount⟩ := by
  unfold render written completion fillCount stringsRepeat
  simp only [getTotal_onceDo, getFormat_onceDo, getWriter_onceDo, getLen_onceDo,
    getRate_onceDo, value_onceDo, Prefix_onceDo, Cancel_onceDo]
  by_cases h : 0 ≤ toInt (mul (ofInt (getLen p)) (getRate p))
  · have h1 : ¬ toInt (mul (ofInt (getLen p)) (getRate p)) < 0 := not_lt.mpr h
    by_cases h2 : toInt (mul (ofInt (getLen p)) (getRate p)) ≤ getLen p
    · have h3 : ¬ getLen p - toInt (mul (ofInt (getLen p)) (getRate p)) < 0 := by omega
      simp [h, h1, h2, h3, repeatChars_singleton]
    · have h3 : getLen p - toInt (mul (ofInt (getLen p)) (getRate p)) < 0 := by omega
      simp [h, h1, h2, h3]
  · have h1 : toInt (mul (ofInt (getLen p)) (getRate p)) < 0 := not_le.mp h
    simp [h, h1]

theorem render_proc (clk : Clock) (p : Process) : (render clk p).proc = onceDo clk p := by
  rw [render_eq]; split_ifs <;> rfl

theorem fill_of_no_fault (clk : Clock) (p : Process) (h : (render clk p).fault = none) :
    0 ≤ fillCount p ∧ fillCount p ≤ getLen p := by
  by_contra hf
  rw [render_eq, if_neg hf] at h
  cases h

theorem render_of_no_fault (clk : Clock) (p : Process) (h : (render clk p).fault = none) :
    render clk p =
      ⟨onceDo clk p, written clk (onceDo clk p).startTime p :: completion p, none⟩ := by
  rw [render_eq, if_pos (fill_of_no_fault clk p h)]

theorem render_of_fill (clk : Clock) (p : Process) (hw : getLen p < 2 ^ 53)
    (h : 0 ≤ fillCount p) :
    render clk p =
      ⟨onceDo clk p, written clk (onceDo clk p).startTime p :: completion p, none⟩ := by
  rw [render_eq, if_pos ⟨h, fillCount_le p hw⟩]

theorem render_of_nonneg (clk : Clock) (p : Process) (hw : getLen p < 2 ^ 53)
    (h : le (fin 0) p.value = true) :
    render clk p =
      ⟨onceDo clk p, written clk (onceDo clk p).startTime p :: completion p, none⟩ :=
  render_of_fill clk p hw (fillCount_nonneg p hw h)

theorem render_of_complete (clk : Clock) (p : Process) (hw : getLen p < 2 ^ 53)
    (h : le (getTotal p) p.value = true) :
    render clk p =
      ⟨onceDo clk p, written clk (onceDo clk p).startTime p :: completion p, none⟩ :=
  render_of_fill clk p hw (fillCount_nonneg_of_complete p hw h)

theorem render_fault_of_complete (clk : Clock) (p : Process) (hw : getLen p < 2 ^ 53)
    (h : le (getTotal p) p.value = true) : (render clk p).fault = none := by
  rw [render_of_complete clk p hw h]

/-! ## The events -/

theorem percentages_completion (p : Process) : percentages (completion p) = [] := by
  unfold completion percentages
  split_ifs
  · cases p.Cancel <;> simp [percentOf]
  · rfl

theorem fractions_completion (p : Process) : fractions (completion p) = [] := by
  unfold completion fractions
  split_ifs
  · cases p.Cancel <;> simp [fractionOf]
  · rfl

theorem writes_completion (p : Process) : writes (completion p) = [] := by
  unfold completion
  split_ifs
  · cases p.Cancel <;> simp [writes]
  · rfl

theorem linesOf_completion (p : Process) : linesOf (completion p) = [] := by
  unfold completion
  split_ifs
  · cases p.Cancel <;> simp [linesOf]
  · rfl

theorem percentages_written (clk : Clock) (start : Int) (p : Process) (es : List Event) :
    percentages (written clk start p :: es) =
      Arg.float (mul (getRate p) (fin 100)) :: percentages es := by
  simp [percentages, written, percentOf, List.filterMap_cons]

theorem fractions_written (clk : Clock) (start : Int) (p : Process) (es : List Event) :
    fractions (written clk start p :: es) =
      (Arg.float p.value, Arg.float (getTotal p)) :: fractions es := by
  simp [fractions, written, fractionOf, List.filterMap_cons]

theorem writes_append (es fs : List Event) : writes (es ++ fs) = writes es ++ writes fs := by
  induction es with
  | nil => rfl
  | cons e es ih => cases e <;> simp [writes, ih]

theorem fractions_append (es fs : List Event) :
    fractions (es ++ fs) = fractions es ++ fractions fs := by
  simp [fractions, List.filterMap_append]

theorem percentages_append (es fs : List Event) :
    percentages (es ++ fs) = percentages es ++ percentages fs := by
  simp [percentages, List.filterMap_append]

theorem callCount_append (es fs : List Event) :
    callCount (es ++ fs) = callCount es + callCount fs := by
  induction es with
  | nil => simp [callCount]
  | cons e es ih =>
    cases e <;> simp [callCount, ih]
    omega

theorem callCount_completion (p : Process) :
    callCount (completion p) =
      if p.Cancel ≠ none ∧ le (getTotal p) p.value = true then 1 else 0 := by
  unfold completion
  by_cases h : le (getTotal p) p.value = true
  · cases hc : p.Cancel <;> simp [h, callCount]
  · simp [h, callCount]

/-- A render of a tracker with value below its effective total makes no call. -/
theorem callCount_render_incomplete (clk : Clock) (p : Process)
    (h : le (getTotal p) p.value = false) : callCount (render clk p).events = 0 := by
  rw [render_eq]
  split_ifs
  · simp only [written, callCount]
    rw [callCount_completion]
    simp [h]
  · rfl

/-- The calls made by a render of a tracker whose width is below `2^53`. -/
theorem callCount_render (clk : Clock) (p : Process) (hw : getLen p < 2 ^ 53) :
    callCount (render clk p).events =
      if p.Cancel ≠ none ∧ le (getTotal p) p.value = true then 1 else 0 := by
  by_cases h : le (getTotal p) p.value = true
  · rw [render_of_complete clk p hw h]
    simp only [written, callCount]
    exact callCount_completion p
  · have h2 : le (getTotal p) p.value = false := by simpa using h
    rw [callCount_render_incomplete clk p h2]
    simp [h2]

theorem rendersWith_render (clk : Clock) (p : Process) (h : (render clk p).fault = none) :
    rendersWith (render clk p) (getTotal p) (getLen p) (getFormat p) := by
  obtain ⟨h0, hle⟩ := fill_of_no_fault clk p h
  rw [render_of_no_fault clk p h]
  refine ⟨_, _, _, _, _, _, _, _, rfl, ?_⟩
  rw [String.length_append]
  simp only [String.length, List.length_replicate]
  omega

theorem writesWith_render (clk : Clock) (p : Process) (h : (render clk p).fault = none) :
    writesWith (render clk p) (getWriter p) p.Prefix (getLen p) (getFormat p) := by
  obtain ⟨h0, hle⟩ := fill_of_no_fault clk p h
  rw [render_of_no_fault clk p h]
  refine ⟨_, _, _, _, _, _, _, rfl, ?_⟩
  rw [String.length_append]
  simp only [String.length, List.length_replicate]
  omega

theorem showsBar_of_no_fault (clk : Clock) (p : Process) (h : (render clk p).fault = none) :
    showsBar (render clk p) (fillCount p) (getLen p) := by
  rw [render_of_no_fault clk p h]
  exact ⟨_, _, _, _, rfl⟩

/-! ## Calls and sequences of calls -/

/-- A rendering call is `render` on the tracker with `value` or `Total`
replaced: the other fields are those before the call. -/
theorem exec_renders (c : Call) (clk : Clock) (p : Process) (h : c.renders = true) :
    ∃ q, c.exec clk p = render clk q ∧ q.Len = p.Len ∧ q.Format = p.Format ∧ q.W = p.W ∧
      q.Prefix = p.Prefix ∧ q.Cancel = p.Cancel := by
  cases c <;> simp [Call.renders] at h
  · exact ⟨_, rfl, rfl, rfl, rfl, rfl, rfl⟩
  · exact ⟨_, rfl, rfl, rfl, rfl, rfl, rfl⟩
  · exact ⟨_, rfl, rfl, rfl, rfl, rfl, rfl⟩
  · exact ⟨_, rfl, rfl, rfl, rfl, rfl, rfl⟩

theorem getLen_of_Len (p q : Process) (h : q.Len = p.Len) : getLen q = getLen p := by
  unfold getLen; rw [h]

theorem writesWith_exec (c : Call) (clk : Clock) (p : Process) (h : c.renders = true)
    (hf : (c.exec clk p).fault = none) :
    writesWith (c.exec clk p) (getWriter p) p.Prefix (getLen p) (getFormat p) := by
  obtain ⟨q, hq, hL, hF, hW, hP, _⟩ := exec_renders c clk p h
  rw [hq] at hf ⊢
  have := writesWith_render clk q hf
  simpa [getWriter, getLen, getFormat, hL, hF, hW, hP] using this

/-- The start time and the once flag after one call. -/
theorem exec_start (c : Call) (clk : Clock) (p : Process) :
    (c.exec clk p).proc.once = (p.once || c.renders) ∧
    (c.exec clk p).proc.startTime =
      if c.renders = true ∧ p.once = false then clk.onceNow else p.startTime := by
  cases c <;>
    simp only [Call.exec, Call.renders, SetLen, SetPrefix, SetFormat, SetWriter, SetTotal,
      SetValue, Increment, Done, setValue, render_proc, onceDo] <;>
    cases hp : p.once <;> simp

theorem runCalls_started (calls : List (Call × Clock)) :
    ∀ p : Process, p.once = true →
      (runCalls calls p).proc.once = true ∧ (runCalls calls p).proc.startTime = p.startTime := by
  induction calls with
  | nil => intro p h; exact ⟨h, rfl⟩
  | cons c rest ih =>
    intro p h
    obtain ⟨c, clk⟩ := c
    obtain ⟨h1, h2⟩ := exec_start c clk p
    rw [h] at h1 h2
    simp only [Bool.true_or] at h1
    simp only [Bool.true_eq_false, and_false, if_false] at h2
    simp only [runCalls]
    cases hf : (c.exec clk p).fault with
    | some e => exact ⟨h1, h2⟩
    | none =>
      obtain ⟨i1, i2⟩ := ih _ h1
      exact ⟨i1, i2.trans h2⟩

theorem runCalls_fresh (calls : List (Call × Clock)) :
    ∀ p : Process, p.once = false →
      (runCalls calls p).proc.startTime =
        match firstRender calls with
        | some clk => clk.onceNow
        | none => p.startTime := by
  induction calls with
  | nil => intro p _; rfl
  | cons c rest ih =>
    intro p h
    obtain ⟨c, clk⟩ := c
    obtain ⟨h1, h2⟩ := exec_start c clk p
    rw [h] at h1 h2
    simp only [Bool.false_or] at h1
    simp only [and_true] at h2
    simp only [runCalls, firstRender]
    cases hr : c.renders with
    | true =>
      rw [hr] at h1
      rw [if_pos hr] at h2
      simp only [if_true]
      cases hf : (c.exec clk p).fault with
      | some e => exact h2
      | none => exact (runCalls_started rest _ h1).2.trans h2
    | false =>
      rw [hr] at h1
      rw [if_neg (by simp [hr])] at h2
      simp only [Bool.false_eq_true, if_false]
      cases hf : (c.exec clk p).fault with
      | some e =>
        exfalso
        cases c <;> simp [Call.renders] at hr <;>
          simp [Call.exec, SetLen, SetPrefix, SetFormat, SetWriter] at hf
      | none =>
        have := ih _ h1
        rw [h2] at this
        exact this

theorem runCalls_append (xs ys : List (Call × Clock)) :
    ∀ p : Process, (runCalls xs p).fault = none →
      runCalls (xs ++ ys) p =
        ⟨(runCalls ys (runCalls xs p).proc).proc,
          (runCalls xs p).events ++ (runCalls ys (runCalls xs p).proc).events,
          (runCalls ys (runCalls xs p).proc).fault⟩ := by
  induction xs with
  | nil => intro p _; simp [runCalls]
  | cons c rest ih =>
    intro p h
    obtain ⟨c, clk⟩ := c
    simp only [runCalls, List.cons_append, List.append_eq] at h ⊢
    cases hf : (c.exec clk p).fault with
    | some e => rw [hf] at h; simp at h
    | none =>
      rw [hf] at h
      simp only at h ⊢
      rw [ih _ h]
      simp

theorem runCalls_complete (calls : List (Call × Clock)) :
    ∀ p : Process, getLen p < 2 ^ 53 → p.Cancel ≠ none → (∀ c ∈ calls, c.1.renders = true) →
      completeAfterEach calls p →
      (runCalls calls p).fault = none ∧
        callCount (runCalls calls p).events = calls.length := by
  induction calls with
  | nil => intro p _ _ _ _; exact ⟨rfl, rfl⟩
  | cons c rest ih =>
    intro p hw hC hr hcomp
    obtain ⟨c, clk⟩ := c
    obtain ⟨q, hq, hqL, _, _, _, hqC⟩ := exec_renders c clk p (hr (c, clk) (List.mem_cons_self _ _))
    have hwq : getLen q < 2 ^ 53 := by rw [getLen_of_Len p q hqL]; exact hw
    obtain ⟨h1, h2⟩ := hcomp
    rw [hq, render_proc] at h1 h2
    simp only [value_onceDo, getTotal_onceDo] at h1
    have hfault := render_fault_of_complete clk q hwq h1
    have hcount := callCount_render clk q hwq
    rw [if_pos ⟨by rw [hqC]; exact hC, h1⟩] at hcount
    have hC2 : (onceDo clk q).Cancel ≠ none := by rw [Cancel_onceDo, hqC]; exact hC
    have hw2 : getLen (onceDo clk q) < 2 ^ 53 := by rw [getLen_onceDo]; exact hwq
    obtain ⟨ih1, ih2⟩ := ih (onceDo clk q) hw2 hC2
      (fun c hc => hr c (List.mem_cons_of_mem _ hc)) h2
    have hrun : runCalls ((c, clk) :: rest) p =
        ⟨(runCalls rest (onceDo clk q)).proc,
          (render clk q).events ++ (runCalls rest (onceDo clk q)).events,
          (runCalls rest (onceDo clk q)).fault⟩ := by
      simp only [runCalls, hq, hfault, render_proc]
    rw [hrun]
    refine ⟨ih1, ?_⟩
    simp only [callCount_append, hcount, ih2, List.length_cons]
    omega

theorem Done_eq (clk : Clock) (p : Process) (hw : getLen p < 2 ^ 53) :
    Done clk p = ⟨onceDo clk { p with value := getTotal p },
      written clk (onceDo clk { p with value := getTotal p }).startTime
        { p with value := getTotal p } :: completion { p with value := getTotal p }, none⟩ :=
  render_of_complete clk { p with value := getTotal p } hw (getTotal_le_self p)

theorem Done_fault (clk : Clock) (p : Process) (hw : getLen p < 2 ^ 53) :
    (Done clk p).fault = none := by
  rw [Done_eq clk p hw]

theorem completeAfterEach_done (clks : List Clock) :
    ∀ p : Process, completeAfterEach (clks.map (fun clk => (Call.done, clk))) p := by
  induction clks with
  | nil => intro p; trivial
  | cons clk rest ih =>
    intro p
    refine ⟨?_, ih _⟩
    show le (getTotal (render clk { p with value := getTotal p }).proc)
      (render clk { p with value := getTotal p }).proc.value = true
    rw [render_proc, value_onceDo, getTotal_onceDo]
    exact getTotal_le_self p

/-! ## Evaluation of roundings -/

/-- The rounding of a magnitude in the normal range, from its binade and the
nearest multiple of the unit in the last place. -/
theorem ofSignMag_eq (s : Bool) (a : ℚ) (e : Int) (m : Nat) (he : -1022 ≤ e)
    (h1 : 2 ^ e ≤ a) (h2 : a < 2 ^ (e + 1))
    (hm : |a / 2 ^ (e - 52) - m| < 1 / 2 ∨ (a / 2 ^ (e - 52) = m + 1 / 2 ∧ m % 2 = 0) ∨
      (a / 2 ^ (e - 52) + 1 / 2 = m ∧ m % 2 = 0))
    (hm0 : 0 < m) (hlt : (m : ℚ) * 2 ^ (e - 52) < 2 ^ 1024) :
    ofSignMag s a = fin (if s then -((m : ℚ) * 2 ^ (e - 52)) else (m : ℚ) * 2 ^ (e - 52)) := by
  unfold ofSignMag
  rw [roundMag_eq a e m he h1 h2 hm]
  have hpos : (0 : ℚ) < (m : ℚ) * 2 ^ (e - 52) :=
    mul_pos (by exact_mod_cast hm0) (ulp_pos _)
  rw [if_neg (not_le.mpr hlt), if_neg (ne_of_gt hpos)]

namespace F64

theorem div_29_100 : div (fin 29) (fin 100) = fin (5224175567749775 / 2 ^ 54) := by
  rw [div_finite_fin 100 (by norm_num) (fin 29) rfl rfl]
  have hneg : (fin 29).isNeg = false := by norm_num [isNeg]
  have habs : |(29 : ℚ)| = 29 := abs_of_pos (by norm_num)
  rw [hneg, toRat_fin, habs, ofSignMag_eq false _ (-2) 5224175567749775 (by norm_num) (by norm_num)
    (by norm_num) (by norm_num [abs_lt]) (by norm_num) (by norm_num)]
  norm_num

theorem mul_rate29_100 : mul (fin (5224175567749775 / 2 ^ 54)) (fin 100) = fin (8162774324609023 / 2 ^ 48) := by
  rw [mul_finite_fin 100 (by norm_num) (fin (5224175567749775 / 2 ^ 54)) rfl rfl]
  have hneg : (fin (5224175567749775 / 2 ^ 54)).isNeg = false := by norm_num [isNeg]
  have habs : |((5224175567749775 / 2 ^ 54) : ℚ)| = (5224175567749775 / 2 ^ 54) := abs_of_pos (by norm_num)
  rw [hneg, toRat_fin, habs, ofSignMag_eq false _ (4) 8162774324609023 (by norm_num) (by norm_num)
    (by norm_num) (by norm_num [abs_lt]) (by norm_num) (by norm_num)]
  norm_num

theorem mul_100_rate29 : mul (fin 100) (fin (5224175567749775 / 2 ^ 54)) = fin (8162774324609023 / 2 ^ 48) := by
  rw [mul_fin_of_finite 100 (by norm_num) (fin (5224175567749775 / 2 ^ 54)) rfl rfl]
  have hneg : (fin (5224175567749775 / 2 ^ 54)).isNeg = false := by norm_num [isNeg]
  have habs : |((5224175567749775 / 2 ^ 54) : ℚ)| = (5224175567749775 / 2 ^ 54) := abs_of_pos (by norm_num)
  rw [hneg, toRat_fin, habs, ofSignMag_eq false _ (4) 8162774324609023 (by norm_num) (by norm_num)
    (by norm_num) (by norm_num [abs_lt]) (by norm_num) (by norm_num)]
  norm_num

theorem div_neg5_100 : div (fin (-5)) (fin 100) = fin (-(3602879701896397 / 2 ^ 56)) := by
  rw [div_finite_fin 100 (by norm_num) (fin (-5)) rfl rfl]
  have hneg : (fin (-5)).isNeg = true := by norm_num [isNeg]
  have habs : |((-5) : ℚ)| = 5 := by
    rw [abs_of_neg (by norm_num)]; norm_num
  rw [hneg, toRat_fin, habs, ofSignMag_eq true _ (-5) 7205759403792794 (by norm_num) (by norm_num)
    (by norm_num) (by norm_num [abs_lt]) (by norm_num) (by norm_num)]
  norm_num

theorem mul_24_rateNeg5 : mul (fin 24) (fin (-(3602879701896397 / 2 ^ 56))) = fin (-(1351079888211149 / 2 ^ 50)) := by
  rw [mul_fin_of_finite 24 (by norm_num) (fin (-(3602879701896397 / 2 ^ 56))) rfl rfl]
  have hneg : (fin (-(3602879701896397 / 2 ^ 56))).isNeg = true := by norm_num [isNeg]
  have habs : |((-(3602879701896397 / 2 ^ 56)) : ℚ)| = (3602879701896397 / 2 ^ 56) := by
    rw [abs_of_neg (by norm_num)]; norm_num
  rw [hneg, toRat_fin, habs, ofSignMag_eq true _ (0) 5404319552844596 (by norm_num) (by norm_num)
    (by norm_num) (by norm_num [abs_lt]) (by norm_num) (by norm_num)]
  norm_num

theorem div_neg1_100 : div (fin (-1)) (fin 100) = fin (-(5764607523034235 / 2 ^ 59)) := by
  rw [div_finite_fin 100 (by norm_num) (fin (-1)) rfl rfl]
  have hneg : (fin (-1)).isNeg = true := by norm_num [isNeg]
  have habs : |((-1) : ℚ)| = 1 := by
    rw [abs_of_neg (by norm_num)]; norm_num
  rw [hneg, toRat_fin, habs, ofSignMag_eq true _ (-7) 5764607523034235 (by norm_num) (by norm_num)
    (by norm_num) (by norm_num [abs_lt]) (by norm_num) (by norm_num)]
  norm_num

theorem mul_24_rateNeg1 : mul (fin 24) (fin (-(5764607523034235 / 2 ^ 59))) = fin (-(1080863910568919 / 2 ^ 52)) := by
  rw [mul_fin_of_finite 24 (by norm_num) (fin (-(5764607523034235 / 2 ^ 59))) rfl rfl]
  have hneg : (fin (-(5764607523034235 / 2 ^ 59))).isNeg = true := by norm_num [isNeg]
  have habs : |((-(5764607523034235 / 2 ^ 59)) : ℚ)| = (5764607523034235 / 2 ^ 59) := by
    rw [abs_of_neg (by norm_num)]; norm_num
  rw [hneg, toRat_fin, habs, ofSignMag_eq true _ (-3) 8646911284551352 (by norm_num) (by norm_num)
    (by norm_num) (by norm_num [abs_lt]) (by norm_num) (by norm_num)]
  norm_num

theorem div_neg1_10 : div (fin (-1)) (fin 10) = fin (-(3602879701896397 / 2 ^ 55)) := by
  rw [div_finite_fin 10 (by norm_num) (fin (-1)) rfl rfl]
  have hneg : (fin (-1)).isNeg = true := by norm_num [isNeg]
  have habs : |((-1) : ℚ)| = 1 := by
    rw [abs_of_neg (by norm_num)]; norm_num
  rw [hneg, toRat_fin, habs, ofSignMag_eq true _ (-4) 7205759403792794 (by norm_num) (by norm_num)
    (by norm_num) (by norm_num [abs_lt]) (by norm_num) (by norm_num)]
  norm_num

theorem mul_24_rateNeg1of10 : mul (fin 24) (fin (-(3602879701896397 / 2 ^ 55))) = fin (-(1351079888211149 / 2 ^ 49)) := by
  rw [mul_fin_of_finite 24 (by norm_num) (fin (-(3602879701896397 / 2 ^ 55))) rfl rfl]
  have hneg : (fin (-(3602879701896397 / 2 ^ 55))).isNeg = true := by norm_num [isNeg]
  have habs : |((-(3602879701896397 / 2 ^ 55)) : ℚ)| = (3602879701896397 / 2 ^ 55) := by
    rw [abs_of_neg (by norm_num)]; norm_num
  rw [hneg, toRat_fin, habs, ofSignMag_eq true _ (1) 5404319552844596 (by norm_num) (by norm_num)
    (by norm_num) (by norm_num [abs_lt]) (by norm_num) (by norm_num)]
  norm_num

theorem div_3_101 : div (fin 3) (fin 101) = fin (1070162287691999 / 2 ^ 55) := by
  rw [div_finite_fin 101 (by norm_num) (fin 3) rfl rfl]
  have hneg : (fin 3).isNeg = false := by norm_num [isNeg]
  have habs : |(3 : ℚ)| = 3 := abs_of_pos (by norm_num)
  rw [hneg, toRat_fin, habs, ofSignMag_eq false _ (-6) 8561298301535992 (by norm_num) (by norm_num)
    (by norm_num) (by norm_num [abs_lt]) (by norm_num) (by norm_num)]
  norm_num

theorem mul_40_rate3 : mul (fin 40) (fin (1070162287691999 / 2 ^ 55)) = fin (5350811438459995 / 2 ^ 52) := by
  rw [mul_fin_of_finite 40 (by norm_num) (fin (1070162287691999 / 2 ^ 55)) rfl rfl]
  have hneg : (fin (1070162287691999 / 2 ^ 55)).isNeg = false := by norm_num [isNeg]
  have habs : |((1070162287691999 / 2 ^ 55) : ℚ)| = (1070162287691999 / 2 ^ 55) := abs_of_pos (by norm_num)
  rw [hneg, toRat_fin, habs, ofSignMag_eq false _ (0) 5350811438459995 (by norm_num) (by norm_num)
    (by norm_num) (by norm_num [abs_lt]) (by norm_num) (by norm_num)]
  norm_num

theorem mul_24_rate3 : mul (fin 24) (fin (1070162287691999 / 2 ^ 55)) = fin (3210486863075997 / 2 ^ 52) := by
  rw [mul_fin_of_finite 24 (by norm_num) (fin (1070162287691999 / 2 ^ 55)) rfl rfl]
  have hneg : (fin (1070162287691999 / 2 ^ 55)).isNeg = false := by norm_num [isNeg]
  have habs : |((1070162287691999 / 2 ^ 55) : ℚ)| = (1070162287691999 / 2 ^ 55) := abs_of_pos (by norm_num)
  rw [hneg, toRat_fin, habs, ofSignMag_eq false _ (-1) 6420973726151994 (by norm_num) (by norm_num)
    (by norm_num) (by norm_num [abs_lt]) (by norm_num) (by norm_num)]
  norm_num

theorem mul_rate3_100 : mul (fin (1070162287691999 / 2 ^ 55)) (fin 100) = fin (3344257149037497 / 2 ^ 50) := by
  rw [mul_finite_fin 100 (by norm_num) (fin (1070162287691999 / 2 ^ 55)) rfl rfl]
  have hneg : (fin (1070162287691999 / 2 ^ 55)).isNeg = false := by norm_num [isNeg]
  have habs : |((1070162287691999 / 2 ^ 55) : ℚ)| = (1070162287691999 / 2 ^ 55) := abs_of_pos (by norm_num)
  rw [hneg, toRat_fin, habs, ofSignMag_eq false _ (1) 6688514298074994 (by norm_num) (by norm_num)
    (by norm_num) (by norm_num [abs_lt]) (by norm_num) (by norm_num)]
  norm_num

theorem div_1_2000 : div (fin 1) (fin 2000) = fin (1152921504606847 / 2 ^ 61) := by
  rw [div_finite_fin 2000 (by norm_num) (fin 1) rfl rfl]
  have hneg : (fin 1).isNeg = false := by norm_num [isNeg]
  have habs : |(1 : ℚ)| = 1 := abs_of_pos (by norm_num)
  rw [hneg, toRat_fin, habs, ofSignMag_eq false _ (-11) 4611686018427388 (by norm_num) (by norm_num)
    (by norm_num) (by norm_num [abs_lt]) (by norm_num) (by norm_num)]
  norm_num

theorem mul_rate2000_100 : mul (fin (1152921504606847 / 2 ^ 61)) (fin 100) = fin (3602879701896397 / 2 ^ 56) := by
  rw [mul_finite_fin 100 (by norm_num) (fin (1152921504606847 / 2 ^ 61)) rfl rfl]
  have hneg : (fin (1152921504606847 / 2 ^ 61)).isNeg = false := by norm_num [isNeg]
  have habs : |((1152921504606847 / 2 ^ 61) : ℚ)| = (1152921504606847 / 2 ^ 61) := abs_of_pos (by norm_num)
  rw [hneg, toRat_fin, habs, ofSignMag_eq false _ (-5) 7205759403792794 (by norm_num) (by norm_num)
    (by norm_num) (by norm_num [abs_lt]) (by norm_num) (by norm_num)]
  norm_num

theorem div_50_100 : div (fin 50) (fin 100) = fin (1 / 2 ^ 1) := by
  rw [div_finite_fin 100 (by norm_num) (fin 50) rfl rfl]
  have hneg : (fin 50).isNeg = false := by norm_num [isNeg]
  have habs : |(50 : ℚ)| = 50 := abs_of_pos (by norm_num)
  rw [hneg, toRat_fin, habs, ofSignMag_eq false _ (-1) 4503599627370496 (by norm_num) (by norm_num)
    (by norm_num) (by norm_num [abs_lt]) (by norm_num) (by norm_num)]
  norm_num

theorem mul_2p63_half : mul (fin 9223372036854775808) (fin (1 / 2 ^ 1)) = fin 4611686018427387904 := by
  rw [mul_fin_of_finite 9223372036854775808 (by norm_num) (fin (1 / 2 ^ 1)) rfl rfl]
  have hneg : (fin (1 / 2 ^ 1)).isNeg = false := by norm_num [isNeg]
  have habs : |((1 / 2 ^ 1) : ℚ)| = (1 / 2 ^ 1) := abs_of_pos (by norm_num)
  rw [hneg, toRat_fin, habs, ofSignMag_eq false _ (62) 4503599627370496 (by norm_num) (by norm_num)
    (by norm_num) (by norm_num [abs_lt]) (by norm_num) (by norm_num)]
  norm_num

theorem mul_2p63_one : mul (fin 9223372036854775808) (fin 1) = fin 9223372036854775808 := by
  rw [mul_fin_of_finite 9223372036854775808 (by norm_num) (fin 1) rfl rfl]
  have hneg : (fin 1).isNeg = false := by norm_num [isNeg]
  have habs : |(1 : ℚ)| = 1 := abs_of_pos (by norm_num)
  rw [hneg, toRat_fin, habs, ofSignMag_eq false _ (63) 4503599627370496 (by norm_num) (by norm_num)
    (by norm_num) (by norm_num [abs_lt]) (by norm_num) (by norm_num)]
  norm_num

theorem mul_24_rate2000 : mul (fin 24) (fin (1152921504606847 / 2 ^ 61)) = fin (3458764513820541 / 2 ^ 58) := by
  rw [mul_fin_of_finite 24 (by norm_num) (fin (1152921504606847 / 2 ^ 61)) rfl rfl]
  have hneg : (fin (1152921504606847 / 2 ^ 61)).isNeg = false := by norm_num [isNeg]
  have habs : |((1152921504606847 / 2 ^ 61) : ℚ)| = (1152921504606847 / 2 ^ 61) := abs_of_pos (by norm_num)
  rw [hneg, toRat_fin, habs, ofSignMag_eq false _ (-7) 6917529027641082 (by norm_num) (by norm_num)
    (by norm_num) (by norm_num [abs_lt]) (by norm_num) (by norm_num)]
  norm_num

end F64

/-! ## The formatter -/

theorem applyVerb_append (verb : Char) (zero : Bool) (w : Nat) (prec : Option Nat)
    (args extra : List Arg) (text : List Char) (rest : List Arg)
    (h : applyVerb verb zero w prec args = some (text, rest)) :
    applyVerb verb zero w prec (args ++ extra) = some (text, rest ++ extra) := by
  cases args with
  | nil => simp [applyVerb] at h
  | cons a as =>
    cases a <;> simp only [applyVerb, List.cons_append] at h ⊢ <;> split_ifs at h ⊢ <;>
      simp_all

/-- A format that uses up its operands can be followed by more format and more
operands: the texts are concatenated. -/
theorem fmtRun_append (A : List Char) :
    ∀ (m : Mode) (args1 : List Arg) (s : List Char), fmtRun m A args1 = some s →
      ∀ (B : List Char) (args2 : List Arg),
        fmtRun m (A ++ B) (args1 ++ args2) = (fmtRun Mode.text B args2).map (fun t => s ++ t) := by
  induction A with
  | nil =>
    intro m args1 s h B args2
    cases m <;> cases args1 <;> simp [fmtRun] at h
    subst h
    simp
  | cons c cs ih =>
    intro m args1 s h B args2
    cases m with
    | text =>
      simp only [fmtRun, List.cons_append, List.append_eq] at h ⊢
      split_ifs at h ⊢ with hc
      · exact ih _ _ _ h B args2
      · obtain ⟨s2, h2, rfl⟩ := Option.map_eq_some'.mp h
        rw [ih _ _ _ h2 B args2, Option.map_map]
        rfl
    | flags zero =>
      simp only [fmtRun, List.cons_append, List.append_eq] at h ⊢
      split_ifs at h ⊢
      · obtain ⟨s2, h2, rfl⟩ := Option.map_eq_some'.mp h
        rw [ih _ _ _ h2 B args2, Option.map_map]
        rfl
      · exact ih _ _ _ h B args2
      · exact ih _ _ _ h B args2
      · exact ih _ _ _ h B args2
      · cases hv : applyVerb c zero 0 none args1 with
        | none => rw [hv] at h; cases h
        | some tr =>
          obtain ⟨text, rest⟩ := tr
          rw [hv] at h
          simp only at h
          obtain ⟨s2, h2, rfl⟩ := Option.map_eq_some'.mp h
          rw [applyVerb_append _ _ _ _ _ args2 _ _ hv]
          simp only
          rw [ih _ _ _ h2 B args2, Option.map_map]
          congr 1
          funext t
          simp
    | width zero w =>
      simp only [fmtRun, List.cons_append, List.append_eq] at h ⊢
      split_ifs at h ⊢
      · exact ih _ _ _ h B args2
      · exact ih _ _ _ h B args2
      · cases hv : applyVerb c zero w none args1 with
        | none => rw [hv] at h; cases h
        | some tr =>
          obtain ⟨text, rest⟩ := tr
          rw [hv] at h
          simp only at h
          obtain ⟨s2, h2, rfl⟩ := Option.map_eq_some'.mp h
          rw [applyVerb_append _ _ _ _ _ args2 _ _ hv]
          simp only
          rw [ih _ _ _ h2 B args2, Option.map_map]
          congr 1
          funext t
          simp
    | prec zero w p =>
      simp only [fmtRun, List.cons_append, List.append_eq] at h ⊢
      split_ifs at h ⊢
      · exact ih _ _ _ h B args2
      · cases hv : applyVerb c zero w (some p) args1 with
        | none => rw [hv] at h; cases h
        | some tr =>
          obtain ⟨text, rest⟩ := tr
          rw [hv] at h
          simp only at h
          obtain ⟨s2, h2, rfl⟩ := Option.map_eq_some'.mp h
          rw [applyVerb_append _ _ _ _ _ args2 _ _ hv]
          simp only
          rw [ih _ _ _ h2 B args2, Option.map_map]
          congr 1
          funext t
          simp

theorem fmtRun_text_append (A B : List Char) (args1 args2 : List Arg) (s t : List Char)
    (hA : fmtRun Mode.text A args1 = some s) (hB : fmtRun Mode.text B args2 = some t) :
    fmtRun Mode.text (A ++ B) (args1 ++ args2) = some (s ++ t) := by
  rw [fmtRun_append A _ _ _ hA B args2, hB]
  rfl

/-- Text without `%` is copied. -/
theorem fmtRun_literal (lit : List Char) (h : ∀ c ∈ lit, c ≠ '%') :
    fmtRun Mode.text lit [] = some lit := by
  induction lit with
  | nil => rfl
  | cons c cs ih =>
    have hc : c ≠ '%' := h c (List.mem_cons_self _ _)
    simp only [fmtRun, if_neg hc, ih (fun d hd => h d (List.mem_cons_of_mem _ hd))]
    rfl

theorem fmtRun_head (pre : String) (pct : F64) :
    fmtRun Mode.text "\r%s%5.1f%% [".data [Arg.str pre, Arg.float pct] =
      some ('\r' :: (pre.data ++ (padLeft 5 (formatFloat 1 pct) ++ ['%', ' ', '[']))) := by
  have h5 : ('5' : Char).isDigit = true := by decide
  have h1 : ('1' : Char).isDigit = true := by decide
  have hs : ('s' : Char).isDigit = false := by decide
  have hf : ('f' : Char).isDigit = false := by decide
  simp [fmtRun, applyVerb, padFloat, padLeft, h5, h1, hs, hf]

theorem fmtRun_tail (d : Int) :
    fmtRun Mode.text " in %s]".data [Arg.duration d] =
      some ([' ', 'i', 'n', ' '] ++ ((durationString d).data ++ [']'])) := by
  have hs : ('s' : Char).isDigit = false := by decide
  simp [fmtRun, applyVerb, padLeft, hs]

/-- The text of the line built by `render`, for a format that formats one float
operand. -/
theorem goSprintf_lineFormat (filled rest format pre showV showT : String) (pct v t : F64)
    (d : Int) (hbar : ∀ c ∈ filled.data ++ rest.data, c ≠ '%')
    (hV : goSprintf format [Arg.float v] = some showV)
    (hT : goSprintf format [Arg.float t] = some showT) :
    goSprintf (lineFormat filled rest format)
        [Arg.str pre, Arg.float pct, Arg.float v, Arg.float t, Arg.duration d] =
      some ("\r" ++ pre ++ ⟨padLeft 5 (formatFloat 1 pct)⟩ ++ "% [" ++ filled ++ rest ++ "] [" ++
        showV ++ "/" ++ showT ++ " in " ++ durationString d ++ "]") := by
  have hV2 : fmtRun Mode.text format.data [Arg.float v] = some showV.data := by
    unfold goSprintf at hV
    obtain ⟨l, hl, rfl⟩ := Option.map_eq_some'.mp hV
    exact hl
  have hT2 : fmtRun Mode.text format.data [Arg.float t] = some showT.data := by
    unfold goSprintf at hT
    obtain ⟨l, hl, rfl⟩ := Option.map_eq_some'.mp hT
    exact hl
  have h3 : fmtRun Mode.text "] [".data [] = some "] [".data :=
    fmtRun_literal _ (by decide)
  have h5 : fmtRun Mode.text "/".data [] = some "/".data :=
    fmtRun_literal _ (by decide)
  have hall := fmtRun_text_append _ _ _ _ _ _
    (fmtRun_text_append _ _ _ _ _ _
      (fmtRun_text_append _ _ _ _ _ _
        (fmtRun_text_append _ _ _ _ _ _
          (fmtRun_text_append _ _ _ _ _ _
            (fmtRun_text_append _ _ _ _ _ _ (fmtRun_head pre pct)
              (fmtRun_literal _ hbar)) h3) hV2) h5) hT2) (fmtRun_tail d)
  unfold goSprintf lineFormat
  simp only [String.data_append, List.append_assoc, List.cons_append, List.nil_append,
    List.append_nil, List.singleton_append] at hall ⊢
  rw [hall]
  simp only [Option.map_some']
  congr 1
  apply String.ext
  simp [String.data_append]

/-- The line written by a render that reaches its write, for an effective
format that formats one float operand. -/
theorem linesOf_render (p : Process) (clk : Clock) (showV showT : String)
    (hf : (render clk p).fault = none)
    (hV : goSprintf (getFormat p) [Arg.float p.value] = some showV)
    (hT : goSprintf (getFormat p) [Arg.float (getTotal p)] = some showT) :
    linesOf (render clk p).events =
      [some ("\r" ++ p.Prefix ++ ⟨padLeft 5 (formatFloat 1 (mul (getRate p) (fin 100)))⟩ ++ "% [" ++
        ⟨List.replicate (fillCount p).toNat '#'⟩ ++
        ⟨List.replicate (getLen p - fillCount p).toNat '.'⟩ ++ "] [" ++
        showV ++ "/" ++ showT ++ " in " ++
        durationString (clk.writeNow - (render clk p).proc.startTime) ++ "]")] := by
  have hbar : ∀ c ∈ (⟨List.replicate (fillCount p).toNat '#'⟩ : String).data ++
      (⟨List.replicate (getLen p - fillCount p).toNat '.'⟩ : String).data, c ≠ '%' := by
    intro c hc
    rcases List.mem_append.mp hc with h | h
    · rw [(List.mem_replicate.mp h).2]; decide
    · rw [(List.mem_replicate.mp h).2]; decide
  rw [render_proc, render_of_no_fault clk p hf]
  simp only [written, linesOf, linesOf_completion]
  rw [goSprintf_lineFormat _ _ _ _ showV showT _ _ _ _ hbar hV hT]

/-! ## Truncation of given numbers -/

theorem truncate_eq_of_nonneg (x : ℚ) (z : Int) (h0 : 0 ≤ x) (h1 : (z : ℚ) ≤ x)
    (h2 : x < (z : ℚ) + 1) : truncate x = z := by
  rw [truncate_eq_floor x h0, Int.floor_eq_iff]
  exact ⟨h1, h2⟩

theorem truncate_eq_of_nonpos (x : ℚ) (z : Int) (h0 : x ≤ 0) (h1 : (z : ℚ) - 1 < x)
    (h2 : x ≤ (z : ℚ)) : truncate x = z := by
  have h : truncate (-(-x)) = -truncate (-x) := truncate_neg (-x)
  rw [neg_neg] at h
  rw [h, truncate_eq_of_nonneg (-x) (-z) (by linarith) (by push_cast; linarith)
    (by push_cast; linarith)]
  omega

theorem toInt_fin (q : ℚ) (z : Int) (h : truncate q = z) (h1 : -2 ^ 63 ≤ z) (h2 : z < 2 ^ 63) :
    toInt (fin q) = z := by
  unfold toInt
  simp only [isNaN_fin, isInf_fin, toRat_fin, Bool.or_self, Bool.false_eq_true, if_false, h]
  rw [if_pos ⟨h1, h2⟩]

/-! ## The widest tracker and the limit of exact counting -/

namespace F64

theorem lt_of_isNaN_right (x y : F64) (h : y.isNaN = true) : lt x y = false := by
  cases y <;> simp [isNaN] at h
  cases x <;> simp [lt, isNaN]

theorem ofInt_maxInt : ofInt (2 ^ 63 - 1) = fin (2 ^ 63) := by
  unfold ofInt
  have hneg : ¬ ((2 : Int) ^ 63 - 1 < 0) := by norm_num
  have habs : |(((2 : Int) ^ 63 - 1 : Int) : ℚ)| = 2 ^ 63 - 1 := by
    push_cast
    rw [abs_of_pos (by norm_num)]
    norm_num
  simp only [hneg, decide_False, habs]
  rw [ofSignMag_eq false _ 62 (2 ^ 53) (by norm_num) (by norm_num) (by norm_num)
    (by norm_num [abs_lt]) (by norm_num) (by norm_num)]
  norm_num

theorem mul_maxFloat_one : mul (fin (2 ^ 63)) (fin 1) = fin (2 ^ 63) := by
  have := mul_2p63_one
  norm_num at this ⊢
  exact this

theorem toInt_two_pow_63 : toInt (fin (2 ^ 63)) = -2 ^ 63 := by
  unfold toInt
  have ht : truncate ((2 : ℚ) ^ 63) = 2 ^ 63 := by
    have := truncate_intCast (2 ^ 63)
    push_cast at this
    exact this
  simp only [isNaN_fin, isInf_fin, toRat_fin, Bool.or_self, Bool.false_eq_true, if_false, ht]
  rw [if_neg (by norm_num)]

/-- At `2^53` adding 1 changes nothing: the sum lies halfway between two
numbers of the grid and is rounded to the even one. -/
theorem add_two_pow_53_one : add (fin (2 ^ 53)) (fin 1) = fin (2 ^ 53) := by
  unfold add
  simp only [isNaN_fin, isInf_fin, toRat_fin, Bool.or_self, Bool.false_eq_true, if_false]
  have hs : ((2 : ℚ) ^ 53 + 1 = 0) = False := by norm_num
  have hneg : ¬ ((2 : ℚ) ^ 53 + 1 < 0) := by norm_num
  have habs : |(2 : ℚ) ^ 53 + 1| = 2 ^ 53 + 1 := abs_of_pos (by norm_num)
  simp only [hs, if_false, hneg, decide_False, habs]
  rw [ofSignMag_eq false _ 53 (2 ^ 52) (by norm_num) (by norm_num) (by norm_num)
    (by norm_num) (by norm_num) (by norm_num)]
  norm_num

end F64

theorem fillCount_widest (p : Process) (hL : getLen p = 2 ^ 63 - 1)
    (hc : le (getTotal p) p.value = true) : fillCount p = -2 ^ 63 := by
  unfold fillCount
  rw [hL, getRate_of_complete p hc, ofInt_maxInt, mul_maxFloat_one, toInt_two_pow_63]

theorem render_widest (clk : Clock) (p : Process) (hL : getLen p = 2 ^ 63 - 1)
    (hc : le (getTotal p) p.value = true) :
    render clk p = ⟨onceDo clk p, [], some Fault.negativeRepeatCount⟩ := by
  rw [render_eq, fillCount_widest p hL hc, if_neg (by norm_num)]

/-! ## Monotonicity of the rate -/

theorem div_isNaN_of_pos (v t : F64) (hv : v.isNaN = false) (ht : lt (fin 0) t = true)
    (hfin : t ≠ posInf) : (div v t).isNaN = false := by
  rcases pos_cases t ht with h | ⟨q, hq, h⟩
  · exact absurd h hfin
  · rw [h]
    by_cases hi : v.isInf = true
    · cases v <;> simp [isInf, isNaN] at hi hv <;>
        simp [div, isNaN, isInf, isNeg, infOf, not_lt.mpr (le_of_lt hq)]
    · rw [div_finite_fin q hq v hv (by simpa using hi)]
      exact ofSignMag_isNaN _ _

/-- For a fixed total the rate does not decrease with the value, unless the
lower rate is not a number. -/
theorem getRate_mono (p : Process) (v1 v2 : F64) (h : le v1 v2 = true) :
    (getRate { p with value := v1 }).isNaN = true ∨
      le (getRate { p with value := v1 }) (getRate { p with value := v2 }) = true := by
  have hT1 : getTotal { p with value := v1 } = getTotal p := rfl
  have hT2 : getTotal { p with value := v2 } = getTotal p := rfl
  have n1 := le_isNaN_left _ _ h
  have n2 := le_isNaN_right _ _ h
  by_cases c2 : le (getTotal p) v2 = true
  · rw [getRate_of_complete { p with value := v2 } (by rw [hT2]; exact c2)]
    exact getRate_le_one _
  · have c2f : le (getTotal p) v2 = false := by simpa using c2
    have c1f : le (getTotal p) v1 = false := by
      by_contra hc
      have hc1 : le (getTotal p) v1 = true := by simpa using hc
      exact c2 (le_trans _ _ _ hc1 h)
    rw [getRate_of_incomplete { p with value := v1 } (by rw [hT1]; exact c1f),
      getRate_of_incomplete { p with value := v2 } (by rw [hT2]; exact c2f), hT1, hT2]
    show (div v1 (getTotal p)).isNaN = true ∨ le (div v1 (getTotal p)) (div v2 (getTotal p)) = true
    have i2 : v2 ≠ posInf := by
      intro hv
      rw [hv, le_posInf _ (getTotal_isNaN p)] at c2f
      cases c2f
    rcases pos_cases _ (getTotal_pos p) with ht | ⟨t, ht0, ht⟩
    · rw [ht]
      by_cases hi1 : v1.isInf = true
      · left
        have : div v1 posInf = nan := by
          unfold div
          have h1 : posInf.isNaN = false := rfl
          have h2 : posInf.isInf = true := rfl
          simp [n1, hi1, h1, h2]
        rw [this]; rfl
      · right
        have hi1f : v1.isInf = false := by simpa using hi1
        have hi2f : v2.isInf = false := by
          cases v2 <;> simp_all [isInf, le, isNaN]
        rw [div_finite_posInf _ n1 hi1f, div_finite_posInf _ n2 hi2f]
        cases v1.isNeg <;> cases v2.isNeg <;> simp [zeroOf, le, isNaN, toRat]
    · rw [ht]
      right
      have hd2 : (div v2 (fin t)).isNaN = false :=
        div_isNaN_of_pos v2 (fin t) n2 (by simp [lt, isNaN, toRat, ht0]) (by simp)
      by_cases hi1 : v1.isInf = true
      · have hv1 : v1 = negInf := by
          cases v1 <;> simp [isInf] at hi1
          · rw [ht] at c1f
            simp [le, isNaN] at c1f
          · rfl
        rw [hv1]
        have : div negInf (fin t) = negInf := by
          simp [div, isNaN, isInf, isNeg, infOf, not_lt.mpr (le_of_lt ht0)]
        rw [this]
        exact negInf_le _ hd2
      · have hi1f : v1.isInf = false := by simpa using hi1
        have hi2f : v2.isInf = false := by
          cases v2 <;> simp_all [isInf, le, isNaN]
        rw [div_finite_fin t ht0 v1 n1 hi1f, div_finite_fin t ht0 v2 n2 hi2f]
        apply ofSignMag_le _ _ _ _ (div_nonneg (abs_nonneg _) (le_of_lt ht0))
          (div_nonneg (abs_nonneg _) (le_of_lt ht0))
        rw [signed_div, signed_div]
        rw [le_of_finite v1 v2 n1 hi1f n2 hi2f, decide_eq_true_eq] at h
        exact div_le_div_of_nonneg_right h (le_of_lt ht0)

/-- For a fixed total and a width below `2^53` the fill count does not decrease
with the value. -/
theorem fillCount_mono (p : Process) (v1 v2 : F64) (hw : getLen p < 2 ^ 53)
    (h : le v1 v2 = true) :
    fillCount { p with value := v1 } ≤ fillCount { p with value := v2 } := by
  have hL1 : getLen { p with value := v1 } = getLen p := rfl
  have hL2 : getLen { p with value := v2 } = getLen p := rfl
  unfold fillCount
  rw [hL1, hL2, ofInt_getLen p hw]
  rcases getRate_mono p v1 v2 h with hn | hle
  · have : mul (fin (getLen p : ℚ)) (getRate { p with value := v1 }) = nan := by
      unfold mul; simp [hn]
    rw [this]
    exact toInt_ge _
  · have n2 := le_isNaN_right _ _ hle
    have hle1 : le (getRate { p with value := v2 }) (fin 1) = true := by
      rcases getRate_le_one { p with value := v2 } with h1 | h1
      · rw [n2] at h1; cases h1
      · exact h1
    have l1 := mul_fin_le_mul_fin _ (getLen_cast_pos p) _ _ hle
    have l2 := mul_fin_le_mul_fin _ (getLen_cast_pos p) _ _ hle1
    rw [mul_getLen_one p hw] at l2
    exact toInt_mono _ _ (getLen p) (by omega) l1 l2

/-! ## Counting by adding 1 -/

namespace F64

theorem hasValue_fin (q : ℚ) : hasValue (fin q) q := ⟨rfl, rfl, rfl⟩

/-- Adding 1 to a whole number is exact up to `2^53`, whatever the sign of a
zero. -/
theorem add_one_of_hasValue (x : F64) (z : Int) (hx : hasValue x (z : ℚ))
    (h1 : -2 ^ 53 ≤ z + 1) (h2 : z + 1 ≤ 2 ^ 53) :
    add x (fin 1) = fin ((z + 1 : Int) : ℚ) := by
  obtain ⟨hn, hi, hv⟩ := hx
  by_cases hz : z + 1 = 0
  · unfold add
    have hs : x.toRat + (fin 1).toRat = 0 := by
      rw [hv, toRat_fin]
      have : ((z + 1 : Int) : ℚ) = 0 := by rw [hz]; simp
      push_cast at this
      exact this
    have hneg1 : (fin 1).isNeg = false := isNeg_fin_of_pos 1 (by norm_num)
    simp only [hn, hi, isNaN_fin, isInf_fin, Bool.or_self, Bool.false_eq_true, if_false, hs,
      if_true, hneg1, Bool.and_false, zeroOf]
    rw [hz]
    simp
  · have hfin : add x (fin 1) = add (fin (z : ℚ)) (fin 1) := by
      unfold add
      have hs : x.toRat + (fin 1).toRat ≠ 0 := by
        rw [hv, toRat_fin]
        intro h0
        apply hz
        have : ((z + 1 : Int) : ℚ) = 0 := by push_cast; exact h0
        exact_mod_cast this
      have hs2 : (fin (z : ℚ)).toRat + (fin 1).toRat ≠ 0 := by
        rw [toRat_fin]; rw [hv] at hs; exact hs
      rw [hv, toRat_fin] at hs
      simp only [hn, hi, isNaN_fin, isInf_fin, Bool.or_self, Bool.false_eq_true, if_false,
        hv, toRat_fin, if_neg hs]
    rw [hfin]
    exact add_intCast_one z h1 h2

end F64

theorem writes_written (clk : Clock) (start : Int) (p : Process) (es : List Event) :
    (writes (written clk start p :: es)).length = (writes es).length + 1 := by
  simp [writes, written]

theorem le_zero_natCast (k : Nat) : le (fin 0) (fin (k : ℚ)) = true := by
  simp [le, isNaN, toRat]

/-- Repeated `Increment()` from a value that is a natural number `k`, while the
count stays within `2^53`. -/
theorem runCalls_increment (clks : List Clock) :
    ∀ (p : Process) (k : Nat), hasValue p.value (k : ℚ) → getLen p < 2 ^ 53 →
      k + clks.length ≤ 2 ^ 53 →
      (runCalls (clks.map (fun clk => (Call.increment, clk))) p).fault = none ∧
      (fractions (runCalls (clks.map (fun clk => (Call.increment, clk))) p).events).map Prod.fst =
        (List.range clks.length).map (fun i : Nat => Arg.float (fin ((k : ℚ) + (i : ℚ) + 1))) ∧
      (writes (runCalls (clks.map (fun clk => (Call.increment, clk))) p).events).length =
        clks.length ∧
      hasValue (runCalls (clks.map (fun clk => (Call.increment, clk))) p).proc.value
        ((k : ℚ) + clks.length) ∧
      (runCalls (clks.map (fun clk => (Call.increment, clk))) p).proc.Total = p.Total ∧
      (runCalls (clks.map (fun clk => (Call.increment, clk))) p).proc.Len = p.Len ∧
      (runCalls (clks.map (fun clk => (Call.increment, clk))) p).proc.Format = p.Format ∧
      (runCalls (clks.map (fun clk => (Call.increment, clk))) p).proc.Prefix = p.Prefix := by
  induction clks with
  | nil =>
    intro p k hk _ _
    simpa [runCalls, fractions, writes] using hk
  | cons clk rest ih =>
    intro p k hk hw hN
    simp only [List.length_cons] at hN
    have hadd : add p.value (fin 1) = fin (((k + 1 : Nat) : ℚ)) := by
      have := add_one_of_hasValue p.value (k : Int) (by simpa using hk) (by omega)
        (by
          have : ((k : Int) + 1) ≤ 2 ^ 53 := by
            have h1 : k + 1 ≤ 2 ^ 53 := by omega
            exact_mod_cast h1
          exact this)
      rw [this]; push_cast; rfl
    have hv : le (fin 0) ({ p with value := fin (((k + 1 : Nat) : ℚ)) } : Process).value = true :=
      le_zero_natCast (k + 1)
    have hstep : Call.exec Call.increment clk p =
        ⟨onceDo clk { p with value := fin (((k + 1 : Nat) : ℚ)) },
          written clk (onceDo clk { p with value := fin (((k + 1 : Nat) : ℚ)) }).startTime
            { p with value := fin (((k + 1 : Nat) : ℚ)) } ::
            completion { p with value := fin (((k + 1 : Nat) : ℚ)) },
          none⟩ := by
      show render clk { p with value := add p.value (fin 1) } = _
      rw [hadd]
      exact render_of_nonneg clk _ hw hv
    have hk1 : hasValue (onceDo clk { p with value := fin (((k + 1 : Nat) : ℚ)) }).value
        (((k + 1 : Nat) : ℚ)) := by
      rw [value_onceDo]
      exact hasValue_fin _
    have hw1 : getLen (onceDo clk { p with value := fin (((k + 1 : Nat) : ℚ)) }) < 2 ^ 53 := by
      rw [getLen_onceDo]; exact hw
    obtain ⟨i1, i2, i3, i4, i5, i6, i7, i8⟩ := ih _ (k + 1) hk1 hw1 (by omega)
    obtain ⟨f1, f2, f3, _⟩ := onceDo_fields clk { p with value := fin (((k + 1 : Nat) : ℚ)) }
    simp only [List.map_cons, runCalls, hstep, List.length_cons]
    refine ⟨i1, ?_, ?_, ?_, ?_, ?_, ?_, ?_⟩
    · rw [List.cons_append, fractions_written, fractions_append, fractions_completion,
        List.nil_append, List.map_cons, i2, List.range_succ_eq_map, List.map_cons, List.map_map]
      congr 1
      · show Arg.float (fin (((k + 1 : Nat) : ℚ))) = _
        simp
      · apply List.map_congr_left
        intro i _
        simp only [Function.comp, Nat.cast_succ, Nat.cast_add, Nat.cast_one]
        congr 2; ring
    · rw [List.cons_append, writes_written, writes_append, writes_completion,
        List.nil_append, i3]
    · obtain ⟨a, b, c⟩ := i4
      refine ⟨a, b, ?_⟩
      rw [c]; push_cast; ring
    · rw [i5, f1]
    · rw [i6, f2]
    · rw [i7, f3]
    · rw [i8, Prefix_onceDo]

/-! ## The operation modelled from the spec -/

theorem getRate_of_value_zero (p : Process) (h : p.value = fin 0) : getRate p = fin 0 := by
  have hc : le (getTotal p) p.value = false := by
    rcases pos_cases _ (getTotal_pos p) with ht | ⟨t, ht0, ht⟩
    · rw [ht, h]; simp [le, isNaN]
    · rw [ht, h]; simp [le, isNaN, toRat, ht0]
  rw [getRate_of_incomplete p hc, h]
  rcases pos_cases _ (getTotal_pos p) with ht | ⟨t, ht0, ht⟩
  · rw [ht, div_finite_posInf (fin 0) rfl rfl]
    simp [zeroOf, isNeg]
  · rw [ht, div_finite_fin t ht0 (fin 0) rfl rfl]
    have := ofSignMag_natCast 0 (by norm_num)
    simpa [isNeg, toRat] using this

theorem mul_zero_hundred : mul (fin 0) (fin 100) = fin 0 := by
  rw [mul_finite_fin 100 (by norm_num) (fin 0) rfl rfl]
  have := ofSignMag_natCast 0 (by norm_num)
  simpa [isNeg, toRat] using this

theorem runIncrementTotal_nil (p : Process) : runIncrementTotal [] p = ⟨p, [], none⟩ := rfl
theorem runIncrementTotal_cons (clk : Clock) (rest : List Clock) (p : Process) :
    runIncrementTotal (clk :: rest) p =
      match (IncrementTotal clk p).fault with
      | some e => ⟨(IncrementTotal clk p).proc, (IncrementTotal clk p).events, some e⟩
      | none =>
        ⟨(runIncrementTotal rest (IncrementTotal clk p).proc).proc,
          (IncrementTotal clk p).events ++ (runIncrementTotal rest (IncrementTotal clk p).proc).events,
          (runIncrementTotal rest (IncrementTotal clk p).proc).fault⟩ := rfl

theorem runIncrementTotal_spec (clks : List Clock) :
    ∀ (p : Process) (t : Int), hasValue p.Total (t : ℚ) → -2 ^ 53 ≤ t →
      t + clks.length ≤ 2 ^ 53 → le (fin 0) p.value = true → getLen p < 2 ^ 53 →
      (runIncrementTotal clks p).fault = none ∧
      (writes (runIncrementTotal clks p).events).length = clks.length ∧
      hasValue (runIncrementTotal clks p).proc.Total ((t : ℚ) + clks.length) ∧
      (runIncrementTotal clks p).proc.value = p.value ∧
      fractions (runIncrementTotal clks p).events =
        (List.range clks.length).map (fun i : Nat =>
          (Arg.float p.value,
            Arg.float (if (0 : ℚ) < (t : ℚ) + (i : ℚ) + 1 then fin ((t : ℚ) + (i : ℚ) + 1)
              else fin 100))) ∧
      (p.value = fin 0 →
        percentages (runIncrementTotal clks p).events =
          List.replicate clks.length (Arg.float (fin 0))) := by
  induction clks with
  | nil =>
    intro p t ht hlo hhi _ _
    clear hlo hhi
    refine ⟨?_, ?_, ?_, ?_, ?_, ?_⟩
    · rfl
    · rfl
    · simpa [runIncrementTotal_nil] using ht
    · rfl
    · rfl
    · intro _
      rfl
  | cons clk rest ih =>
    intro p t ht hlo hhi hv hw
    simp only [List.length_cons] at hhi
    push_cast at hhi
    have hadd : add p.Total (fin 1) = fin (((t + 1 : Int) : ℚ)) :=
      add_one_of_hasValue p.Total t ht (by omega) (by omega)
    have hstep : IncrementTotal clk p =
        ⟨onceDo clk { p with Total := fin (((t + 1 : Int) : ℚ)) },
          written clk (onceDo clk { p with Total := fin (((t + 1 : Int) : ℚ)) }).startTime
            { p with Total := fin (((t + 1 : Int) : ℚ)) } ::
            completion { p with Total := fin (((t + 1 : Int) : ℚ)) },
          none⟩ := by
      show render clk { p with Total := add p.Total (fin 1) } = _
      rw [hadd]
      exact render_of_nonneg clk _ hw hv
    have hv1 : (onceDo clk { p with Total := fin (((t + 1 : Int) : ℚ)) }).value = p.value := by
      rw [value_onceDo]
    have hT1 : (onceDo clk { p with Total := fin (((t + 1 : Int) : ℚ)) }).Total =
        fin (((t + 1 : Int) : ℚ)) := (onceDo_fields clk _).1
    obtain ⟨i1, i2, i3, i4, i5, i6⟩ := ih (onceDo clk { p with Total := fin (((t + 1 : Int) : ℚ)) })
      (t + 1) (by rw [hT1]; exact hasValue_fin _) (by omega) (by omega) (by rw [hv1]; exact hv)
      (by rw [getLen_onceDo]; exact hw)
    simp only [runIncrementTotal_cons, hstep, List.length_cons]
    refine ⟨i1, ?_, ?_, ?_, ?_, ?_⟩
    · rw [List.cons_append, writes_written, writes_append, writes_completion,
        List.nil_append, i2]
    · obtain ⟨a, b, c⟩ := i3
      refine ⟨a, b, ?_⟩
      rw [c]; push_cast; ring
    · rw [i4, hv1]
    · rw [List.cons_append, fractions_written, fractions_append, fractions_completion,
        List.nil_append, i5, List.range_succ_eq_map, List.map_cons, List.map_map, hv1]
      congr 1
      · have hgt : getTotal { p with Total := fin (((t + 1 : Int) : ℚ)) } =
            (if (0 : ℚ) < (t : ℚ) + ((0 : Nat) : ℚ) + 1 then fin ((t : ℚ) + ((0 : Nat) : ℚ) + 1)
              else fin 100) := by
          unfold getTotal
          simp only [lt, isNaN_fin, toRat_fin, Bool.or_self, Bool.false_eq_true, if_false]
          push_cast
          by_cases h0 : (0 : ℚ) < (t : ℚ) + 1
          · simp [h0]
          · simp [h0]
        rw [hgt]
      · apply List.map_congr_left
        intro i _
        simp only [Function.comp, Nat.cast_succ]
        have e : (((t + 1 : Int) : ℚ)) + (i : ℚ) + 1 = (t : ℚ) + ((i : ℚ) + 1) + 1 := by
          push_cast; ring
        rw [e]
    · intro h0
      rw [List.cons_append, percentages_written, percentages_append, percentages_completion,
        List.nil_append, i6 (by rw [hv1]; exact h0), List.replicate_succ,
        getRate_of_value_zero { p with Total := fin (((t + 1 : Int) : ℚ)) } h0, mul_zero_hundred]

/-- For a tracker with value at least zero and a width below `2^53`,
`SetTotal(v)` stores `Total = v`, keeps the other fields, and makes one write
showing the value over the effective total of `v`. -/
theorem SetTotal_of_nonneg (p : Process) (v : F64) (clk : Clock) (hw : getLen p < 2 ^ 53)
    (h : le (fin 0) p.value = true) :
    (SetTotal v clk p).fault = none ∧
    (SetTotal v clk p).proc.Total = v ∧ (SetTotal v clk p).proc.value = p.value ∧
    (SetTotal v clk p).proc.Len = p.Len ∧ (SetTotal v clk p).proc.Format = p.Format ∧
    (SetTotal v clk p).proc.Prefix = p.Prefix ∧
    fractions (SetTotal v clk p).events =
      [(Arg.float p.value, Arg.float (if lt (fin 0) v then v else fin 100))] := by
  have hrun : SetTotal v clk p = render clk { p with Total := v } := rfl
  rw [hrun, render_of_nonneg clk { p with Total := v } hw h]
  obtain ⟨f1, f2, f3, _⟩ := onceDo_fields clk { p with Total := v }
  refine ⟨rfl, f1, value_onceDo _ _, f2, f3, Prefix_onceDo _ _, ?_⟩
  simp [fractions_written, fractions_completion, getTotal]

/-! ## Given trackers -/

theorem getRate_eval (p : Process) (t v r : ℚ) (ht : getTotal p = fin t) (hv : p.value = fin v)
    (hlt : v < t) (hr : div (fin v) (fin t) = fin r) : getRate p = fin r := by
  have hc : le (getTotal p) p.value = false := by
    rw [ht, hv, le_of_finite (fin t) (fin v) rfl rfl rfl rfl]
    simpa using hlt
  rw [getRate_of_incomplete p hc, ht, hv, hr]

theorem fillCount_eval (p : Process) (w r m : ℚ) (z : Int) (hw : ofInt (getLen p) = fin w)
    (hr : getRate p = fin r) (hm : mul (fin w) (fin r) = fin m) (hz : truncate m = z)
    (h1 : -2 ^ 63 ≤ z) (h2 : z < 2 ^ 63) : fillCount p = z := by
  unfold fillCount
  rw [hw, hr, hm]
  exact toInt_fin m z hz h1 h2

theorem ofInt_24 : ofInt 24 = fin 24 := by
  have := ofInt_of_nonneg 24 (by norm_num) (by norm_num)
  simpa using this

theorem ofInt_40 : ofInt 40 = fin 40 := by
  have := ofInt_of_nonneg 40 (by norm_num) (by norm_num)
  simpa using this

theorem ofInt_100 : ofInt 100 = fin 100 := by
  have := ofInt_of_nonneg 100 (by norm_num) (by norm_num)
  simpa using this

theorem getTotal_of_zero (p : Process) (h : p.Total = fin 0) : getTotal p = fin 100 := by
  unfold getTotal
  rw [h]
  simp [lt, isNaN, toRat]

theorem getTotal_of_pos (p : Process) (t : ℚ) (h : p.Total = fin t) (ht : 0 < t) :
    getTotal p = fin t := by
  unfold getTotal
  rw [h]
  simp [lt, isNaN, toRat, ht]

theorem getLen_of_zero (p : Process) (h : p.Len = 0) : getLen p = 24 := by
  unfold getLen
  rw [h]
  simp

theorem getLen_of_pos (p : Process) (n : Int) (h : p.Len = n) (hn : 0 < n) : getLen p = n := by
  unfold getLen
  rw [h]
  simp [hn]

/-- On the zero tracker with value -5 the fill count is -1. -/
theorem fillCount_neg5 : fillCount { Process.zero with value := fin (-5) } = -1 := by
  have hr : getRate { Process.zero with value := fin (-5) } =
      fin (-(3602879701896397 / 2 ^ 56)) :=
    getRate_eval _ 100 (-5) _ (getTotal_of_zero _ rfl) rfl (by norm_num) div_neg5_100
  refine fillCount_eval _ 24 _ _ (-1) ?_ hr mul_24_rateNeg5 ?_ (by norm_num) (by norm_num)
  · rw [getLen_of_zero _ rfl]; exact ofInt_24
  · exact truncate_eq_of_nonpos _ _ (by norm_num) (by norm_num) (by norm_num)

/-- On the zero tracker with value -1 the fill count is 0. -/
theorem fillCount_neg1 (b : Bool) (s : Int) :
    fillCount { Process.zero with value := fin (-1), startTime := s, once := b } = 0 := by
  have hr : getRate { Process.zero with value := fin (-1), startTime := s, once := b } =
      fin (-(5764607523034235 / 2 ^ 59)) :=
    getRate_eval _ 100 (-1) _ (getTotal_of_zero _ rfl) rfl (by norm_num) div_neg1_100
  refine fillCount_eval _ 24 _ _ 0 ?_ hr mul_24_rateNeg1 ?_ (by norm_num) (by norm_num)
  · rw [getLen_of_zero _ rfl]; exact ofInt_24
  · exact truncate_eq_of_nonpos _ _ (by norm_num) (by norm_num) (by norm_num)

/-- With total 10 and value -1 at the default width the fill count is -2. -/
theorem fillCount_neg1_of_10 (p : Process) (hT : p.Total = fin 10) (hv : p.value = fin (-1))
    (hL : p.Len = 0) : fillCount p = -2 := by
  have hr : getRate p = fin (-(3602879701896397 / 2 ^ 55)) :=
    getRate_eval _ 10 (-1) _ (getTotal_of_pos _ 10 hT (by norm_num)) hv (by norm_num) div_neg1_10
  refine fillCount_eval _ 24 _ _ (-2) ?_ hr mul_24_rateNeg1of10 ?_ (by norm_num) (by norm_num)
  · rw [getLen_of_zero _ hL]; exact ofInt_24
  · exact truncate_eq_of_nonpos _ _ (by norm_num) (by norm_num) (by norm_num)

/-- With total 101 and value 3 the rate is the rounded quotient. -/
theorem getRate_3_of_101 (p : Process) (hT : p.Total = fin 101) (hv : p.value = fin 3) :
    getRate p = fin (1070162287691999 / 2 ^ 55) :=
  getRate_eval _ 101 3 _ (getTotal_of_pos _ 101 hT (by norm_num)) hv (by norm_num) div_3_101

/-- With total 101, value 3 and width 40 the fill count is 1. -/
theorem fillCount_sample : fillCount sample = 1 := by
  refine fillCount_eval _ 40 _ _ 1 ?_ (getRate_3_of_101 sample rfl rfl) mul_40_rate3 ?_
    (by norm_num) (by norm_num)
  · rw [getLen_of_pos sample 40 rfl (by norm_num)]; exact ofInt_40
  · exact truncate_eq_of_nonneg _ _ (by norm_num) (by norm_num) (by norm_num)

/-- With total 101 and value 3 at the default width the fill count is 0. -/
theorem fillCount_3_of_101 (p : Process) (hT : p.Total = fin 101) (hv : p.value = fin 3)
    (hL : p.Len = 0) : fillCount p = 0 := by
  refine fillCount_eval _ 24 _ _ 0 ?_ (getRate_3_of_101 p hT hv) mul_24_rate3 ?_
    (by norm_num) (by norm_num)
  · rw [getLen_of_zero _ hL]; exact ofInt_24
  · exact truncate_eq_of_nonneg _ _ (by norm_num) (by norm_num) (by norm_num)

/-- With the default total and value 29 the rate is below 29/100. -/
theorem getRate_29 (p : Process) (hT : p.Total = fin 0) (hv : p.value = fin 29) :
    getRate p = fin (5224175567749775 / 2 ^ 54) :=
  getRate_eval _ 100 29 _ (getTotal_of_zero _ hT) hv (by norm_num) div_29_100

/-- With the default total, value 29 and width 100 the fill count is 28. -/
theorem fillCount_29_of_100 (p : Process) (hT : p.Total = fin 0) (hv : p.value = fin 29)
    (hL : p.Len = 100) : fillCount p = 28 := by
  refine fillCount_eval _ 100 _ _ 28 ?_ (getRate_29 p hT hv) mul_100_rate29 ?_
    (by norm_num) (by norm_num)
  · rw [getLen_of_pos p 100 hL (by norm_num)]; exact ofInt_100
  · exact truncate_eq_of_nonneg _ _ (by norm_num) (by norm_num) (by norm_num)

/-- With total 2000 and value 1 the rate is the rounded quotient. -/
theorem getRate_1_of_2000 (p : Process) (hT : p.Total = fin 2000) (hv : p.value = fin 1) :
    getRate p = fin (1152921504606847 / 2 ^ 61) :=
  getRate_eval _ 2000 1 _ (getTotal_of_pos _ 2000 hT (by norm_num)) hv (by norm_num) div_1_2000

/-- With total 2000 and value 1 at the default width the fill count is 0. -/
theorem fillCount_1_of_2000 (p : Process) (hT : p.Total = fin 2000) (hv : p.value = fin 1)
    (hL : p.Len = 0) : fillCount p = 0 := by
  refine fillCount_eval _ 24 _ _ 0 ?_ (getRate_1_of_2000 p hT hv) mul_24_rate2000 ?_
    (by norm_num) (by norm_num)
  · rw [getLen_of_zero _ hL]; exact ofInt_24
  · exact truncate_eq_of_nonneg _ _ (by norm_num) (by norm_num) (by norm_num)

/-- At the greatest width with the default total and value 50 the fill count is
`2^62`. -/
theorem fillCount_widest_half (p : Process) (hT : p.Total = fin 0) (hv : p.value = fin 50)
    (hL : p.Len = 2 ^ 63 - 1) : fillCount p = 2 ^ 62 := by
  have hr : getRate p = fin (1 / 2 ^ 1) :=
    getRate_eval _ 100 50 _ (getTotal_of_zero _ hT) hv (by norm_num) div_50_100
  refine fillCount_eval _ (2 ^ 63) _ 4611686018427387904 (2 ^ 62) ?_ hr ?_ ?_
    (by norm_num) (by norm_num)
  · rw [getLen_of_pos p (2 ^ 63 - 1) hL (by norm_num)]; exact ofInt_maxInt
  · have := mul_2p63_half
    norm_num at this ⊢
    exact this
  · have := truncate_intCast (2 ^ 62)
    norm_num at this ⊢
    exact this

/-! ## Text of given numbers -/

theorem formatFloat_100 : formatFloat 1 (fin 100) = ['1', '0', '0', '.', '0'] := by
  simp [formatFloat, formatRat]
  decide

theorem formatFloat_rate3 :
    formatFloat 1 (fin (3344257149037497 / 2 ^ 50)) = ['3', '.', '0'] := by
  have hn : ((3344257149037497 / 2 ^ 50 : ℚ)).num = 3344257149037497 := by norm_num
  have hd : ((3344257149037497 / 2 ^ 50 : ℚ)).den = 2 ^ 50 := by norm_num
  simp only [formatFloat, formatRat, hn, hd]
  norm_num
  decide

theorem formatFloat_rate2000 :
    formatFloat 1 (fin (3602879701896397 / 2 ^ 56)) = ['0', '.', '1'] := by
  have hn : ((3602879701896397 / 2 ^ 56 : ℚ)).num = 3602879701896397 := by norm_num
  have hd : ((3602879701896397 / 2 ^ 56 : ℚ)).den = 2 ^ 56 := by norm_num
  simp only [formatFloat, formatRat, hn, hd]
  norm_num
  decide

/-! ## Facts shared by the properties -/

theorem mul_isNaN_left (x y : F64) (h : x.isNaN = true) : (mul x y).isNaN = true := by
  unfold mul
  simp [h]
  rfl

theorem percent_le (p : Process) : lt (fin 100) (mul (getRate p) (fin 100)) = false := by
  rcases getRate_le_one p with h | h
  · exact lt_of_isNaN_right _ _ (mul_isNaN_left _ _ h)
  · have := mul_le_mul_fin 100 (by norm_num) _ _ h
    rw [mul_one_hundred] at this
    exact lt_eq_false_of_le _ _ this

theorem percent_bounds (p : Process) (h : le (fin 0) p.value = true) :
    le (fin 0) (mul (getRate p) (fin 100)) = true ∧
    le (mul (getRate p) (fin 100)) (fin 100) = true := by
  have h0 := getRate_nonneg p h
  have hn : (getRate p).isNaN = false := le_isNaN_right _ _ h0
  constructor
  · have := mul_le_mul_fin 100 (by norm_num) _ _ h0
    rw [mul_zero_hundred] at this
    exact this
  · rcases getRate_le_one p with h1 | h1
    · rw [hn] at h1; cases h1
    · have := mul_le_mul_fin 100 (by norm_num) _ _ h1
      rw [mul_one_hundred] at this
      exact this

theorem percentages_render (clk : Clock) (p : Process) (h : (render clk p).fault = none) :
    percentages (render clk p).events = [Arg.float (mul (getRate p) (fin 100))] := by
  rw [render_of_no_fault clk p h]
  simp [percentages_written, percentages_completion]

theorem fractions_render (clk : Clock) (p : Process) (h : (render clk p).fault = none) :
    fractions (render clk p).events = [(Arg.float p.value, Arg.float (getTotal p))] := by
  rw [render_of_no_fault clk p h]
  simp [fractions_written, fractions_completion]

theorem writes_render (clk : Clock) (p : Process) (h : (render clk p).fault = none) :
    (writes (render clk p).events).length = 1 := by
  rw [render_of_no_fault clk p h]
  simp [writes_written, writes_completion]

theorem le_zero_fin (v : ℚ) (h : 0 ≤ v) : le (fin 0) (fin v) = true := by
  rw [le_of_finite (fin 0) (fin v) rfl rfl rfl rfl]
  simpa using h

theorem callCount_render_of_no_fault (clk : Clock) (p : Process)
    (h : (render clk p).fault = none) :
    callCount (render clk p).events =
      if p.Cancel ≠ none ∧ le (getTotal p) p.value = true then 1 else 0 := by
  rw [render_of_no_fault clk p h]
  simp only [written, callCount]
  exact callCount_completion p

theorem eq_fin_of_hasValue (x : F64) (q : ℚ) (hq : q ≠ 0) (h : hasValue x q) : x = fin q := by
  obtain ⟨h1, h2, h3⟩ := h
  cases x with
  | nan => cases h1
  | posInf => cases h2
  | negInf => cases h2
  | negZero => exact absurd h3.symm hq
  | fin r => rw [toRat_fin] at h3; rw [h3]

theorem hasValue_nonneg (x : F64) (q : ℚ) (hq : 0 ≤ q) (h : hasValue x q) :
    le (fin 0) x = true := by
  obtain ⟨h1, h2, h3⟩ := h
  rw [le_of_finite (fin 0) x rfl rfl h1 h2, h3]
  simpa using hq

theorem runCalls_single_proc (c : Call) (clk : Clock) (p : Process) :
    (runCalls [(c, clk)] p).proc = (c.exec clk p).proc := by
  simp only [runCalls]
  cases (c.exec clk p).fault <;> rfl

theorem runCalls_single_fault (c : Call) (clk : Clock) (p : Process) :
    (runCalls [(c, clk)] p).fault = (c.exec clk p).fault := by
  simp only [runCalls]
  cases h : (c.exec clk p).fault <;> rfl

theorem runCalls_single_events (c : Call) (clk : Clock) (p : Process) :
    (runCalls [(c, clk)] p).events = (c.exec clk p).events := by
  simp only [runCalls]
  cases h : (c.exec clk p).fault <;> simp

/-- At the greatest width `Done()` panics before anything is written. -/
theorem Done_widest (clk : Clock) (p : Process) (hL : getLen p = 2 ^ 63 - 1) :
    Done clk p =
      ⟨onceDo clk { p with value := getTotal p }, [], some Fault.negativeRepeatCount⟩ :=
  render_widest clk { p with value := getTotal p } hL (getTotal_le_self p)

/-- The events and the fault of a render depend on `Total`, `Len` and `Format`
only through the effective total, width and format. -/
theorem render_congr (clk : Clock) (p q : Process) (hv : q.value = p.value) (hW : q.W = p.W)
    (hP : q.Prefix = p.Prefix) (hC : q.Cancel = p.Cancel) (hs : q.startTime = p.startTime)
    (ho : q.once = p.once) (hT : getTotal q = getTotal p) (hL : getLen q = getLen p)
    (hF : getFormat q = getFormat p) :
    (render clk q).events = (render clk p).events ∧
    (render clk q).fault = (render clk p).fault := by
  have hrate : getRate q = getRate p := by
    unfold getRate
    simp only [hT, hv]
  have hfill : fillCount q = fillCount p := by
    unfold fillCount
    rw [hL, hrate]
  have hwr : getWriter q = getWriter p := by
    unfold getWriter
    rw [hW]
  have hstart : (onceDo clk q).startTime = (onceDo clk p).startTime := by
    unfold onceDo
    rw [ho]
    split_ifs
    · exact hs
    · rfl
  have hwritten : written clk (onceDo clk q).startTime q =
      written clk (onceDo clk p).startTime p := by
    unfold written
    rw [hwr, hfill, hL, hF, hP, hrate, hv, hT, hstart]
  have hcompl : completion q = completion p := by
    unfold completion
    rw [hT, hv, hC]
  rw [render_eq clk q, render_eq clk p, hfill, hL, hwritten, hcompl]
  split_ifs <;> exact ⟨rfl, rfl⟩

/-! ## Text of given lines -/

theorem formatFloat_int_1 : formatFloat 0 (fin 1) = ['1'] := by
  simp [formatFloat, formatRat]
  decide

theorem formatFloat_int_3 : formatFloat 0 (fin 3) = ['3'] := by
  simp [formatFloat, formatRat]
  decide

theorem formatFloat_int_101 : formatFloat 0 (fin 101) = ['1', '0', '1'] := by
  simp [formatFloat, formatRat]
  decide

theorem formatFloat_int_2000 : formatFloat 0 (fin 2000) = ['2', '0', '0', '0'] := by
  simp [formatFloat, formatRat]
  decide

theorem formatFloat_7 : formatFloat 1 (fin 7) = ['7', '.', '0'] := by
  simp [formatFloat, formatRat]
  decide

/-- The default format on one float: no fraction digits, width 1. -/
theorem goSprintf_default (x : F64) :
    goSprintf "%1.0f" [Arg.float x] = some ⟨padLeft 1 (formatFloat 0 x)⟩ := by
  have h1 : ('1' : Char).isDigit = true := by decide
  have h0 : ('0' : Char).isDigit = true := by decide
  have hf : ('f' : Char).isDigit = false := by decide
  simp [goSprintf, fmtRun, applyVerb, padFloat, h1, h0, hf]

/-- The format `%05.1f` on one finite float: one fraction digit, zeros up to
five characters. -/
theorem goSprintf_zero_padded (q : ℚ) :
    goSprintf "%05.1f" [Arg.float (fin q)] =
      some ⟨padFloat true 5 (fin q) (formatFloat 1 (fin q))⟩ := by
  have h1 : ('1' : Char).isDigit = true := by decide
  have h5 : ('5' : Char).isDigit = true := by decide
  have hf : ('f' : Char).isDigit = false := by decide
  simp [goSprintf, fmtRun, applyVerb, h1, h5, hf]

theorem linesOf_setValue_three :
    linesOf (SetValue (fin 3) ⟨0, 0⟩ { Process.zero with Total := fin 101 }).events =
      [some "\r  3.0% [........................] [3/101 in 0s]"] := by
  have hf : (render ⟨0, 0⟩ { Process.zero with Total := fin 101, value := fin 3 }).fault =
      none := by
    rw [render_of_nonneg _ _ (by rw [getLen_of_zero _ rfl]; norm_num)
      (le_zero_fin 3 (by norm_num))]
  have hV : goSprintf (getFormat { Process.zero with Total := fin 101, value := fin 3 })
      [Arg.float ({ Process.zero with Total := fin 101, value := fin 3 } : Process).value] =
        some "3" := by
    show goSprintf "%1.0f" [Arg.float (fin 3)] = _
    rw [goSprintf_default, formatFloat_int_3]
    rfl
  have hT : goSprintf (getFormat { Process.zero with Total := fin 101, value := fin 3 })
      [Arg.float (getTotal { Process.zero with Total := fin 101, value := fin 3 })] =
        some "101" := by
    rw [getTotal_of_pos _ 101 rfl (by norm_num)]
    show goSprintf "%1.0f" [Arg.float (fin 101)] = _
    rw [goSprintf_default, formatFloat_int_101]
    rfl
  show linesOf (render ⟨0, 0⟩ { Process.zero with Total := fin 101, value := fin 3 }).events = _
  rw [linesOf_render _ _ "3" "101" hf hV hT, getRate_3_of_101 _ rfl rfl, mul_rate3_100,
    formatFloat_rate3, fillCount_3_of_101 _ rfl rfl rfl, getLen_of_zero _ rfl, render_proc]
  decide

end Progress

/-! ## Exact arithmetic -/

namespace Progress.Exact

theorem getTotal_pos_exact (p : Process) : 0 < getTotal p := by
  unfold getTotal; split_ifs with h
  · exact h
  · norm_num

theorem getLen_pos_exact (p : Process) : 0 < getLen p := by
  unfold getLen; split_ifs with h
  · exact h
  · norm_num

theorem getRate_le_one_exact (p : Process) : getRate p ≤ 1 := by
  unfold getRate; simp only
  split_ifs with h
  · exact le_refl _
  · exact (div_le_one (getTotal_pos_exact p)).mpr (le_of_lt (not_le.mp h))

theorem getRate_nonneg_exact (p : Process) (h : 0 ≤ p.value) : 0 ≤ getRate p := by
  unfold getRate; simp only
  split_ifs
  · norm_num
  · exact div_nonneg h (le_of_lt (getTotal_pos_exact p))

theorem goInt_eq_floor_exact (x : ℚ) (h : 0 ≤ x) : goInt x = ⌊x⌋ := by
  unfold goInt
  rw [Int.tdiv_eq_ediv (Rat.num_nonneg.mpr h) (Int.ofNat_nonneg _), ← Rat.floor_def']
  rfl

theorem goInt_intCast_exact (n : Int) : goInt (n : ℚ) = n := by
  unfold goInt
  simp

theorem goInt_nonpos_exact (x : ℚ) (h : x ≤ 0) : goInt x ≤ 0 := by
  unfold goInt
  have h1 : x.num ≤ 0 := Rat.num_nonpos.mpr h
  obtain ⟨m, hm⟩ : ∃ m : ℤ, x.num = -m ∧ 0 ≤ m := ⟨-x.num, by simp, by omega⟩
  rw [hm.1, Int.neg_tdiv]
  have := Int.tdiv_nonneg hm.2 (Int.ofNat_nonneg x.den)
  omega

theorem fillCount_le_exact (p : Process) : fillCount p ≤ getLen p := by
  unfold fillCount
  have hn : (0 : ℚ) < (getLen p : ℚ) := by exact_mod_cast getLen_pos_exact p
  rcases le_total 0 (getRate p) with h | h
  · have h0 : 0 ≤ (getLen p : ℚ) * getRate p := mul_nonneg (le_of_lt hn) h
    rw [goInt_eq_floor_exact _ h0]
    have h1 : (getLen p : ℚ) * getRate p ≤ (getLen p : ℚ) := by
      have := mul_le_mul_of_nonneg_left (getRate_le_one_exact p) (le_of_lt hn)
      simpa using this
    have h2 : ⌊(getLen p : ℚ) * getRate p⌋ ≤ ⌊((getLen p : ℤ) : ℚ)⌋ := Int.floor_mono h1
    simpa using h2
  · have h0 : (getLen p : ℚ) * getRate p ≤ 0 := mul_nonpos_of_nonneg_of_nonpos (le_of_lt hn) h
    exact le_trans (goInt_nonpos_exact _ h0) (le_of_lt (getLen_pos_exact p))

theorem fillCount_nonneg_exact (p : Process) (h : 0 ≤ p.value) : 0 ≤ fillCount p := by
  unfold fillCount
  have hn : (0 : ℚ) < (getLen p : ℚ) := by exact_mod_cast getLen_pos_exact p
  have h0 : 0 ≤ (getLen p : ℚ) * getRate p := mul_nonneg (le_of_lt hn) (getRate_nonneg_exact p h)
  rw [goInt_eq_floor_exact _ h0]
  exact Int.floor_nonneg.mpr h0

@[simp] theorem getTotal_onceDo_exact (clk : Clock) (p : Process) :
    getTotal (onceDo clk p) = getTotal p := by
  unfold onceDo getTotal; split_ifs <;> rfl

@[simp] theorem getFormat_onceDo_exact (clk : Clock) (p : Process) :
    getFormat (onceDo clk p) = getFormat p := by
  unfold onceDo getFormat; split_ifs <;> rfl

@[simp] theorem getWriter_onceDo_exact (clk : Clock) (p : Process) :
    getWriter (onceDo clk p) = getWriter p := by
  unfold onceDo getWriter; split_ifs <;> rfl

@[simp] theorem getLen_onceDo_exact (clk : Clock) (p : Process) :
    getLen (onceDo clk p) = getLen p := by
  unfold onceDo getLen; split_ifs <;> rfl

@[simp] theorem getRate_onceDo_exact (clk : Clock) (p : Process) :
    getRate (onceDo clk p) = getRate p := by
  unfold onceDo getRate getTotal; split_ifs <;> rfl

@[simp] theorem value_onceDo_exact (clk : Clock) (p : Process) :
    (onceDo clk p).value = p.value := by
  unfold onceDo; split_ifs <;> rfl

@[simp] theorem Prefix_onceDo_exact (clk : Clock) (p : Process) :
    (onceDo clk p).Prefix = p.Prefix := by
  unfold onceDo; split_ifs <;> rfl

@[simp] theorem Cancel_onceDo_exact (clk : Clock) (p : Process) :
    (onceDo clk p).Cancel = p.Cancel := by
  unfold onceDo; split_ifs <;> rfl

/-- The behaviour of `render`, by the sign of the fill count. -/
theorem render_eq_exact (clk : Clock) (p : Process) :
    render clk p =
      if 0 ≤ fillCount p then
        ⟨onceDo clk p, written clk (onceDo clk p).startTime p :: completion p, none⟩
      else ⟨onceDo clk p, [], some Fault.negativeRepeatCount⟩ := by
  have hle := fillCount_le_exact p
  unfold fillCount at hle
  unfold render written completion fillCount stringsRepeat
  simp only [getTotal_onceDo_exact, getFormat_onceDo_exact, getWriter_onceDo_exact, getLen_onceDo_exact,
    getRate_onceDo_exact, value_onceDo_exact, Prefix_onceDo_exact, Cancel_onceDo_exact]
  by_cases h : 0 ≤ goInt ((getLen p : ℚ) * getRate p)
  · have h1 : ¬ goInt ((getLen p : ℚ) * getRate p) < 0 := not_lt.mpr h
    have h2 : ¬ getLen p - goInt ((getLen p : ℚ) * getRate p) < 0 := by omega
    simp [h, h1, h2, repeatChars_singleton]
  · have h1 : goInt ((getLen p : ℚ) * getRate p) < 0 := not_le.mp h
    simp [h, h1]

theorem fillCount_nonneg_of_no_fault_exact (clk : Clock) (p : Process)
    (h : (render clk p).fault = none) : 0 ≤ fillCount p := by
  by_contra hf
  rw [render_eq_exact, if_neg hf] at h
  cases h

theorem fillCount_nonneg_of_complete_exact (p : Process) (h : p.value ≥ getTotal p) :
    0 ≤ fillCount p :=
  fillCount_nonneg_exact p (le_trans (le_of_lt (getTotal_pos_exact p)) h)

theorem callCount_completion_exact (p : Process) :
    callCount (completion p) = if p.Cancel ≠ none ∧ p.value ≥ getTotal p then 1 else 0 := by
  unfold completion
  by_cases h : p.value ≥ getTotal p
  · cases hc : p.Cancel <;> simp [h, callCount]
  · simp [h, callCount]

theorem callCount_render_exact (clk : Clock) (p : Process) :
    callCount (render clk p).events =
      if p.Cancel ≠ none ∧ p.value ≥ getTotal p then 1 else 0 := by
  rw [render_eq_exact]
  by_cases hf : 0 ≤ fillCount p
  · rw [if_pos hf]
    simp only [written, callCount]
    exact callCount_completion_exact p
  · rw [if_neg hf]
    have hnot : ¬ p.value ≥ getTotal p := fun h => hf (fillCount_nonneg_of_complete_exact p h)
    simp [callCount, hnot]

theorem render_fault_of_complete_exact (clk : Clock) (p : Process) (h : p.value ≥ getTotal p) :
    (render clk p).fault = none := by
  rw [render_eq_exact, if_pos (fillCount_nonneg_of_complete_exact p h)]

theorem getRate_lt_one_exact (p : Process) (h : p.value < getTotal p) : getRate p < 1 := by
  unfold getRate
  simp only [ge_iff_le, not_le.mpr h, if_false]
  exact (div_lt_one (getTotal_pos_exact p)).mpr h

theorem getRate_eq_one_iff_exact (p : Process) : getRate p = 1 ↔ p.value ≥ getTotal p := by
  constructor
  · intro h
    by_contra hn
    have := getRate_lt_one_exact p (not_le.mp hn)
    linarith
  · intro h
    unfold getRate
    simp [h]

theorem fillCount_of_complete_exact (p : Process) (h : p.value ≥ getTotal p) :
    fillCount p = getLen p := by
  unfold fillCount
  rw [(getRate_eq_one_iff_exact p).mpr h, mul_one]
  exact goInt_intCast_exact _

theorem fillCount_lt_of_incomplete_exact (p : Process) (h : p.value < getTotal p) :
    fillCount p < getLen p := by
  have hn : (0 : ℚ) < (getLen p : ℚ) := by exact_mod_cast getLen_pos_exact p
  have hr := getRate_lt_one_exact p h
  rcases le_total 0 (getRate p) with h0 | h0
  · unfold fillCount
    rw [goInt_eq_floor_exact _ (mul_nonneg (le_of_lt hn) h0), Int.floor_lt]
    have := mul_lt_mul_of_pos_left hr hn
    simpa using this
  · unfold fillCount
    exact lt_of_le_of_lt (goInt_nonpos_exact _ (mul_nonpos_of_nonneg_of_nonpos (le_of_lt hn) h0))
      (getLen_pos_exact p)

theorem showsBar_of_no_fault_exact (clk : Clock) (p : Process) (h : (render clk p).fault = none) :
    showsBar (render clk p) (fillCount p) (getLen p) := by
  rw [render_eq_exact, if_pos (fillCount_nonneg_of_no_fault_exact clk p h)]
  exact ⟨_, _, _, _, rfl⟩

end Progress.Exact

/-! ## Claims -/

namespace Progress
open F64

/-- C1, the claim as stated fails: with `Total = 100` at the default width,
`SetValue(29)` hands to the formatter the product of the rounded quotient,
`8162774324609023 / 2^48` (28.999999999999996), which is not
`100 * 29 / 100 = 29`. -/
theorem C1_percentage_is_rounded :
    percentages (SetValue (fin 29) ⟨0, 0⟩ { Process.zero with Total := fin 100 }).events =
      [Arg.float (fin (8162774324609023 / 2 ^ 48))] ∧
    fin (8162774324609023 / 2 ^ 48) ≠ fin (100 * 29 / 100) := by
  constructor
  · have hf : (render ⟨0, 0⟩ { Process.zero with Total := fin 100, value := fin 29 }).fault =
        none := by
      rw [render_of_nonneg _ _ (by rw [getLen_of_zero _ rfl]; norm_num) (le_zero_fin 29 (by norm_num))]
    have hr : getRate { Process.zero with Total := fin 100, value := fin 29 } =
        fin (5224175567749775 / 2 ^ 54) :=
      getRate_eval _ 100 29 _ (getTotal_of_pos _ 100 rfl (by norm_num)) rfl (by norm_num)
        div_29_100
    show percentages (render ⟨0, 0⟩ { Process.zero with Total := fin 100, value := fin 29 }).events
      = _
    rw [percentages_render _ _ hf, hr, mul_rate29_100]
  · intro h
    have := congrArg toRat h
    simp only [toRat_fin] at this
    norm_num at this

/-- C1, amended: the rate of `getRate` is 1 when value is at least the
effective total (`Total` when positive, else 100) and the rounded quotient
value / effective total otherwise; the rate never exceeds 1 and the percentage
`rate * 100` never exceeds 100; a render that reaches its write hands the
product `rate * 100` to the formatter; and for `Total > 0` and
`0 ≤ value ≤ Total` that operand is the rounded product by 100 of the rounded
quotient `value / Total` (of 1 when value is `Total`), lies between 0 and 100,
and is exactly 100 when value is `Total`. -/
theorem C1_rate_clamped (p : Process) :
    getRate p =
      (if le (if lt (fin 0) p.Total = true then p.Total else fin 100) p.value = true then fin 1
        else div p.value (if lt (fin 0) p.Total = true then p.Total else fin 100)) ∧
    lt (fin 1) (getRate p) = false ∧
    lt (fin 100) (mul (getRate p) (fin 100)) = false ∧
    (∀ clk : Clock, (render clk p).fault = none →
      percentages (render clk p).events = [Arg.float (mul (getRate p) (fin 100))]) ∧
    (lt (fin 0) p.Total = true → le (fin 0) p.value = true → le p.value p.Total = true →
      mul (getRate p) (fin 100) =
        mul (if le p.Total p.value = true then fin 1 else div p.value p.Total) (fin 100) ∧
      le (fin 0) (mul (getRate p) (fin 100)) = true ∧
      le (mul (getRate p) (fin 100)) (fin 100) = true ∧
      (p.value = p.Total → mul (getRate p) (fin 100) = fin 100)) := by
  refine ⟨rfl, ?_, percent_le p, fun clk h => percentages_render clk p h, ?_⟩
  · rcases getRate_le_one p with h | h
    · exact lt_of_isNaN_right _ _ h
    · exact lt_eq_false_of_le _ _ h
  · intro hT h0 hle
    have hgt : getTotal p = p.Total := by
      unfold getTotal
      rw [if_pos hT]
    have hrate : getRate p =
        if le p.Total p.value = true then fin 1 else div p.value p.Total := by
      unfold getRate
      simp only [hgt]
    refine ⟨by rw [hrate], (percent_bounds p h0).1, (percent_bounds p h0).2, ?_⟩
    intro hvt
    have hc : le (getTotal p) p.value = true := by
      rw [hgt, hvt]
      exact le_self _ (le_isNaN_right _ _ hle)
    rw [getRate_of_complete p hc, mul_one_hundred]

/-- Witness of C1 (amended) at `Total = 101`, `value = 3`: the percentage handed
over is `3344257149037497 / 2^50` (2.9702970297029703). -/
theorem C1_rate_clamped_witness :
    lt (fin 0) sample.Total = true ∧ le (fin 0) sample.value = true ∧
    le sample.value sample.Total = true ∧
    (render ⟨0, 0⟩ sample).fault = none ∧
    percentages (render ⟨0, 0⟩ sample).events =
      [Arg.float (fin (3344257149037497 / 2 ^ 50))] := by
  have hT : lt (fin 0) sample.Total = true := by
    show lt (fin 0) (fin 101) = true
    rw [lt_of_finite (fin 0) (fin 101) rfl rfl rfl rfl]
    simp [toRat]
  have h0 : le (fin 0) sample.value = true := le_zero_fin 3 (by norm_num)
  have hle : le sample.value sample.Total = true := by
    show le (fin 3) (fin 101) = true
    rw [le_of_finite (fin 3) (fin 101) rfl rfl rfl rfl]
    simp [toRat]
    norm_num
  have hnot : le sample.Total sample.value = false := by
    show le (fin 101) (fin 3) = false
    rw [le_of_finite (fin 101) (fin 3) rfl rfl rfl rfl]
    simp [toRat]
    norm_num
  have hf : (render ⟨0, 0⟩ sample).fault = none := by
    rw [render_of_nonneg _ _ (by rw [getLen_of_pos sample 40 rfl (by norm_num)]; norm_num) h0]
  have h := (C1_rate_clamped sample).2.2.2.1 ⟨0, 0⟩ hf
  have h2 := ((C1_rate_clamped sample).2.2.2.2 hT h0 hle).1
  rw [hnot] at h2
  have h3 : mul (getRate sample) (fin 100) = fin (3344257149037497 / 2 ^ 50) := by
    rw [h2]
    show mul (div (fin 3) (fin 101)) (fin 100) = _
    rw [div_3_101, mul_rate3_100]
  rw [h3] at h
  exact ⟨hT, h0, hle, hf, h⟩

/-- C2, at the failing input: on the zero tracker `SetValue(-5)` computes the
fill count `int(24 * (-5/100)) = -1`, so `strings.Repeat` panics on a negative
count and nothing is written. -/
theorem C2_negative_value_panics :
    fillCount { Process.zero with value := fin (-5) } = -1 ∧
    (SetValue (fin (-5)) ⟨0, 0⟩ Process.zero).fault = some Fault.negativeRepeatCount ∧
    (SetValue (fin (-5)) ⟨0, 0⟩ Process.zero).events = [] := by
  refine ⟨fillCount_neg5, ?_, ?_⟩
  · show (render ⟨0, 0⟩ { Process.zero with value := fin (-5) }).fault = _
    rw [render_eq, fillCount_neg5]; rfl
  · show (render ⟨0, 0⟩ { Process.zero with value := fin (-5) }).events = _
    rw [render_eq, fillCount_neg5]; rfl

/-- C3, the claim as stated fails: on the tracker with `Len = 2^63 - 1`,
`Done()` stores value 100, but `float64(n)` is `2^63`, the conversion of the
product to `int` gives `-2^63`, `strings.Repeat` panics and nothing is
rendered. -/
theorem C3_done_overflows_width :
    (Done ⟨0, 0⟩ widest).proc.value = fin 100 ∧
    fillCount (Done ⟨0, 0⟩ widest).proc = -2 ^ 63 ∧
    (Done ⟨0, 0⟩ widest).fault = some Fault.negativeRepeatCount ∧
    (Done ⟨0, 0⟩ widest).events = [] := by
  have hL : getLen { widest with value := getTotal widest } = 2 ^ 63 - 1 :=
    getLen_of_pos _ _ rfl (by norm_num)
  have hc : le (getTotal { widest with value := getTotal widest })
      ({ widest with value := getTotal widest } : Process).value = true :=
    getTotal_le_self widest
  have hrun : Done ⟨0, 0⟩ widest =
      ⟨onceDo ⟨0, 0⟩ { widest with value := getTotal widest }, [],
        some Fault.negativeRepeatCount⟩ := render_widest _ _ hL hc
  rw [hrun]
  refine ⟨?_, ?_, rfl, rfl⟩
  · rw [value_onceDo]
    exact getTotal_of_zero widest rfl
  · apply fillCount_widest
    · rw [getLen_onceDo]; exact hL
    · rw [getTotal_onceDo, value_onceDo]; exact hc

/-- C3, amended: in every state `Done()` stores value = effective total
(`Total` when positive, else 100), which makes the rate exactly 1; when the
effective width is below `2^53` its render does not panic and hands to the
formatter the percentage 100 (text `100.0`) and the same number as value and
as total. -/
theorem C3_done_renders_full (p : Process) (clk : Clock) :
    (Done clk p).proc.value = (if lt (fin 0) p.Total = true then p.Total else fin 100) ∧
    getRate (Done clk p).proc = fin 1 ∧
    (getLen p < 2 ^ 53 →
      (Done clk p).fault = none ∧
      percentages (Done clk p).events = [Arg.float (fin 100)] ∧
      formatFloat 1 (fin 100) = ['1', '0', '0', '.', '0'] ∧
      fractions (Done clk p).events =
        [(Arg.float (if lt (fin 0) p.Total = true then p.Total else fin 100),
          Arg.float (if lt (fin 0) p.Total = true then p.Total else fin 100))]) := by
  have hproc : (Done clk p).proc = onceDo clk { p with value := getTotal p } :=
    render_proc clk _
  have hc : le (getTotal { p with value := getTotal p })
      ({ p with value := getTotal p } : Process).value = true := getTotal_le_self p
  have hrate : getRate { p with value := getTotal p } = fin 1 := getRate_of_complete _ hc
  refine ⟨?_, ?_, fun hw => ?_⟩
  · rw [hproc, value_onceDo]; rfl
  · rw [hproc, getRate_onceDo]; exact hrate
  · rw [Done_eq clk p hw]
    refine ⟨rfl, ?_, formatFloat_100, ?_⟩
    · simp only [percentages_written, percentages_completion, hrate, mul_one_hundred]
    · simp only [fractions_written, fractions_completion]
      rfl

/-- Witness of C3 (amended) on the zero tracker: `Done()` hands over 100% and
100/100. -/
theorem C3_done_renders_full_witness :
    getLen Process.zero < 2 ^ 53 ∧
    (Done ⟨0, 0⟩ Process.zero).fault = none ∧
    percentages (Done ⟨0, 0⟩ Process.zero).events = [Arg.float (fin 100)] ∧
    fractions (Done ⟨0, 0⟩ Process.zero).events = [(Arg.float (fin 100), Arg.float (fin 100))] := by
  have hw : getLen Process.zero < 2 ^ 53 := by rw [getLen_of_zero _ rfl]; norm_num
  have h := (C3_done_renders_full Process.zero ⟨0, 0⟩).2.2 hw
  refine ⟨hw, h.1, h.2.1, ?_⟩
  have h4 := h.2.2.2
  have e : (if lt (fin 0) Process.zero.Total = true then Process.zero.Total else fin 100) =
      fin 100 := getTotal_of_zero Process.zero rfl
  rw [e] at h4
  exact h4

/-- C4: a render that reaches its write takes the effective total, width and
format from the raw fields as they are at that render (`Total` if positive else
100, `Len` if positive else 24, `Format` if non-empty else `%1.0f`); every
render of a tracker with value at least 0 and effective width below `2^53`
reaches its write; a render does not write an effective value back; right
after `SetTotal`, `SetLen` or `SetFormat` the render uses the effective value
of the new field, whatever the old one; and what any render writes, or that it
panics, depends on `Total`, `Len` and `Format` only through these effective
values. -/
theorem C4_effective_values_recomputed (p : Process) (clk : Clock) :
    ((render clk p).fault = none →
      rendersWith (render clk p) (if lt (fin 0) p.Total = true then p.Total else fin 100)
        (if p.Len > 0 then p.Len else 24) (if p.Format ≠ "" then p.Format else "%1.0f")) ∧
    ((if p.Len > 0 then p.Len else 24) < 2 ^ 53 → le (fin 0) p.value = true →
      (render clk p).fault = none) ∧
    ((render clk p).proc.Total = p.Total ∧ (render clk p).proc.Len = p.Len ∧
      (render clk p).proc.Format = p.Format ∧ (render clk p).proc.value = p.value) ∧
    ∀ (t : F64) (n : Int) (f : String) (clk2 : Clock),
      ((SetTotal t clk2 (render clk p).proc).fault = none →
        rendersWith (SetTotal t clk2 (render clk p).proc)
          (if lt (fin 0) t = true then t else fin 100)
          (if p.Len > 0 then p.Len else 24) (if p.Format ≠ "" then p.Format else "%1.0f")) ∧
      ((render clk2 (SetLen n (render clk p).proc).proc).fault = none →
        rendersWith (render clk2 (SetLen n (render clk p).proc).proc)
          (if lt (fin 0) p.Total = true then p.Total else fin 100) (if n > 0 then n else 24)
          (if p.Format ≠ "" then p.Format else "%1.0f")) ∧
      ((render clk2 (SetFormat f (render clk p).proc).proc).fault = none →
        rendersWith (render clk2 (SetFormat f (render clk p).proc).proc)
          (if lt (fin 0) p.Total = true then p.Total else fin 100)
          (if p.Len > 0 then p.Len else 24) (if f ≠ "" then f else "%1.0f")) ∧
      ((if lt (fin 0) t = true then t else fin 100) =
          (if lt (fin 0) p.Total = true then p.Total else fin 100) →
        (if n > 0 then n else 24) = (if p.Len > 0 then p.Len else 24) →
        (if f ≠ "" then f else "%1.0f") = (if p.Format ≠ "" then p.Format else "%1.0f") →
        (render clk { p with Total := t, Len := n, Format := f }).events =
          (render clk p).events ∧
        (render clk { p with Total := t, Len := n, Format := f }).fault =
          (render clk p).fault) := by
  have hproc : (render clk p).proc = onceDo clk p := render_proc clk p
  obtain ⟨hT, hL, hF, _⟩ := onceDo_fields clk p
  refine ⟨rendersWith_render clk p, fun hw h => ?_, ?_, ?_⟩
  · rw [render_of_nonneg clk p hw h]
  · rw [hproc]; exact ⟨hT, hL, hF, value_onceDo clk p⟩
  · intro t n f clk2
    refine ⟨?_, ?_, ?_, fun h1 h2 h3 =>
      render_congr clk p { p with Total := t, Len := n, Format := f } rfl rfl rfl rfl rfl rfl
        h1 h2 h3⟩
    · rw [hproc]
      intro h
      have := rendersWith_render clk2 { onceDo clk p with Total := t } h
      simpa [SetTotal, getTotal, getLen, getFormat, hL, hF] using this
    · rw [hproc]
      intro h
      have := rendersWith_render clk2 { onceDo clk p with Len := n } h
      simpa [SetLen, getTotal, getLen, getFormat, hT, hF] using this
    · rw [hproc]
      intro h
      have := rendersWith_render clk2 { onceDo clk p with Format := f } h
      simpa [SetFormat, getTotal, getLen, getFormat, hT, hL] using this

/-- Witness of C4 on the zero tracker, all of whose fields are invalid: the
render uses 100, 24 and `%1.0f`, and after `SetLen(40)` the next render has a
bar of 40 characters. -/
theorem C4_effective_values_recomputed_witness :
    (if Process.zero.Len > 0 then Process.zero.Len else 24) < 2 ^ 53 ∧
    le (fin 0) Process.zero.value = true ∧
    (render ⟨0, 0⟩ Process.zero).fault = none ∧
    rendersWith (render ⟨0, 0⟩ Process.zero) (fin 100) 24 "%1.0f" ∧
    (render ⟨5, 6⟩ (SetLen 40 (render ⟨0, 0⟩ Process.zero).proc).proc).fault = none ∧
    rendersWith (render ⟨5, 6⟩ (SetLen 40 (render ⟨0, 0⟩ Process.zero).proc).proc)
      (fin 100) 40 "%1.0f" := by
  have h := C4_effective_values_recomputed Process.zero ⟨0, 0⟩
  have hw : (if Process.zero.Len > 0 then Process.zero.Len else 24) < 2 ^ 53 := by
    norm_num [Process.zero]
  have hv : le (fin 0) Process.zero.value = true := le_zero_fin 0 (le_refl _)
  have h0 : (render ⟨0, 0⟩ Process.zero).fault = none := h.2.1 hw hv
  have h1 : (render ⟨5, 6⟩ (SetLen 40 (render ⟨0, 0⟩ Process.zero).proc).proc).fault = none := by
    apply (C4_effective_values_recomputed _ ⟨5, 6⟩).2.1
    · show (if (40 : Int) > 0 then (40 : Int) else 24) < 2 ^ 53
      norm_num
    · show le (fin 0) (render ⟨0, 0⟩ Process.zero).proc.value = true
      rw [h.2.2.1.2.2.2]
      exact hv
  refine ⟨hw, hv, h0, ?_, h1, ?_⟩
  · have := h.1 h0
    have e : (if lt (fin 0) Process.zero.Total = true then Process.zero.Total else fin 100) =
        fin 100 := getTotal_of_zero Process.zero rfl
    rw [e] at this
    simpa [Process.zero] using this
  · have := (h.2.2.2 (fin 0) 40 "" ⟨5, 6⟩).2.1 h1
    have e : (if lt (fin 0) Process.zero.Total = true then Process.zero.Total else fin 100) =
        fin 100 := getTotal_of_zero Process.zero rfl
    rw [e] at this
    simpa [Process.zero] using this

/-- C5, the claim as stated fails. On the tracker with `Len = 2^63 - 1` and
value 0, `SetValue(100)` panics and writes no bar. And with `Len = 100` and
the default total, `SetValue(29)` writes a bar of 28 characters `#`, the
truncated rounded product, where `⌊100 * (29 / 100)⌋` over the real numbers
is 29. -/
theorem C5_bar_fails :
    le (fin 0) (fin 100) = true ∧
    (SetValue (fin 100) ⟨0, 0⟩ widest).fault = some Fault.negativeRepeatCount ∧
    (SetValue (fin 100) ⟨0, 0⟩ widest).events = [] ∧
    showsBar (SetValue (fin 29) ⟨0, 0⟩ { Process.zero with Len := 100 }) 28 100 ∧
    ⌊((100 : Int) : ℚ) * (29 / 100)⌋ = 29 := by
  have hrun : SetValue (fin 100) ⟨0, 0⟩ widest =
      ⟨onceDo ⟨0, 0⟩ { widest with value := fin 100 }, [], some Fault.negativeRepeatCount⟩ := by
    apply render_widest
    · exact getLen_of_pos _ _ rfl (by norm_num)
    · rw [getTotal_of_zero _ rfl]
      exact le_self _ rfl
  have hfill : fillCount { Process.zero with Len := 100, value := fin 29 } = 28 :=
    fillCount_29_of_100 _ rfl rfl rfl
  have hL : getLen { Process.zero with Len := 100, value := fin 29 } = 100 :=
    getLen_of_pos _ 100 rfl (by norm_num)
  have hf : (render ⟨0, 0⟩ { Process.zero with Len := 100, value := fin 29 }).fault = none := by
    rw [render_of_nonneg _ _ (by rw [hL]; norm_num) (le_zero_fin 29 (by norm_num))]
  refine ⟨le_zero_fin 100 (by norm_num), ?_, ?_, ?_, ?_⟩
  · rw [hrun]
  · rw [hrun]
  · have := showsBar_of_no_fault ⟨0, 0⟩ { Process.zero with Len := 100, value := fin 29 } hf
    rw [hfill, hL] at this
    exact this
  · rw [Int.floor_eq_iff]
    norm_num

/-- C5, amended: for a tracker with value at least 0 and effective width
`width` (`Len` if positive, else 24) below `2^53`, the render writes the bar of
`filled` characters `#` followed by `width - filled` characters `.`, where
`filled` is the integer part of the rounded product of `width` and the rate,
with `0 ≤ filled ≤ width`, so the bar is `width` characters long; after
`SetLen(n)` the next render has the bar of the new width; with `Total = 101`,
`Len = 40` and `value = 3` the bar is one `#` and 39 `.`. -/
theorem C5_bar_shape (p : Process) (clk : Clock)
    (hw : (if p.Len > 0 then p.Len else 24) < 2 ^ 53) (h : le (fin 0) p.value = true) :
    (render clk p).fault = none ∧
    showsBar (render clk p)
      ⌊(mul (ofInt (if p.Len > 0 then p.Len else 24)) (getRate p)).toRat⌋
      (if p.Len > 0 then p.Len else 24) ∧
    0 ≤ ⌊(mul (ofInt (if p.Len > 0 then p.Len else 24)) (getRate p)).toRat⌋ ∧
    ⌊(mul (ofInt (if p.Len > 0 then p.Len else 24)) (getRate p)).toRat⌋ ≤
      (if p.Len > 0 then p.Len else 24) ∧
    (((List.replicate
          ⌊(mul (ofInt (if p.Len > 0 then p.Len else 24)) (getRate p)).toRat⌋.toNat '#' ++
        List.replicate ((if p.Len > 0 then p.Len else 24) -
          ⌊(mul (ofInt (if p.Len > 0 then p.Len else 24)) (getRate p)).toRat⌋).toNat
          '.').length : Int) = (if p.Len > 0 then p.Len else 24)) ∧
    (∀ (n : Int) (v : F64) (clk2 : Clock), (if n > 0 then n else 24) < 2 ^ 53 →
      le (fin 0) v = true →
      showsBar (SetValue v clk2 (SetLen n p).proc)
        ⌊(mul (ofInt (if n > 0 then n else 24)) (getRate { p with value := v })).toRat⌋
        (if n > 0 then n else 24)) ∧
    (SetValue (fin 3) ⟨0, 0⟩ (SetLen 40 { Process.zero with Total := fin 101 }).proc).events =
      [Event.fprintf osStdout
        "\r%s%5.1f%% [#.......................................] [%1.0f/%1.0f in %s]"
        [Arg.str "", Arg.float (fin (3344257149037497 / 2 ^ 50)), Arg.float (fin 3),
          Arg.float (fin 101), Arg.duration 0]] := by
  have key : ∀ (q : Process) (c : Clock), getLen q < 2 ^ 53 → le (fin 0) q.value = true →
      (render c q).fault = none ∧
      showsBar (render c q) ⌊(mul (ofInt (getLen q)) (getRate q)).toRat⌋ (getLen q) := by
    intro q c hq hv
    have hf : (render c q).fault = none := by rw [render_of_nonneg c q hq hv]
    have := showsBar_of_no_fault c q hf
    rw [fillCount_eq_floor q hq hv] at this
    exact ⟨hf, this⟩
  have hfloor := fillCount_eq_floor p hw h
  have h0 := fillCount_nonneg p hw h
  have hle := fillCount_le p hw
  rw [hfloor] at h0 hle
  refine ⟨(key p clk hw h).1, (key p clk hw h).2, h0, hle, ?_, ?_, ?_⟩
  · change _ ≤ getLen p at hle
    change 0 ≤ ⌊(mul (ofInt (getLen p)) (getRate p)).toRat⌋ at h0
    change ((List.replicate ⌊(mul (ofInt (getLen p)) (getRate p)).toRat⌋.toNat '#' ++
      List.replicate (getLen p - ⌊(mul (ofInt (getLen p)) (getRate p)).toRat⌋).toNat
        '.').length : Int) = getLen p
    simp only [List.length_append, List.length_replicate]
    omega
  · intro n v clk2 hn hv
    exact (key { p with Len := n, value := v } clk2 hn hv).2
  · show (render ⟨0, 0⟩ sample).events = _
    have hL : getLen sample = 40 := getLen_of_pos sample 40 rfl (by norm_num)
    have hT : getTotal sample = fin 101 := getTotal_of_pos sample 101 rfl (by norm_num)
    have hc : le (getTotal sample) sample.value = false := by
      rw [hT]
      show le (fin 101) (fin 3) = false
      rw [le_of_finite (fin 101) (fin 3) rfl rfl rfl rfl]
      simp [toRat]
      norm_num
    have hcompl : completion sample = [] := by
      unfold completion
      rw [hc]
      rfl
    rw [render_of_nonneg ⟨0, 0⟩ sample (by rw [hL]; norm_num) (le_zero_fin 3 (by norm_num))]
    simp only [hcompl, written, fillCount_sample, getRate_3_of_101 sample rfl rfl, mul_rate3_100,
      hL, hT]
    simp [getWriter, getFormat, sample, onceDo, lineFormat, osStdout]

/-- Witness of C5 (amended) on the tracker with `Total = 101`, `Len = 40`,
`value = 3`. -/
theorem C5_bar_shape_witness :
    (if sample.Len > 0 then sample.Len else 24) < 2 ^ 53 ∧
    le (fin 0) sample.value = true ∧
    (render ⟨0, 0⟩ sample).fault = none ∧
    showsBar (render ⟨0, 0⟩ sample)
      ⌊(mul (ofInt (if sample.Len > 0 then sample.Len else 24)) (getRate sample)).toRat⌋
      (if sample.Len > 0 then sample.Len else 24) :=
  ⟨by norm_num [sample], le_zero_fin 3 (by norm_num),
    (C5_bar_shape sample ⟨0, 0⟩ (by norm_num [sample]) (le_zero_fin 3 (by norm_num))).1,
    (C5_bar_shape sample ⟨0, 0⟩ (by norm_num [sample]) (le_zero_fin 3 (by norm_num))).2.1⟩

/-- C6, the claim as stated fails: on the tracker with `Len = 2^63 - 1` and a
callback registered, `Done()` leaves value at least the effective total, yet
its render panics before the callback: the callback is invoked zero times. -/
theorem C6_no_callback_at_greatest_width :
    ({ widest with Cancel := some 7 } : Process).Cancel ≠ none ∧
    le (getTotal (Done ⟨0, 0⟩ { widest with Cancel := some 7 }).proc)
      (Done ⟨0, 0⟩ { widest with Cancel := some 7 }).proc.value = true ∧
    (Done ⟨0, 0⟩ { widest with Cancel := some 7 }).fault = some Fault.negativeRepeatCount ∧
    callCount (Done ⟨0, 0⟩ { widest with Cancel := some 7 }).events = 0 := by
  rw [Done_widest ⟨0, 0⟩ _ (getLen_of_pos _ _ rfl (by norm_num))]
  refine ⟨by simp, ?_, rfl, rfl⟩
  rw [getTotal_onceDo, value_onceDo]
  exact getTotal_le_self { widest with Cancel := some 7 }

/-- C6, amended: a render that reaches its write invokes the callback once when
`Cancel` is registered and value is at least the effective total at that
render, and not at all otherwise; a render with value below the effective
total invokes it zero times; with an effective width below `2^53` a render
with value at least the effective total reaches its write, so a sequence of
rendering calls each of which ends with value at least the effective total
invokes a registered callback once per call, and `Done()` called k times
invokes it k times. -/
theorem C6_callback_every_complete_render (p : Process) (calls : List (Call × Clock)) :
    (∀ clk, (render clk p).fault = none →
      callCount (render clk p).events =
        if p.Cancel ≠ none ∧
          le (if lt (fin 0) p.Total = true then p.Total else fin 100) p.value = true
        then 1 else 0) ∧
    (∀ clk, le (if lt (fin 0) p.Total = true then p.Total else fin 100) p.value = false →
      callCount (render clk p).events = 0) ∧
    ((if p.Len > 0 then p.Len else 24) < 2 ^ 53 →
      (∀ clk, le (if lt (fin 0) p.Total = true then p.Total else fin 100) p.value = true →
        (render clk p).fault = none ∧
        callCount (render clk p).events = if p.Cancel ≠ none then 1 else 0) ∧
      (p.Cancel ≠ none → (∀ c ∈ calls, c.1.renders = true) → completeAfterEach calls p →
        (runCalls calls p).fault = none ∧
          callCount (runCalls calls p).events = calls.length) ∧
      (p.Cancel ≠ none → ∀ clks : List Clock,
        (runCalls (clks.map (fun clk => (Call.done, clk))) p).fault = none ∧
        callCount (runCalls (clks.map (fun clk => (Call.done, clk))) p).events =
          clks.length)) := by
  refine ⟨fun clk h => callCount_render_of_no_fault clk p h,
    fun clk h => callCount_render_incomplete clk p h, fun hw => ⟨?_, ?_, ?_⟩⟩
  · intro clk hc
    have hf := render_fault_of_complete clk p hw hc
    refine ⟨hf, ?_⟩
    rw [callCount_render_of_no_fault clk p hf]
    have hc2 : le (getTotal p) p.value = true := hc
    simp [hc2]
  · exact runCalls_complete calls p hw
  · intro hC clks
    have h := runCalls_complete (clks.map (fun clk => (Call.done, clk))) p hw hC
      (by
        intro c hc
        obtain ⟨clk, _, rfl⟩ := List.mem_map.mp hc
        rfl)
      (completeAfterEach_done clks p)
    simpa using h

/-- Witness of C6 (amended): with a callback registered on the zero tracker,
`Done()`, `SetValue(200)`, `Done()` invoke it three times. -/
theorem C6_callback_every_complete_render_witness :
    (if ({ Process.zero with Cancel := some 7 } : Process).Len > 0
      then ({ Process.zero with Cancel := some 7 } : Process).Len else 24) < 2 ^ 53 ∧
    ({ Process.zero with Cancel := some 7 } : Process).Cancel ≠ none ∧
    (∀ c ∈ [(Call.done, (⟨1, 2⟩ : Clock)), (Call.setValue (fin 200), ⟨3, 4⟩),
      (Call.done, ⟨5, 6⟩)], c.1.renders = true) ∧
    completeAfterEach
      [(Call.done, ⟨1, 2⟩), (Call.setValue (fin 200), ⟨3, 4⟩), (Call.done, ⟨5, 6⟩)]
      { Process.zero with Cancel := some 7 } ∧
    callCount (runCalls
      [(Call.done, ⟨1, 2⟩), (Call.setValue (fin 200), ⟨3, 4⟩), (Call.done, ⟨5, 6⟩)]
      { Process.zero with Cancel := some 7 }).events = 3 := by
  have hw : (if ({ Process.zero with Cancel := some 7 } : Process).Len > 0
      then ({ Process.zero with Cancel := some 7 } : Process).Len else 24) < 2 ^ 53 := by
    norm_num [Process.zero]
  have hC : ({ Process.zero with Cancel := some 7 } : Process).Cancel ≠ none := by simp
  have hr : ∀ c ∈ [(Call.done, (⟨1, 2⟩ : Clock)), (Call.setValue (fin 200), ⟨3, 4⟩),
      (Call.done, ⟨5, 6⟩)], c.1.renders = true := by
    intro c hc
    simp only [List.mem_cons, List.mem_singleton, List.not_mem_nil, or_false] at hc
    rcases hc with rfl | rfl | rfl <;> rfl
  have hcomp : completeAfterEach
      [(Call.done, ⟨1, 2⟩), (Call.setValue (fin 200), ⟨3, 4⟩), (Call.done, ⟨5, 6⟩)]
      { Process.zero with Cancel := some 7 } := by
    simp only [completeAfterEach, Call.exec, Done, SetValue, setValue, render_proc,
      value_onceDo, getTotal_onceDo]
    refine ⟨getTotal_le_self _, ?_, getTotal_le_self _, trivial⟩
    rw [getTotal_of_zero _ (by rw [(onceDo_fields _ _).1]; rfl)]
    rw [le_of_finite (fin 100) (fin 200) rfl rfl rfl rfl]
    simp [toRat]
    norm_num
  exact ⟨hw, hC, hr, hcomp,
    (((C6_callback_every_complete_render { Process.zero with Cancel := some 7 }
      [(Call.done, ⟨1, 2⟩), (Call.setValue (fin 200), ⟨3, 4⟩), (Call.done, ⟨5, 6⟩)]).2.2
        hw).2.1 hC hr hcomp).2⟩

/-- C7, the claim as stated fails. On the tracker with `Total = 1`,
`Len = 2^63 - 1` and value 0 the first `Increment()` reaches rate 1 and
panics: nothing is rendered. And counting stops at `2^53`: in the state the
zero tracker has after `2^53` calls, value `2^53`, one more `Increment()`
leaves value at `2^53`, because `2^53 + 1` is no `float64` and the sum is
rounded back. -/
theorem C7_increment_fails :
    ({ widest with Total := fin 1 } : Process).value = fin 0 ∧
    (runCalls [(Call.increment, ⟨0, 0⟩)] { widest with Total := fin 1 }).fault =
      some Fault.negativeRepeatCount ∧
    writes (runCalls [(Call.increment, ⟨0, 0⟩)] { widest with Total := fin 1 }).events = [] ∧
    (runCalls [(Call.increment, ⟨0, 0⟩)]
      ⟨fin 0, fin (2 ^ 53), 0, "", none, "", none, 0, true⟩).fault = none ∧
    (runCalls [(Call.increment, ⟨0, 0⟩)]
      ⟨fin 0, fin (2 ^ 53), 0, "", none, "", none, 0, true⟩).proc.value = fin (2 ^ 53) ∧
    fin (2 ^ 53) ≠ fin (2 ^ 53 + 1) := by
  have hadd : add (fin 0) (fin 1) = fin 1 := by
    have := add_intCast_one 0 (by norm_num) (by norm_num)
    simpa using this
  have hrun : Increment ⟨0, 0⟩ { widest with Total := fin 1 } =
      ⟨onceDo ⟨0, 0⟩ { widest with Total := fin 1, value := fin 1 }, [],
        some Fault.negativeRepeatCount⟩ := by
    show render ⟨0, 0⟩ { widest with Total := fin 1, value := add (fin 0) (fin 1) } = _
    rw [hadd]
    apply render_widest
    · exact getLen_of_pos _ _ rfl (by norm_num)
    · rw [getTotal_of_pos _ 1 rfl (by norm_num)]
      exact le_self _ rfl
  have hrun2 : Increment ⟨0, 0⟩ ⟨fin 0, fin (2 ^ 53), 0, "", none, "", none, 0, true⟩ =
      render ⟨0, 0⟩ ⟨fin 0, fin (2 ^ 53), 0, "", none, "", none, 0, true⟩ := by
    show render ⟨0, 0⟩ ⟨fin 0, add (fin (2 ^ 53)) (fin 1), 0, "", none, "", none, 0, true⟩ = _
    rw [add_two_pow_53_one]
  have hf2 : (render ⟨0, 0⟩ ⟨fin 0, fin (2 ^ 53), 0, "", none, "", none, 0, true⟩).fault =
      none := by
    rw [render_of_nonneg _ _ (by rw [getLen_of_zero _ rfl]; norm_num)
      (le_zero_fin (2 ^ 53) (by norm_num))]
  refine ⟨rfl, ?_, ?_, ?_, ?_, ?_⟩
  · rw [runCalls_single_fault]
    show (Increment ⟨0, 0⟩ _).fault = _
    rw [hrun]
  · rw [runCalls_single_events]
    show writes (Increment ⟨0, 0⟩ _).events = _
    rw [hrun]
    rfl
  · rw [runCalls_single_fault]
    show (Increment ⟨0, 0⟩ _).fault = _
    rw [hrun2]
    exact hf2
  · rw [runCalls_single_proc]
    show (Increment ⟨0, 0⟩ _).proc.value = _
    rw [hrun2, render_proc, value_onceDo]
  · intro h
    have := congrArg toRat h
    simp only [toRat_fin] at this
    norm_num at this

/-- C7, amended: `Increment()` called N times, `N ≤ 2^53`, on a tracker whose
value is 0 and whose effective width is below `2^53` does not panic, makes
exactly N writes whose value operands are 1, 2, ..., N in that order, leaves
value = N, and leaves `Total`, `Len`, `Format` and `Prefix` as they were. -/
theorem C7_increment_counts (p : Process) (clks : List Clock) (h : hasValue p.value 0)
    (hw : (if p.Len > 0 then p.Len else 24) < 2 ^ 53) (hN : clks.length ≤ 2 ^ 53) :
    (runCalls (clks.map (fun clk => (Call.increment, clk))) p).fault = none ∧
    (writes (runCalls (clks.map (fun clk => (Call.increment, clk))) p).events).length =
      clks.length ∧
    (fractions (runCalls (clks.map (fun clk => (Call.increment, clk))) p).events).map Prod.fst =
      (List.range clks.length).map (fun i : Nat => Arg.float (fin ((i : ℚ) + 1))) ∧
    hasValue (runCalls (clks.map (fun clk => (Call.increment, clk))) p).proc.value
      clks.length ∧
    (0 < clks.length →
      (runCalls (clks.map (fun clk => (Call.increment, clk))) p).proc.value =
        fin clks.length) ∧
    (runCalls (clks.map (fun clk => (Call.increment, clk))) p).proc.Total = p.Total ∧
    (runCalls (clks.map (fun clk => (Call.increment, clk))) p).proc.Len = p.Len ∧
    (runCalls (clks.map (fun clk => (Call.increment, clk))) p).proc.Format = p.Format ∧
    (runCalls (clks.map (fun clk => (Call.increment, clk))) p).proc.Prefix = p.Prefix := by
  obtain ⟨h1, h2, h3, h4, h5, h6, h7, h8⟩ := runCalls_increment clks p 0 (by simpa using h) hw
    (by omega)
  have h4b : hasValue (runCalls (clks.map (fun clk => (Call.increment, clk))) p).proc.value
      clks.length := by simpa using h4
  refine ⟨h1, h3, ?_, h4b, ?_, h5, h6, h7, h8⟩
  · simpa using h2
  · intro hpos
    exact eq_fin_of_hasValue _ _ (by exact_mod_cast (Nat.pos_iff_ne_zero.mp hpos)) h4b

/-- Witness of C7 (amended): three calls of `Increment()` on the zero tracker
show 1, 2, 3 and leave value 3. -/
theorem C7_increment_counts_witness :
    hasValue Process.zero.value 0 ∧
    (if Process.zero.Len > 0 then Process.zero.Len else 24) < 2 ^ 53 ∧
    ([⟨1, 1⟩, ⟨2, 2⟩, ⟨3, 3⟩] : List Clock).length ≤ 2 ^ 53 ∧
    (fractions (runCalls ([⟨1, 1⟩, ⟨2, 2⟩, ⟨3, 3⟩].map (fun clk => (Call.increment, clk)))
      Process.zero).events).map Prod.fst =
        [Arg.float (fin 1), Arg.float (fin 2), Arg.float (fin 3)] ∧
    (runCalls ([⟨1, 1⟩, ⟨2, 2⟩, ⟨3, 3⟩].map (fun clk => (Call.increment, clk)))
      Process.zero).proc.value = fin 3 := by
  have hw : (if Process.zero.Len > 0 then Process.zero.Len else 24) < 2 ^ 53 := by
    norm_num [Process.zero]
  have hN : ([⟨1, 1⟩, ⟨2, 2⟩, ⟨3, 3⟩] : List Clock).length ≤ 2 ^ 53 := by
    simp
  have h := C7_increment_counts Process.zero [⟨1, 1⟩, ⟨2, 2⟩, ⟨3, 3⟩] (hasValue_fin 0) hw hN
  refine ⟨hasValue_fin 0, hw, hN, ?_, ?_⟩
  · rw [h.2.2.1]
    norm_num [List.range_succ]
  · rw [h.2.2.2.2.1 (by simp)]
    norm_num

/-- C8, at the failing input: on the zero tracker `SetValue(-1)` renders (fill
count 0) and leaves value = -1; the following `SetTotal(10)` stores `Total = 10`
but computes the fill count `int(24 * (-1/10)) = -2`, panics in
`strings.Repeat` and writes no line. -/
theorem C8_setTotal_negative_value_panics :
    (SetValue (fin (-1)) ⟨0, 0⟩ Process.zero).fault = none ∧
    (SetValue (fin (-1)) ⟨0, 0⟩ Process.zero).proc.value = fin (-1) ∧
    (SetTotal (fin 10) ⟨1, 1⟩ (SetValue (fin (-1)) ⟨0, 0⟩ Process.zero).proc).proc.Total =
      fin 10 ∧
    (SetTotal (fin 10) ⟨1, 1⟩ (SetValue (fin (-1)) ⟨0, 0⟩ Process.zero).proc).fault =
      some Fault.negativeRepeatCount ∧
    (SetTotal (fin 10) ⟨1, 1⟩ (SetValue (fin (-1)) ⟨0, 0⟩ Process.zero).proc).events = [] := by
  have hfill1 : fillCount { Process.zero with value := fin (-1) } = 0 := fillCount_neg1 false 0
  have hrun1 : SetValue (fin (-1)) ⟨0, 0⟩ Process.zero =
      ⟨onceDo ⟨0, 0⟩ { Process.zero with value := fin (-1) },
        written ⟨0, 0⟩ (onceDo ⟨0, 0⟩ { Process.zero with value := fin (-1) }).startTime
          { Process.zero with value := fin (-1) } ::
          completion { Process.zero with value := fin (-1) },
        none⟩ := by
    show render ⟨0, 0⟩ { Process.zero with value := fin (-1) } = _
    rw [render_eq, hfill1, if_pos ⟨le_refl _, le_of_lt (getLen_pos _)⟩]
  have hfill2 : fillCount
      { onceDo ⟨0, 0⟩ { Process.zero with value := fin (-1) } with Total := fin 10 } = -2 :=
    fillCount_neg1_of_10 _ rfl (value_onceDo _ _) (onceDo_fields _ _).2.1
  rw [hrun1]
  refine ⟨rfl, value_onceDo _ _, ?_, ?_, ?_⟩
  · show (render ⟨1, 1⟩
      { onceDo ⟨0, 0⟩ { Process.zero with value := fin (-1) } with Total := fin 10 }).proc.Total
        = fin 10
    rw [render_proc]
    exact (onceDo_fields _ _).1
  · show (render ⟨1, 1⟩
      { onceDo ⟨0, 0⟩ { Process.zero with value := fin (-1) } with Total := fin 10 }).fault = _
    rw [render_eq, hfill2]; rfl
  · show (render ⟨1, 1⟩
      { onceDo ⟨0, 0⟩ { Process.zero with value := fin (-1) } with Total := fin 10 }).events = _
    rw [render_eq, hfill2]; rfl

/-- C9: each of `SetLen`, `SetPrefix`, `SetFormat` and `SetWriter` replaces its
own field and no other (value and `Total` included), writes nothing, invokes no
callback and does not panic; the next rendering call (`SetValue`, `SetTotal`,
`Increment` or `Done`) that reaches its write uses the new field, and `Done`
reaches it whenever the effective width then in force is below `2^53`. -/
theorem C9_setters_only_store (p : Process) (n : Int) (s f : String) (w : Option Writer)
    (c : Call) (clk : Clock) (hc : c.renders = true) :
    ((SetLen n p).proc = { p with Len := n } ∧ (SetLen n p).proc.value = p.value ∧
      (SetLen n p).proc.Total = p.Total ∧
      (SetLen n p).events = [] ∧ callCount (SetLen n p).events = 0 ∧ (SetLen n p).fault = none ∧
      ((c.exec clk (SetLen n p).proc).fault = none →
        writesWith (c.exec clk (SetLen n p).proc) (getWriter p) p.Prefix
          (if n > 0 then n else 24) (getFormat p)) ∧
      ((if n > 0 then n else 24) < 2 ^ 53 → (Done clk (SetLen n p).proc).fault = none)) ∧
    ((SetPrefix s p).proc = { p with Prefix := s } ∧ (SetPrefix s p).proc.value = p.value ∧
      (SetPrefix s p).proc.Total = p.Total ∧
      (SetPrefix s p).events = [] ∧ callCount (SetPrefix s p).events = 0 ∧
      (SetPrefix s p).fault = none ∧
      ((c.exec clk (SetPrefix s p).proc).fault = none →
        writesWith (c.exec clk (SetPrefix s p).proc) (getWriter p) s (getLen p) (getFormat p)) ∧
      (getLen p < 2 ^ 53 → (Done clk (SetPrefix s p).proc).fault = none)) ∧
    ((SetFormat f p).proc = { p with Format := f } ∧ (SetFormat f p).proc.value = p.value ∧
      (SetFormat f p).proc.Total = p.Total ∧
      (SetFormat f p).events = [] ∧ callCount (SetFormat f p).events = 0 ∧
      (SetFormat f p).fault = none ∧
      ((c.exec clk (SetFormat f p).proc).fault = none →
        writesWith (c.exec clk (SetFormat f p).proc) (getWriter p) p.Prefix (getLen p)
          (if f ≠ "" then f else "%1.0f")) ∧
      (getLen p < 2 ^ 53 → (Done clk (SetFormat f p).proc).fault = none)) ∧
    ((SetWriter w p).proc = { p with W := w } ∧ (SetWriter w p).proc.value = p.value ∧
      (SetWriter w p).proc.Total = p.Total ∧
      (SetWriter w p).events = [] ∧ callCount (SetWriter w p).events = 0 ∧
      (SetWriter w p).fault = none ∧
      ((c.exec clk (SetWriter w p).proc).fault = none →
        writesWith (c.exec clk (SetWriter w p).proc) (w.getD osStdout) p.Prefix (getLen p)
          (getFormat p)) ∧
      (getLen p < 2 ^ 53 → (Done clk (SetWriter w p).proc).fault = none)) := by
  refine ⟨⟨rfl, rfl, rfl, rfl, rfl, rfl, fun h => ?_, fun hw => Done_fault _ _ hw⟩,
    ⟨rfl, rfl, rfl, rfl, rfl, rfl, fun h => ?_, fun hw => Done_fault _ _ hw⟩,
    ⟨rfl, rfl, rfl, rfl, rfl, rfl, fun h => ?_, fun hw => Done_fault _ _ hw⟩,
    ⟨rfl, rfl, rfl, rfl, rfl, rfl, fun h => ?_, fun hw => Done_fault _ _ hw⟩⟩
  · exact writesWith_exec c clk _ hc h
  · exact writesWith_exec c clk _ hc h
  · exact writesWith_exec c clk _ hc h
  · have := writesWith_exec c clk _ hc h
    cases w <;> exact this

/-- Witness of C9: after `SetPrefix("foo")` on the zero tracker, `Increment()`
writes with the prefix `foo`, and after `SetLen(40)`, `Done()` writes a bar of
40 characters. -/
theorem C9_setters_only_store_witness :
    Call.increment.renders = true ∧
    (Call.increment.exec ⟨1, 2⟩ (SetPrefix "foo" Process.zero).proc).fault = none ∧
    writesWith (Call.increment.exec ⟨1, 2⟩ (SetPrefix "foo" Process.zero).proc)
      osStdout "foo" 24 "%1.0f" ∧
    Call.done.renders = true ∧
    (Call.done.exec ⟨1, 2⟩ (SetLen 40 Process.zero).proc).fault = none ∧
    writesWith (Call.done.exec ⟨1, 2⟩ (SetLen 40 Process.zero).proc) osStdout "" 40 "%1.0f" := by
  have hadd : add (fin 0) (fin 1) = fin 1 := by
    have := add_intCast_one 0 (by norm_num) (by norm_num)
    simpa using this
  have hf : (Call.increment.exec ⟨1, 2⟩ (SetPrefix "foo" Process.zero).proc).fault = none := by
    show (render ⟨1, 2⟩ { Process.zero with Prefix := "foo", value := add (fin 0) (fin 1) }).fault
      = none
    rw [hadd, render_of_nonneg _ _ (by rw [getLen_of_zero _ rfl]; norm_num)
      (le_zero_fin 1 (by norm_num))]
  have hd : (Call.done.exec ⟨1, 2⟩ (SetLen 40 Process.zero).proc).fault = none :=
    (C9_setters_only_store Process.zero 40 "" "" none Call.done ⟨1, 2⟩ rfl).1.2.2.2.2.2.2.2
      (by norm_num)
  have h1 := (C9_setters_only_store Process.zero 0 "foo" "" none Call.increment ⟨1, 2⟩
    rfl).2.1.2.2.2.2.2.2.1 hf
  have h2 := (C9_setters_only_store Process.zero 40 "" "" none Call.done ⟨1, 2⟩
    rfl).1.2.2.2.2.2.2.1 hd
  exact ⟨rfl, hf, h1, rfl, hd, h2⟩

/-- C10: the start time is set once. A render of a tracker that has not
rendered stores the clock reading taken at that render; a render of a tracker
that has rendered leaves the start time as it is; `SetLen`, `SetPrefix`,
`SetFormat` and `SetWriter` change neither the start time nor the once flag. So
after any sequence of calls on a fresh tracker the start time is the reading of
the first rendering call of the sequence, or the initial one when there is
none. -/
theorem C10_startTime_set_once (p : Process) (calls : List (Call × Clock)) (clk : Clock) :
    (p.once = false →
      (render clk p).proc.startTime = clk.onceNow ∧ (render clk p).proc.once = true) ∧
    (p.once = true →
      (render clk p).proc.startTime = p.startTime ∧ (render clk p).proc.once = true) ∧
    (∀ (n : Int) (s f : String) (w : Option Writer),
      ((SetLen n p).proc.startTime = p.startTime ∧ (SetLen n p).proc.once = p.once) ∧
      ((SetPrefix s p).proc.startTime = p.startTime ∧ (SetPrefix s p).proc.once = p.once) ∧
      ((SetFormat f p).proc.startTime = p.startTime ∧ (SetFormat f p).proc.once = p.once) ∧
      ((SetWriter w p).proc.startTime = p.startTime ∧ (SetWriter w p).proc.once = p.once)) ∧
    (p.once = false →
      (runCalls calls p).proc.startTime =
        match firstRender calls with
        | some first => first.onceNow
        | none => p.startTime) ∧
    (p.once = true → (runCalls calls p).proc.startTime = p.startTime) := by
  refine ⟨fun h => ?_, fun h => ?_, fun n s f w => ⟨⟨rfl, rfl⟩, ⟨rfl, rfl⟩, ⟨rfl, rfl⟩, ⟨rfl, rfl⟩⟩,
    runCalls_fresh calls p, fun h => (runCalls_started calls p h).2⟩
  · rw [render_proc]; simp [onceDo, h]
  · rw [render_proc]; simp [onceDo, h]

/-- Witness of C10: on the zero tracker the calls `SetLen(5)`, `Increment()`,
`SetPrefix("x")`, `Done()` leave the start time at the reading taken by
`Increment()`. -/
theorem C10_startTime_set_once_witness :
    Process.zero.once = false ∧
    (runCalls [(Call.setLen 5, ⟨1, 1⟩), (Call.increment, ⟨2, 3⟩), (Call.setPrefix "x", ⟨4, 4⟩),
      (Call.done, ⟨7, 8⟩)] Process.zero).proc.startTime = 2 :=
  ⟨rfl, (C10_startTime_set_once Process.zero
    [(Call.setLen 5, ⟨1, 1⟩), (Call.increment, ⟨2, 3⟩), (Call.setPrefix "x", ⟨4, 4⟩),
      (Call.done, ⟨7, 8⟩)] ⟨0, 0⟩).2.2.2.1 rfl⟩

/-- C11, the claim as stated fails: with `Total = 101` and the default format,
`SetValue(3)` at clock 0 writes the line with the percentage padded to five
characters (`%5.1f`), two spaces after the carriage return, which is not the
line of the claim, where the percentage follows the prefix directly. -/
theorem C11_percentage_is_padded :
    linesOf (SetValue (fin 3) ⟨0, 0⟩ { Process.zero with Total := fin 101 }).events =
      [some "\r  3.0% [........................] [3/101 in 0s]"] ∧
    claimedLine { Process.zero with Total := fin 101, value := fin 3 } 0 =
      some "\r3.0% [........................] [3/101 in 0s]" ∧
    linesOf (SetValue (fin 3) ⟨0, 0⟩ { Process.zero with Total := fin 101 }).events ≠
      [claimedLine { Process.zero with Total := fin 101, value := fin 3 } 0] := by
  have hV : goSprintf (getFormat { Process.zero with Total := fin 101, value := fin 3 })
      [Arg.float ({ Process.zero with Total := fin 101, value := fin 3 } : Process).value] =
        some "3" := by
    show goSprintf "%1.0f" [Arg.float (fin 3)] = _
    rw [goSprintf_default, formatFloat_int_3]
    rfl
  have hT : goSprintf (getFormat { Process.zero with Total := fin 101, value := fin 3 })
      [Arg.float (getTotal { Process.zero with Total := fin 101, value := fin 3 })] =
        some "101" := by
    rw [getTotal_of_pos _ 101 rfl (by norm_num)]
    show goSprintf "%1.0f" [Arg.float (fin 101)] = _
    rw [goSprintf_default, formatFloat_int_101]
    rfl
  have hclaimed : claimedLine { Process.zero with Total := fin 101, value := fin 3 } 0 =
      some "\r3.0% [........................] [3/101 in 0s]" := by
    have hr := getRate_3_of_101 { Process.zero with Total := fin 101, value := fin 3 } rfl rfl
    have hfill := fillCount_3_of_101 { Process.zero with Total := fin 101, value := fin 3 }
      rfl rfl rfl
    have hL := getLen_of_zero { Process.zero with Total := fin 101, value := fin 3 } rfl
    unfold claimedLine
    rw [hV, hT]
    simp only [hr, mul_rate3_100, formatFloat_rate3, hfill, hL]
    decide
  refine ⟨linesOf_setValue_three, hclaimed, ?_⟩
  rw [linesOf_setValue_three, hclaimed]
  decide

/-- C11, amended: a render that reaches its write calls `Fprintf` once, on the
effective writer, with the format string `\r%s%5.1f%% [`, the bar, `] [`, the
effective format, `/`, the effective format, ` in %s]`, and with the operands
prefix, `rate * 100`, value, effective total and elapsed duration. When the
effective format formats one float operand by a `%f` directive, as the default
format does, the text is exactly: carriage return, the prefix, the percentage
`rate * 100` to one decimal place padded on the left with spaces to five
characters, `% [`, the bar, `] [`, the value in the effective format, `/`, the
effective total in the same format, ` in `, the elapsed duration and `]`; with
`Total = 101` and the default format, `SetValue(3)` writes a line that
contains `3.0%` and `3/101`. -/
theorem C11_line_shape (p : Process) (clk : Clock) (hf : (render clk p).fault = none) :
    writes (render clk p).events =
      [(getWriter p,
        "\r%s%5.1f%% [" ++ ⟨List.replicate (fillCount p).toNat '#'⟩ ++
          ⟨List.replicate (getLen p - fillCount p).toNat '.'⟩ ++ "] [" ++ getFormat p ++ "/" ++
          getFormat p ++ " in %s]",
        [Arg.str p.Prefix, Arg.float (mul (getRate p) (fin 100)), Arg.float p.value,
          Arg.float (getTotal p),
          Arg.duration (clk.writeNow - (render clk p).proc.startTime)])] ∧
    (∀ showV showT : String,
      goSprintf (getFormat p) [Arg.float p.value] = some showV →
      goSprintf (getFormat p) [Arg.float (getTotal p)] = some showT →
      linesOf (render clk p).events =
        [some ("\r" ++ p.Prefix ++ ⟨padLeft 5 (formatFloat 1 (mul (getRate p) (fin 100)))⟩ ++
          "% [" ++ ⟨List.replicate (fillCount p).toNat '#'⟩ ++
          ⟨List.replicate (getLen p - fillCount p).toNat '.'⟩ ++ "] [" ++
          showV ++ "/" ++ showT ++ " in " ++
          durationString (clk.writeNow - (render clk p).proc.startTime) ++ "]")]) ∧
    (p.Format = "" →
      linesOf (render clk p).events =
        [some ("\r" ++ p.Prefix ++ ⟨padLeft 5 (formatFloat 1 (mul (getRate p) (fin 100)))⟩ ++
          "% [" ++ ⟨List.replicate (fillCount p).toNat '#'⟩ ++
          ⟨List.replicate (getLen p - fillCount p).toNat '.'⟩ ++ "] [" ++
          ⟨padLeft 1 (formatFloat 0 p.value)⟩ ++ "/" ++
          ⟨padLeft 1 (formatFloat 0 (getTotal p))⟩ ++ " in " ++
          durationString (clk.writeNow - (render clk p).proc.startTime) ++ "]")]) ∧
    (∃ line a b c d : String,
      linesOf (SetValue (fin 3) ⟨0, 0⟩ { Process.zero with Total := fin 101 }).events =
        [some line] ∧
      line = a ++ "3.0%" ++ b ∧ line = c ++ "3/101" ++ d) := by
  refine ⟨?_, fun showV showT hV hT => linesOf_render p clk showV showT hf hV hT, ?_, ?_⟩
  · rw [render_proc, render_of_no_fault clk p hf]
    simp only [written, writes, writes_completion, lineFormat]
  · intro hF
    have hfmt : getFormat p = "%1.0f" := by
      unfold getFormat
      rw [hF]
      rfl
    exact linesOf_render p clk _ _ hf (by rw [hfmt]; exact goSprintf_default _)
      (by rw [hfmt]; exact goSprintf_default _)
  · exact ⟨_, "\r  ", " [........................] [3/101 in 0s]",
      "\r  3.0% [........................] [", " in 0s]", linesOf_setValue_three,
      by decide, by decide⟩

/-- Witness of C11 (amended). With `Total = 2000` and `value = 1` the rounded
percentage operand is above 0.05 and is written as `0.1`; with `Total = 7`,
`value = 7` and format `%05.1f`, rendered 7 ns after the start, value and total
are written as `007.0`. -/
theorem C11_line_shape_witness :
    (render ⟨0, 0⟩ ⟨fin 2000, fin 1, 0, "", none, "", none, 0, false⟩).fault = none ∧
    linesOf (render ⟨0, 0⟩ ⟨fin 2000, fin 1, 0, "", none, "", none, 0, false⟩).events =
      [some "\r  0.1% [........................] [1/2000 in 0s]"] ∧
    (render ⟨0, 7⟩ ⟨fin 7, fin 7, 0, "%05.1f", none, "", none, 0, false⟩).fault = none ∧
    linesOf (render ⟨0, 7⟩ ⟨fin 7, fin 7, 0, "%05.1f", none, "", none, 0, false⟩).events =
      [some "\r100.0% [########################] [007.0/007.0 in 7ns]"] := by
  have hf1 : (render ⟨0, 0⟩ ⟨fin 2000, fin 1, 0, "", none, "", none, 0, false⟩).fault = none := by
    rw [render_of_nonneg _ _ (by rw [getLen_of_zero _ rfl]; norm_num)
      (le_zero_fin 1 (by norm_num))]
  have hw2 : getLen ⟨fin 7, fin 7, 0, "%05.1f", none, "", none, 0, false⟩ < 2 ^ 53 := by
    rw [getLen_of_zero _ rfl]; norm_num
  have hT2 : getTotal ⟨fin 7, fin 7, 0, "%05.1f", none, "", none, 0, false⟩ = fin 7 :=
    getTotal_of_pos _ 7 rfl (by norm_num)
  have hc2 : le (getTotal ⟨fin 7, fin 7, 0, "%05.1f", none, "", none, 0, false⟩)
      (⟨fin 7, fin 7, 0, "%05.1f", none, "", none, 0, false⟩ : Process).value = true := by
    rw [hT2]
    exact le_self _ rfl
  have hf2 : (render ⟨0, 7⟩ ⟨fin 7, fin 7, 0, "%05.1f", none, "", none, 0, false⟩).fault =
      none := render_fault_of_complete _ _ hw2 hc2
  have hV1 : goSprintf (getFormat ⟨fin 2000, fin 1, 0, "", none, "", none, 0, false⟩)
      [Arg.float (⟨fin 2000, fin 1, 0, "", none, "", none, 0, false⟩ : Process).value] =
        some "1" := by
    show goSprintf "%1.0f" [Arg.float (fin 1)] = _
    rw [goSprintf_default, formatFloat_int_1]
    rfl
  have hT1 : goSprintf (getFormat ⟨fin 2000, fin 1, 0, "", none, "", none, 0, false⟩)
      [Arg.float (getTotal ⟨fin 2000, fin 1, 0, "", none, "", none, 0, false⟩)] =
        some "2000" := by
    rw [getTotal_of_pos _ 2000 rfl (by norm_num)]
    show goSprintf "%1.0f" [Arg.float (fin 2000)] = _
    rw [goSprintf_default, formatFloat_int_2000]
    rfl
  have hV2 : goSprintf (getFormat ⟨fin 7, fin 7, 0, "%05.1f", none, "", none, 0, false⟩)
      [Arg.float (⟨fin 7, fin 7, 0, "%05.1f", none, "", none, 0, false⟩ : Process).value] =
        some "007.0" := by
    show goSprintf "%05.1f" [Arg.float (fin 7)] = _
    rw [goSprintf_zero_padded, formatFloat_7]
    rfl
  have hT2b : goSprintf (getFormat ⟨fin 7, fin 7, 0, "%05.1f", none, "", none, 0, false⟩)
      [Arg.float (getTotal ⟨fin 7, fin 7, 0, "%05.1f", none, "", none, 0, false⟩)] =
        some "007.0" := by
    rw [hT2]
    exact hV2
  have h1 := (C11_line_shape ⟨fin 2000, fin 1, 0, "", none, "", none, 0, false⟩ ⟨0, 0⟩ hf1).2.1
    "1" "2000" hV1 hT1
  have h2 := (C11_line_shape ⟨fin 7, fin 7, 0, "%05.1f", none, "", none, 0, false⟩ ⟨0, 7⟩
    hf2).2.1 "007.0" "007.0" hV2 hT2b
  refine ⟨hf1, ?_, hf2, ?_⟩
  · rw [h1, getRate_1_of_2000 _ rfl rfl, mul_rate2000_100, formatFloat_rate2000,
      fillCount_1_of_2000 _ rfl rfl rfl, getLen_of_zero _ rfl, render_proc]
    decide
  · rw [h2, getRate_of_complete _ hc2, mul_one_hundred, formatFloat_100,
      fillCount_of_complete _ hw2 hc2, getLen_of_zero _ rfl, render_proc]
    decide

/-- C12, the claim as stated fails on the operation modelled from the spec:
with `Total = 2^53` and value 0 a call renders without a panic and leaves the
stored total at `2^53`, because `2^53 + 1` is no `float64` and the sum is
rounded back: the total is not increased by 1. -/
theorem C12_total_not_increased :
    (runIncrementTotal [⟨0, 0⟩] { Process.zero with Total := fin (2 ^ 53) }).fault = none ∧
    (writes (runIncrementTotal [⟨0, 0⟩]
      { Process.zero with Total := fin (2 ^ 53) }).events).length = 1 ∧
    (runIncrementTotal [⟨0, 0⟩] { Process.zero with Total := fin (2 ^ 53) }).proc.Total =
      fin (2 ^ 53) ∧
    fin (2 ^ 53) ≠ fin (2 ^ 53 + 1) := by
  have hstep : IncrementTotal ⟨0, 0⟩ { Process.zero with Total := fin (2 ^ 53) } =
      render ⟨0, 0⟩ { Process.zero with Total := fin (2 ^ 53) } := by
    show render ⟨0, 0⟩ { Process.zero with Total := add (fin (2 ^ 53)) (fin 1) } = _
    rw [add_two_pow_53_one]
  have hf : (render ⟨0, 0⟩ { Process.zero with Total := fin (2 ^ 53) }).fault = none := by
    rw [render_of_nonneg _ _ (by rw [getLen_of_zero _ rfl]; norm_num)
      (le_zero_fin 0 (le_refl _))]
  have hrun : runIncrementTotal [⟨0, 0⟩] { Process.zero with Total := fin (2 ^ 53) } =
      ⟨(render ⟨0, 0⟩ { Process.zero with Total := fin (2 ^ 53) }).proc,
        (render ⟨0, 0⟩ { Process.zero with Total := fin (2 ^ 53) }).events ++ [], none⟩ := by
    rw [runIncrementTotal_cons, hstep, hf]
    rfl
  rw [hrun]
  refine ⟨rfl, ?_, ?_, ?_⟩
  · show (writes ((render ⟨0, 0⟩ { Process.zero with Total := fin (2 ^ 53) }).events ++ [])).length
      = 1
    rw [List.append_nil]
    exact writes_render _ _ hf
  · show (render ⟨0, 0⟩ { Process.zero with Total := fin (2 ^ 53) }).proc.Total = _
    rw [render_proc]
    exact (onceDo_fields _ _).1
  · intro h
    have := congrArg toRat h
    simp only [toRat_fin] at this
    norm_num at this

/-- C12, amended, on the operation modelled from the spec: for a tracker with
value at least 0, effective width below `2^53` and a stored total that is a
whole number `t` with `-2^53 ≤ t` and `t + N ≤ 2^53`, calling `IncrementTotal`
N times does not panic, writes once per call, increases the stored total by N
and leaves value unchanged; each write shows the unchanged value over the
effective total of the total stored so far; from `Total = 101` and `value = 0`
every write shows the percentage 0 and the fractions are 0/102, 0/103, .... -/
theorem C12_incrementTotal (p : Process) (clks : List Clock) (t : Int)
    (hT : hasValue p.Total t) (hlo : -2 ^ 53 ≤ t) (hhi : t + clks.length ≤ 2 ^ 53)
    (hv : le (fin 0) p.value = true) (hw : (if p.Len > 0 then p.Len else 24) < 2 ^ 53) :
    (runIncrementTotal clks p).fault = none ∧
    (writes (runIncrementTotal clks p).events).length = clks.length ∧
    hasValue (runIncrementTotal clks p).proc.Total ((t : ℚ) + clks.length) ∧
    (runIncrementTotal clks p).proc.value = p.value ∧
    fractions (runIncrementTotal clks p).events =
      (List.range clks.length).map (fun i : Nat =>
        (Arg.float p.value,
          Arg.float (if (0 : ℚ) < (t : ℚ) + (i : ℚ) + 1 then fin ((t : ℚ) + (i : ℚ) + 1)
            else fin 100))) ∧
    (t = 101 → p.value = fin 0 →
      percentages (runIncrementTotal clks p).events =
        List.replicate clks.length (Arg.float (fin 0)) ∧
      formatFloat 1 (fin 0) = ['0', '.', '0'] ∧
      fractions (runIncrementTotal clks p).events =
        (List.range clks.length).map (fun i : Nat =>
          (Arg.float (fin 0), Arg.float (fin (102 + (i : ℚ)))))) := by
  obtain ⟨h1, h2, h3, h4, h5, h6⟩ := runIncrementTotal_spec clks p t hT hlo hhi hv hw
  refine ⟨h1, h2, h3, h4, h5, fun ht h0 => ⟨h6 h0, ?_, ?_⟩⟩
  · simp [formatFloat, formatRat]
    decide
  · rw [h5, ht, h0]
    apply List.map_congr_left
    intro i _
    have hpos : (0 : ℚ) < ((101 : Int) : ℚ) + (i : ℚ) + 1 := by positivity
    rw [if_pos hpos]
    congr 3
    push_cast
    ring

/-- Witness of C12 (amended): two calls from `Total = 101`, `value = 0` show
0/102 and 0/103 and leave the total 103. -/
theorem C12_incrementTotal_witness :
    hasValue ({ Process.zero with Total := fin 101 } : Process).Total ((101 : Int) : ℚ) ∧
    (-2 ^ 53 : Int) ≤ 101 ∧
    (101 : Int) + ([⟨1, 1⟩, ⟨2, 2⟩] : List Clock).length ≤ 2 ^ 53 ∧
    le (fin 0) ({ Process.zero with Total := fin 101 } : Process).value = true ∧
    (if ({ Process.zero with Total := fin 101 } : Process).Len > 0
      then ({ Process.zero with Total := fin 101 } : Process).Len else 24) < 2 ^ 53 ∧
    fractions (runIncrementTotal [⟨1, 1⟩, ⟨2, 2⟩] { Process.zero with Total := fin 101 }).events =
      [(Arg.float (fin 0), Arg.float (fin 102)), (Arg.float (fin 0), Arg.float (fin 103))] ∧
    (runIncrementTotal [⟨1, 1⟩, ⟨2, 2⟩] { Process.zero with Total := fin 101 }).proc.Total =
      fin 103 := by
  have hT : hasValue ({ Process.zero with Total := fin 101 } : Process).Total
      ((101 : Int) : ℚ) := by
    have := hasValue_fin 101
    simpa using this
  have hlo : (-2 ^ 53 : Int) ≤ 101 := by norm_num
  have hhi : (101 : Int) + ([⟨1, 1⟩, ⟨2, 2⟩] : List Clock).length ≤ 2 ^ 53 := by
    simp
  have hv : le (fin 0) ({ Process.zero with Total := fin 101 } : Process).value = true :=
    le_zero_fin 0 (le_refl _)
  have hw : (if ({ Process.zero with Total := fin 101 } : Process).Len > 0
      then ({ Process.zero with Total := fin 101 } : Process).Len else 24) < 2 ^ 53 := by
    norm_num [Process.zero]
  have h := C12_incrementTotal { Process.zero with Total := fin 101 } [⟨1, 1⟩, ⟨2, 2⟩] 101
    hT hlo hhi hv hw
  refine ⟨hT, hlo, hhi, hv, hw, ?_, ?_⟩
  · rw [(h.2.2.2.2.2 rfl rfl).2.2]
    norm_num [List.range_succ]
  · have h3 := h.2.2.1
    have := eq_fin_of_hasValue _ _ (by norm_num) h3
    rw [this]
    norm_num

end Progress

namespace Progress.Exact

/-- C14: over exact arithmetic the fill count equals the effective width exactly
when value ≥ effective total, which is also exactly when the rate is 1 and
exactly the condition under which a registered callback is invoked; a tracker
with value below the effective total has a fill count below the width, so a
render of it shows at least one `.`, and a render of a complete tracker shows
the full bar. -/
theorem C14_full_bar_iff_complete (p : Process) (clk : Clock) :
    (fillCount p = (if p.Len > 0 then p.Len else 24) ↔
      p.value ≥ (if p.Total > 0 then p.Total else 100)) ∧
    (getRate p = 1 ↔ p.value ≥ (if p.Total > 0 then p.Total else 100)) ∧
    (p.Cancel ≠ none →
      (callCount (render clk p).events = 1 ↔
        p.value ≥ (if p.Total > 0 then p.Total else 100))) ∧
    (p.value < (if p.Total > 0 then p.Total else 100) →
      fillCount p < (if p.Len > 0 then p.Len else 24) ∧
      ((render clk p).fault = none →
        showsBar (render clk p) (fillCount p) (if p.Len > 0 then p.Len else 24))) ∧
    (p.value ≥ (if p.Total > 0 then p.Total else 100) →
      (render clk p).fault = none ∧
      showsBar (render clk p) (if p.Len > 0 then p.Len else 24)
        (if p.Len > 0 then p.Len else 24)) := by
  have hiff : fillCount p = getLen p ↔ p.value ≥ getTotal p := by
    constructor
    · intro h
      by_contra hn
      have := fillCount_lt_of_incomplete_exact p (not_le.mp hn)
      omega
    · exact fillCount_of_complete_exact p
  refine ⟨hiff, getRate_eq_one_iff_exact p, fun hC => ?_, fun h => ?_, fun h => ?_⟩
  · rw [callCount_render_exact]
    constructor
    · intro h1
      by_contra hn
      rw [if_neg (fun hh => hn hh.2)] at h1
      cases h1
    · intro h1
      exact if_pos ⟨hC, h1⟩
  · exact ⟨fillCount_lt_of_incomplete_exact p h, fun hf => showsBar_of_no_fault_exact clk p hf⟩
  · have hf := render_fault_of_complete_exact clk p h
    have hb := showsBar_of_no_fault_exact clk p hf
    rw [fillCount_of_complete_exact p h] at hb
    exact ⟨hf, hb⟩

/-- Witness of C14 on the tracker with `Total = 101`, `Len = 40`, `value = 3`:
the task is incomplete and the fill count is below 40. -/
theorem C14_full_bar_iff_complete_witness :
    sample.value < (if sample.Total > 0 then sample.Total else 100) ∧
    fillCount sample < 40 :=
  ⟨by norm_num [sample],
    ((C14_full_bar_iff_complete sample ⟨0, 0⟩).2.2.2.1 (by norm_num [sample])).1⟩

end Progress.Exact

namespace Progress
open F64

/-- C15, the claim as stated fails: on the tracker with `Len = 2^63 - 1` and
the default total the fill count is `2^62` for value 50 and `-2^63` for value
100, so the count drops as the value grows, and the render for value 100
panics and writes nothing. -/
theorem C15_fill_drops_at_greatest_width :
    le (fin 50) (fin 100) = true ∧
    fillCount { widest with value := fin 50 } = 2 ^ 62 ∧
    fillCount { widest with value := fin 100 } = -2 ^ 63 ∧
    ¬ fillCount { widest with value := fin 50 } ≤ fillCount { widest with value := fin 100 } ∧
    (SetValue (fin 100) ⟨0, 0⟩ widest).fault = some Fault.negativeRepeatCount ∧
    (SetValue (fin 100) ⟨0, 0⟩ widest).events = [] := by
  have h50 : fillCount { widest with value := fin 50 } = 2 ^ 62 :=
    fillCount_widest_half _ rfl rfl rfl
  have hc : le (getTotal { widest with value := fin 100 })
      ({ widest with value := fin 100 } : Process).value = true := by
    rw [getTotal_of_zero _ rfl]
    exact le_self _ rfl
  have hL : getLen { widest with value := fin 100 } = 2 ^ 63 - 1 :=
    getLen_of_pos _ _ rfl (by norm_num)
  have h100 : fillCount { widest with value := fin 100 } = -2 ^ 63 := fillCount_widest _ hL hc
  have hrun : SetValue (fin 100) ⟨0, 0⟩ widest =
      ⟨onceDo ⟨0, 0⟩ { widest with value := fin 100 }, [], some Fault.negativeRepeatCount⟩ :=
    render_widest _ _ hL hc
  refine ⟨?_, h50, h100, ?_, ?_, ?_⟩
  · rw [le_of_finite (fin 50) (fin 100) rfl rfl rfl rfl]
    simp [toRat]
    norm_num
  · rw [h50, h100]
    norm_num
  · rw [hrun]
  · rw [hrun]

/-- C15, amended: for fixed `Total` and `Len` with effective width below
`2^53` the fill count `int(width * rate)` is monotone non-decreasing in value:
for `v1 ≤ v2` the count for `v1` is at most the count for `v2`, and when the
render for `v1` reaches its write so does the render for `v2`, with at least
as many `#`. -/
theorem C15_fill_monotone (p : Process) (v1 v2 : F64) (clk1 clk2 : Clock)
    (hw : (if p.Len > 0 then p.Len else 24) < 2 ^ 53) (h : le v1 v2 = true) :
    fillCount { p with value := v1 } ≤ fillCount { p with value := v2 } ∧
    ((SetValue v1 clk1 p).fault = none →
      (SetValue v2 clk2 p).fault = none ∧
      showsBar (SetValue v1 clk1 p) (fillCount { p with value := v1 })
        (if p.Len > 0 then p.Len else 24) ∧
      showsBar (SetValue v2 clk2 p) (fillCount { p with value := v2 })
        (if p.Len > 0 then p.Len else 24) ∧
      (fillCount { p with value := v1 }).toNat ≤ (fillCount { p with value := v2 }).toNat) := by
  have hmono : fillCount { p with value := v1 } ≤ fillCount { p with value := v2 } :=
    fillCount_mono p v1 v2 hw h
  refine ⟨hmono, fun hf => ?_⟩
  have h1 : 0 ≤ fillCount { p with value := v1 } := (fill_of_no_fault clk1 _ hf).1
  have hf2 : (SetValue v2 clk2 p).fault = none := by
    show (render clk2 { p with value := v2 }).fault = none
    rw [render_of_fill clk2 { p with value := v2 } hw (le_trans h1 hmono)]
  exact ⟨hf2, showsBar_of_no_fault clk1 _ hf, showsBar_of_no_fault clk2 _ hf2,
    Int.toNat_le_toNat hmono⟩

/-- Witness of C15 (amended) with `Total = 101`, `Len = 40`: the fill count for
value 3 is at most the one for value 50, and both renders reach the write. -/
theorem C15_fill_monotone_witness :
    (if sample.Len > 0 then sample.Len else 24) < 2 ^ 53 ∧
    le (fin 3) (fin 50) = true ∧
    fillCount { sample with value := fin 3 } ≤ fillCount { sample with value := fin 50 } ∧
    (SetValue (fin 3) ⟨0, 0⟩ sample).fault = none ∧
    (SetValue (fin 50) ⟨1, 1⟩ sample).fault = none := by
  have hw : (if sample.Len > 0 then sample.Len else 24) < 2 ^ 53 := by norm_num [sample]
  have hle : le (fin 3) (fin 50) = true := by
    rw [le_of_finite (fin 3) (fin 50) rfl rfl rfl rfl]
    simp [toRat]
    norm_num
  have hf : (SetValue (fin 3) ⟨0, 0⟩ sample).fault = none := by
    have := render_of_nonneg ⟨0, 0⟩ { sample with value := fin 3 } hw
      (le_zero_fin 3 (by norm_num))
    show (render ⟨0, 0⟩ { sample with value := fin 3 }).fault = none
    rw [this]
  exact ⟨hw, hle, (C15_fill_monotone sample (fin 3) (fin 50) ⟨0, 0⟩ ⟨1, 1⟩ hw hle).1, hf,
    ((C15_fill_monotone sample (fin 3) (fin 50) ⟨0, 0⟩ ⟨1, 1⟩ hw hle).2 hf).1⟩

/-- C16, the claim as stated fails: on the tracker with `Len = 2^63 - 1` both
calls of `Done()` panic and neither writes anything, so no percentage, bar or
fraction is rendered. -/
theorem C16_done_renders_nothing_at_greatest_width :
    (Done ⟨0, 0⟩ widest).fault = some Fault.negativeRepeatCount ∧
    writes (Done ⟨0, 0⟩ widest).events = [] ∧
    (Done ⟨1, 1⟩ (Done ⟨0, 0⟩ widest).proc).fault = some Fault.negativeRepeatCount ∧
    writes (Done ⟨1, 1⟩ (Done ⟨0, 0⟩ widest).proc).events = [] := by
  have h1 := Done_widest ⟨0, 0⟩ widest (getLen_of_pos _ _ rfl (by norm_num))
  have hL2 : getLen (Done ⟨0, 0⟩ widest).proc = 2 ^ 63 - 1 := by
    rw [h1, getLen_onceDo]
    exact getLen_of_pos _ _ rfl (by norm_num)
  have h2 := Done_widest ⟨1, 1⟩ (Done ⟨0, 0⟩ widest).proc hL2
  rw [h2, h1]
  exact ⟨rfl, rfl, rfl, rfl⟩

/-- C16, amended: in every state a second `Done()` leaves the tracker exactly
as the first left it (value, `Total`, `Len`, `Format`, `Prefix` and all other
fields); when the effective width is below `2^53` neither call panics, and
both make one write with the same percentage, the same value/total operands
and the same format string, which carries the bar. -/
theorem C16_done_idempotent (p : Process) (clk1 clk2 : Clock) :
    (Done clk2 (Done clk1 p).proc).proc = (Done clk1 p).proc ∧
    ((Done clk2 (Done clk1 p).proc).proc.value = (Done clk1 p).proc.value ∧
      (Done clk2 (Done clk1 p).proc).proc.Total = (Done clk1 p).proc.Total ∧
      (Done clk2 (Done clk1 p).proc).proc.Len = (Done clk1 p).proc.Len ∧
      (Done clk2 (Done clk1 p).proc).proc.Format = (Done clk1 p).proc.Format ∧
      (Done clk2 (Done clk1 p).proc).proc.Prefix = (Done clk1 p).proc.Prefix) ∧
    ((if p.Len > 0 then p.Len else 24) < 2 ^ 53 →
      (Done clk1 p).fault = none ∧ (Done clk2 (Done clk1 p).proc).fault = none ∧
      percentages (Done clk2 (Done clk1 p).proc).events = percentages (Done clk1 p).events ∧
      percentages (Done clk1 p).events = [Arg.float (fin 100)] ∧
      fractions (Done clk2 (Done clk1 p).proc).events = fractions (Done clk1 p).events ∧
      (writes (Done clk2 (Done clk1 p).proc).events).map (fun t => t.2.1) =
        (writes (Done clk1 p).events).map (fun t => t.2.1) ∧
      (writes (Done clk1 p).events).length = 1) := by
  have hT : getTotal { p with value := getTotal p } = getTotal p := rfl
  have hself : ∀ r : Process, r.value = getTotal r →
      ({ r with value := getTotal r } : Process) = r := by
    intro r hr
    cases r
    simp only at hr
    rw [Process.mk.injEq]
    exact ⟨rfl, hr.symm, rfl, rfl, rfl, rfl, rfl, rfl, rfl⟩
  have hr : (onceDo clk1 { p with value := getTotal p }).value =
      getTotal (onceDo clk1 { p with value := getTotal p }) := by
    rw [value_onceDo, getTotal_onceDo]
    exact hT.symm
  have hproc : (Done clk1 p).proc = onceDo clk1 { p with value := getTotal p } :=
    render_proc clk1 _
  have hproc2 : (Done clk2 (onceDo clk1 { p with value := getTotal p })).proc =
      onceDo clk1 { p with value := getTotal p } := by
    show (render clk2 _).proc = _
    rw [render_proc, hself _ hr, onceDo_of_once clk2 _ (once_onceDo clk1 _)]
  have hc : le (getTotal { p with value := getTotal p })
      ({ p with value := getTotal p } : Process).value = true := getTotal_le_self p
  have hrate : getRate { p with value := getTotal p } = fin 1 := getRate_of_complete _ hc
  rw [hproc, hproc2]
  refine ⟨rfl, ⟨rfl, rfl, rfl, rfl, rfl⟩, fun hw => ?_⟩
  have hw1 : getLen (onceDo clk1 { p with value := getTotal p }) < 2 ^ 53 := by
    rw [getLen_onceDo]; exact hw
  have h2 : Done clk2 (onceDo clk1 { p with value := getTotal p }) =
      ⟨onceDo clk1 { p with value := getTotal p },
        written clk2 (onceDo clk1 { p with value := getTotal p }).startTime
          (onceDo clk1 { p with value := getTotal p }) ::
          completion (onceDo clk1 { p with value := getTotal p }), none⟩ := by
    rw [Done_eq clk2 _ hw1, hself _ hr, onceDo_of_once clk2 _ (once_onceDo clk1 _)]
  rw [h2, Done_eq clk1 p hw]
  refine ⟨rfl, rfl, ?_, ?_, ?_, ?_, ?_⟩
  · simp [percentages_written, percentages_completion]
  · simp [percentages_written, percentages_completion, hrate, mul_one_hundred]
  · simp [fractions_written, fractions_completion]
  · simp [written, writes, writes_completion, fillCount, lineFormat]
  · simp [written, writes, writes_completion]

/-- Witness of C16 (amended) on the zero tracker: both calls of `Done()` write
once and hand over 100%. -/
theorem C16_done_idempotent_witness :
    (if Process.zero.Len > 0 then Process.zero.Len else 24) < 2 ^ 53 ∧
    (Done ⟨0, 0⟩ Process.zero).fault = none ∧
    (Done ⟨1, 1⟩ (Done ⟨0, 0⟩ Process.zero).proc).fault = none ∧
    percentages (Done ⟨1, 1⟩ (Done ⟨0, 0⟩ Process.zero).proc).events =
      [Arg.float (fin 100)] := by
  have hw : (if Process.zero.Len > 0 then Process.zero.Len else 24) < 2 ^ 53 := by
    norm_num [Process.zero]
  have h := (C16_done_idempotent Process.zero ⟨0, 0⟩ ⟨1, 1⟩).2.2 hw
  refine ⟨hw, h.1, h.2.1, ?_⟩
  rw [h.2.2.1, h.2.2.2.1]

end Progress
